import Mathlib

/-!
# String algorithms of `main.cpp`: KMP, Z-function, Manacher, naive suffix array

Shallow embedding of the four algorithms of `src/main.cpp` and proofs of their
contracts.

Modelling conventions.

* A `std::string` is a `List Char`, a `std::vector<int>` is a `List Int`.
* An `int` is an `Int` kept in the 32-bit two's complement range: every `int`
  addition, subtraction and product, and every conversion to `int`, goes through
  `toInt`, which wraps modulo `2^32` as the machine does.
* A `size_t` is a `Nat`. A container holds far fewer than `2^64` elements, so a
  loop counter that runs over a container does not wrap. Where a `size_t`
  expression mixes in an `int` or subtracts, its value goes through `toSize`,
  which wraps modulo `2^64`.
* A read `v[k]` of a vector is `v[k]?`, and a read `s[k]` of a string is
  `strAt s k`, which also yields the terminating NUL at `k = s.size()`: a read
  outside the container makes the whole function return `none`.
* A `while` loop, or a `for` loop whose counter is not advanced in every
  iteration, recurses on a fuel argument; running out of fuel is `none` too.
  The entry points supply the fuel, and the theorems show it is enough.
* A `for` loop that advances its counter in every iteration recurses on the
  number of iterations it has left.

The functions whose name ends in `Nat` are the same loops over unbounded natural
numbers. They are not the code: they are what the code computes as long as no
`int` wraps, and the proofs compare the code with them under the length bounds
of the theorems. Beyond those bounds the code and these functions part: the
theorems on `List.replicate` and `abcCycle` inputs follow the code through the
first wrap.
-/

namespace StringAlgos

/-! ## Machine integers and reads -/

/-- The value of an `int` (32 bits, two's complement) that receives the integer
`x` from arithmetic or from a conversion: `x` wrapped into `[-2^31, 2^31)`. -/
def toInt (x : Int) : Int :=
  (x + 2147483648) % 4294967296 - 2147483648

/-- The value of a `size_t` (64 bits) that receives the integer `x` from
arithmetic or from the conversion of an `int`: `x` wrapped into `[0, 2^64)`. -/
def toSize (x : Int) : Nat :=
  (x % 18446744073709551616).toNat

/-- The read `s[k]` of a `std::string`: the character at `k`, the terminating
NUL at `k = s.size()`, and nothing beyond. -/
def strAt (s : List Char) (k : Nat) : Option Char :=
  if k = s.length then some (Char.ofNat 0) else s[k]?

/-! ## KMP: failure function and search (the code) -/

/-- The loop of `buildLPS` (lines 13-17), from the state `(lps, len, i)`. -/
def buildLPSLoop (pat : List Char) : Nat → List Int → Int → Nat → Option (List Int)
  | 0, lps, _, i => if i < pat.length then none else some lps
  | fuel + 1, lps, len, i =>
    if i < pat.length then
      match strAt pat i, strAt pat (toSize len) with
      | some a, some b =>
        if a = b then
          -- lps[i++] = ++len
          if i < lps.length then
            buildLPSLoop pat fuel (lps.set i (toInt (len + 1))) (toInt (len + 1)) (i + 1)
          else none
        else if len ≠ 0 then
          -- len = lps[len - 1]
          match lps[toSize (toInt (len - 1))]? with
          | some l => buildLPSLoop pat fuel lps l i
          | none => none
        else
          -- lps[i++] = 0
          if i < lps.length then buildLPSLoop pat fuel (lps.set i 0) 0 (i + 1)
          else none
      | _, _ => none
    else some lps

/-- The function `buildLPS` (lines 10-19): `lps` starts as `pat.size()` zeros,
`len = 0`, `i = 1`. -/
def buildLPS (pat : List Char) : Option (List Int) :=
  buildLPSLoop pat (2 * pat.length) (List.replicate pat.length 0) 0 1

/-- The loop of `kmpSearch` (lines 25-31), from the state `(i, j, pos)`; `i` and
`j` are `size_t`, the recorded position is `int(i - j)`. -/
def kmpLoop (txt pat : List Char) (lps : List Int) :
    Nat → Nat → Nat → List Int → Option (List Int)
  | 0, i, _, pos => if i < txt.length then none else some pos
  | fuel + 1, i, j, pos =>
    if i < txt.length then
      match strAt txt i, strAt pat j with
      | some a, some b =>
        if a = b then
          -- i++; j++; if (j == pat.size()) { pos.push_back(int(i - j)); j = lps[j - 1]; }
          if j + 1 = pat.length then
            match lps[j + 1 - 1]? with
            | some l =>
              kmpLoop txt pat lps fuel (i + 1) (toSize l)
                (pos ++ [toInt (toSize (((i + 1 : Nat) : Int) - ((j + 1 : Nat) : Int)))])
            | none => none
          else kmpLoop txt pat lps fuel (i + 1) (j + 1) pos
        else if j ≠ 0 then
          -- j = lps[j - 1]
          match lps[j - 1]? with
          | some l => kmpLoop txt pat lps fuel i (toSize l) pos
          | none => none
        else kmpLoop txt pat lps fuel (i + 1) 0 pos
      | _, _ => none
    else some pos

/-- The function `kmpSearch` (lines 21-33). -/
def kmpSearch (txt pat : List Char) : Option (List Int) :=
  if pat = [] then some []
  else
    match buildLPS pat with
    | some lps => kmpLoop txt pat lps (2 * txt.length) 0 0 []
    | none => none

/-! ## Z-function and search (the code) -/

/-- The `while` loop of `zFunction` (line 41) at index `i`; the entry `Z[i]` it
increments is held in `z` and stored when the loop ends. -/
def zExtend (s : List Char) (i : Nat) : Nat → Int → Option Int
  | 0, z => if toSize (i + z) < s.length then none else some z
  | fuel + 1, z =>
    if toSize (i + z) < s.length then
      match strAt s (toSize z), strAt s (toSize (i + z)) with
      | some a, some b => if a = b then zExtend s i fuel (toInt (z + 1)) else some z
      | _, _ => none
    else some z

/-- The value `Z[i]` has when the `while` loop of `zFunction` starts (line 40):
`min(R - (int)i + 1, Z[i - L])` if `(int)i <= R`, and the entry as it stands
otherwise. -/
def zSeed (Z : List Int) (L R : Int) (i : Nat) : Option Int :=
  if toInt i ≤ R then
    match Z[toSize (i - L)]? with
    | some v => some (min (toInt (toInt (R - toInt i) + 1)) v)
    | none => none
  else Z[i]?

/-- The `for` loop of `zFunction` (lines 39-43) from index `i` with `k`
iterations left, in the state `(Z, L, R)`. -/
def zLoop (s : List Char) : Nat → Nat → List Int → Int → Int → Option (List Int)
  | 0, _, Z, _, _ => some Z
  | k + 1, i, Z, L, R =>
    match zSeed Z L R i with
    | some z0 =>
      match zExtend s i s.length z0 with
      | some z =>
        if i < Z.length then
          -- if ((int)i + Z[i] - 1 > R) { L = (int)i; R = (int)i + Z[i] - 1; }
          if toInt (toInt (toInt i + z) - 1) > R then
            zLoop s k (i + 1) (Z.set i z) (toInt i) (toInt (toInt (toInt i + z) - 1))
          else zLoop s k (i + 1) (Z.set i z) L R
        else none
      | none => none
    | none => none

/-- The function `zFunction` (lines 36-45): `Z` starts as `s.size()` zeros,
`L = R = 0`, and `i` runs from `1` to `s.size() - 1`. -/
def zFunction (s : List Char) : Option (List Int) :=
  zLoop s (s.length - 1) 1 (List.replicate s.length 0) 0 0

/-- The loop of `zSearch` (lines 51-52) from index `i` with `k` iterations
left; `m` is `pat.size()`, compared as `(int)pat.size()`, and the recorded
position is `int(i - pat.size() - 1)`. -/
def zSearchLoop (Z : List Int) (m : Nat) : Nat → Nat → List Int → Option (List Int)
  | 0, _, pos => some pos
  | k + 1, i, pos =>
    match Z[i]? with
    | some z =>
      zSearchLoop Z m k (i + 1)
        (if z = toInt m then pos ++ [toInt (toSize ((i : Int) - m - 1))] else pos)
    | none => none

/-- The function `zSearch` (lines 47-54). -/
def zSearch (txt pat : List Char) : Option (List Int) :=
  if pat = [] then some []
  else
    match zFunction (pat ++ '$' :: txt) with
    | some Z =>
      zSearchLoop Z pat.length ((pat ++ '$' :: txt).length - (pat.length + 1))
        (pat.length + 1) []
    | none => none

/-! ## Manacher: longest palindromic substring (the code) -/

/-- The body of the transformed string (line 60): `'#'` before every character. -/
def interleave : List Char → List Char
  | [] => []
  | c :: cs => '#' :: c :: interleave cs

/-- The transformed string `t` (lines 59-61): `"^"`, then `'#'` and `c` for
every character `c` of `s`, then `"#$"`. -/
def manacherT (s : List Char) : List Char :=
  '^' :: (interleave s ++ ['#', '$'])

/-- The `while` loop of Manacher (line 68) at index `i`; the entry `P[i]` it
increments is held in `p` and stored when the loop ends. The two indices
`i + 1 + P[i]` and `i - 1 - P[i]` are `size_t` values. -/
def mExpand (t : List Char) (i : Nat) : Nat → Int → Option Int
  | 0, _ => none
  | fuel + 1, p =>
    match strAt t (toSize (i + 1 + p)), strAt t (toSize (i - 1 - p)) with
    | some a, some b => if a = b then mExpand t i fuel (toInt (p + 1)) else some p
    | _, _ => none

/-- The value `P[i]` has when the `while` loop starts (lines 66-67):
`min(R - (int)i, P[mirror])` if `R > (int)i`, and the entry as it stands
otherwise; `mirror` is the `size_t` that receives `2*C - i`, where `2*C` is an
`int` product. -/
def mSeed (P : List Int) (C R : Int) (i : Nat) : Option Int :=
  if R > toInt i then
    match P[toSize (toInt (2 * C) - i)]? with
    | some v => some (min (toInt (R - toInt i)) v)
    | none => none
  else P[i]?

/-- The first `for` loop of Manacher (lines 65-70) from index `i` with `k`
iterations left, in the state `(P, C, R)`. -/
def mLoop (t : List Char) : Nat → Nat → List Int → Int → Int → Option (List Int)
  | 0, _, P, _, _ => some P
  | k + 1, i, P, C, R =>
    match mSeed P C R i with
    | some p0 =>
      match mExpand t i t.length p0 with
      | some p =>
        if i < P.length then
          -- if ((int)i + P[i] > R) { C = (int)i; R = (int)i + P[i]; }
          if toInt (toInt i + p) > R then
            mLoop t k (i + 1) (P.set i p) (toInt i) (toInt (toInt i + p))
          else mLoop t k (i + 1) (P.set i p) C R
        else none
      | none => none
    | none => none

/-- The second `for` loop of Manacher (lines 72-73) from index `i` with `k`
iterations left, in the state `(maxLen, center)`. -/
def mBest (P : List Int) : Nat → Nat → Int → Int → Option (Int × Int)
  | 0, _, maxLen, center => some (maxLen, center)
  | k + 1, i, maxLen, center =>
    match P[i]? with
    | some p =>
      if p > maxLen then mBest P k (i + 1) p (toInt i)
      else mBest P k (i + 1) maxLen center
    | none => none

/-- The function `longestPalSubstring_Manacher` (lines 57-76). Both loops run
over `1 ≤ i < t.size() - 1`. The division of `start = (center - maxLen) / 2`
truncates towards zero; `substr` converts `start` and `maxLen` to `size_t`,
throws (here `none`) when the start lies beyond the end of `s`, and cuts the
count at the end of `s`. -/
def longestPalSubstring_Manacher (s : List Char) : Option (List Char) :=
  if s = [] then some []
  else
    match mLoop (manacherT s) ((manacherT s).length - 2) 1
        (List.replicate (manacherT s).length 0) 0 0 with
    | some P =>
      match mBest P (P.length - 2) 1 0 0 with
      | some (maxLen, center) =>
        if toSize (Int.tdiv (toInt (center - maxLen)) 2) ≤ s.length then
          some ((s.drop (toSize (Int.tdiv (toInt (center - maxLen)) 2))).take
            (toSize maxLen))
        else none
      | none => none
    | none => none

/-! ## The same loops over unbounded natural numbers

Reference functions for the proofs: every counter and entry is a natural
number that never wraps, and every read outside `0..size-1` is a failure. -/

/-- The loop `buildLPSLoop` over natural numbers. -/
def buildLPSLoopNat (pat : List Char) : Nat → List Nat → Nat → Nat → Option (List Nat)
  | 0, lps, _, i => if i < pat.length then none else some lps
  | fuel + 1, lps, len, i =>
    if i < pat.length then
      match pat[i]?, pat[len]? with
      | some a, some b =>
        if a = b then
          -- lps[i++] = ++len
          if i < lps.length then buildLPSLoopNat pat fuel (lps.set i (len + 1)) (len + 1) (i + 1)
          else none
        else if len ≠ 0 then
          -- len = lps[len - 1]
          match lps[len - 1]? with
          | some l => buildLPSLoopNat pat fuel lps l i
          | none => none
        else
          -- lps[i++] = 0
          if i < lps.length then buildLPSLoopNat pat fuel (lps.set i 0) 0 (i + 1)
          else none
      | _, _ => none
    else some lps

/-- The function `buildLPS` over natural numbers. -/
def buildLPSNat (pat : List Char) : Option (List Nat) :=
  buildLPSLoopNat pat (2 * pat.length) (List.replicate pat.length 0) 0 1

/-- The loop `kmpLoop` over natural numbers: the recorded position is `i - j`,
not narrowed. -/
def kmpLoopNat (txt pat : List Char) (lps : List Nat) :
    Nat → Nat → Nat → List Nat → Option (List Nat)
  | 0, i, _, pos => if i < txt.length then none else some pos
  | fuel + 1, i, j, pos =>
    if i < txt.length then
      match txt[i]?, pat[j]? with
      | some a, some b =>
        if a = b then
          -- i++; j++; if (j == pat.size()) { pos.push_back(i - j); j = lps[j - 1]; }
          if j + 1 = pat.length then
            match lps[j + 1 - 1]? with
            | some l => kmpLoopNat txt pat lps fuel (i + 1) l (pos ++ [(i + 1) - (j + 1)])
            | none => none
          else kmpLoopNat txt pat lps fuel (i + 1) (j + 1) pos
        else if j ≠ 0 then
          -- j = lps[j - 1]
          match lps[j - 1]? with
          | some l => kmpLoopNat txt pat lps fuel i l pos
          | none => none
        else kmpLoopNat txt pat lps fuel (i + 1) 0 pos
      | _, _ => none
    else some pos

/-- The function `kmpSearch` over natural numbers. -/
def kmpSearchNat (txt pat : List Char) : Option (List Nat) :=
  if pat = [] then some []
  else
    match buildLPSNat pat with
    | some lps => kmpLoopNat txt pat lps (2 * txt.length) 0 0 []
    | none => none

/-- The loop `zExtend` over natural numbers. -/
def zExtendNat (s : List Char) (i : Nat) : Nat → Nat → Option Nat
  | 0, z => if i + z < s.length then none else some z
  | fuel + 1, z =>
    if i + z < s.length then
      match s[z]?, s[i + z]? with
      | some a, some b => if a = b then zExtendNat s i fuel (z + 1) else some z
      | _, _ => none
    else some z

/-- The seed `zSeed` over natural numbers: `min(R - i + 1, Z[i - L])` if
`i <= R`, and the entry as it stands otherwise; an index `i - L` below zero is
a failure. -/
def zSeedNat (Z : List Nat) (L R i : Nat) : Option Nat :=
  if i ≤ R then
    if L ≤ i then
      match Z[i - L]? with
      | some v => some (min (R - i + 1) v)
      | none => none
    else none
  else Z[i]?

/-- The loop `zLoop` over natural numbers. -/
def zLoopNat (s : List Char) : Nat → Nat → List Nat → Nat → Nat → Option (List Nat)
  | 0, _, Z, _, _ => some Z
  | k + 1, i, Z, L, R =>
    match zSeedNat Z L R i with
    | some z0 =>
      match zExtendNat s i s.length z0 with
      | some z =>
        if i < Z.length then
          -- if (i + Z[i] - 1 > R) { L = i; R = i + Z[i] - 1; }
          if i + z - 1 > R then zLoopNat s k (i + 1) (Z.set i z) i (i + z - 1)
          else zLoopNat s k (i + 1) (Z.set i z) L R
        else none
      | none => none
    | none => none

/-- The function `zFunction` over natural numbers. -/
def zFunctionNat (s : List Char) : Option (List Nat) :=
  zLoopNat s (s.length - 1) 1 (List.replicate s.length 0) 0 0

/-- The loop `zSearchLoop` over natural numbers. -/
def zSearchLoopNat (Z : List Nat) (m : Nat) : Nat → Nat → List Nat → Option (List Nat)
  | 0, _, pos => some pos
  | k + 1, i, pos =>
    match Z[i]? with
    | some z => zSearchLoopNat Z m k (i + 1) (if z = m then pos ++ [i - m - 1] else pos)
    | none => none

/-- The function `zSearch` over natural numbers. -/
def zSearchNat (txt pat : List Char) : Option (List Nat) :=
  if pat = [] then some []
  else
    match zFunctionNat (pat ++ '$' :: txt) with
    | some Z =>
      zSearchLoopNat Z pat.length ((pat ++ '$' :: txt).length - (pat.length + 1))
        (pat.length + 1) []
    | none => none

/-- The loop `mExpand` over natural numbers: an index `i - 1 - P[i]` below zero
and an index `i + 1 + P[i]` at or beyond `t.size()` are failures. -/
def mExpandNat (t : List Char) (i : Nat) : Nat → Nat → Option Nat
  | 0, _ => none
  | fuel + 1, p =>
    if i < 1 + p then none
    else
      match t[i + 1 + p]?, t[i - 1 - p]? with
      | some a, some b => if a = b then mExpandNat t i fuel (p + 1) else some p
      | _, _ => none

/-- The seed `mSeed` over natural numbers: `min(R - i, P[mirror])` with
`mirror = 2*C - i` if `R > i`, and the entry as it stands otherwise; an index
`mirror` below zero is a failure. -/
def mSeedNat (P : List Nat) (C R i : Nat) : Option Nat :=
  if R > i then
    if i ≤ 2 * C then
      match P[2 * C - i]? with
      | some v => some (min (R - i) v)
      | none => none
    else none
  else P[i]?

/-- The loop `mLoop` over natural numbers. -/
def mLoopNat (t : List Char) : Nat → Nat → List Nat → Nat → Nat → Option (List Nat)
  | 0, _, P, _, _ => some P
  | k + 1, i, P, C, R =>
    match mSeedNat P C R i with
    | some p0 =>
      match mExpandNat t i t.length p0 with
      | some p =>
        if i < P.length then
          -- if (i + P[i] > R) { C = i; R = i + P[i]; }
          if i + p > R then mLoopNat t k (i + 1) (P.set i p) i (i + p)
          else mLoopNat t k (i + 1) (P.set i p) C R
        else none
      | none => none
    | none => none

/-- The loop `mBest` over natural numbers. -/
def mBestNat (P : List Nat) : Nat → Nat → Nat → Nat → Option (Nat × Nat)
  | 0, _, maxLen, center => some (maxLen, center)
  | k + 1, i, maxLen, center =>
    match P[i]? with
    | some p =>
      if p > maxLen then mBestNat P k (i + 1) p i
      else mBestNat P k (i + 1) maxLen center
    | none => none

/-- The function `longestPalSubstring_Manacher` over natural numbers: a negative
`center - maxLen` and a `start` beyond the end of `s` are failures. -/
def longestPalSubstring_ManacherNat (s : List Char) : Option (List Char) :=
  if s = [] then some []
  else
    match mLoopNat (manacherT s) ((manacherT s).length - 2) 1
        (List.replicate (manacherT s).length 0) 0 0 with
    | some P =>
      match mBestNat P (P.length - 2) 1 0 0 with
      | some (maxLen, center) =>
        if maxLen ≤ center then
          if (center - maxLen) / 2 ≤ s.length then
            some ((s.drop ((center - maxLen) / 2)).take maxLen)
          else none
        else none
      | none => none
    | none => none

/-! ## Naive suffix array -/

/-- The comparison `operator<` of `std::string`: lexicographic on the character
codes, a proper prefix being smaller. -/
def strLt : List Char → List Char → Bool
  | _, [] => false
  | [], _ :: _ => true
  | a :: as, b :: bs => if a < b then true else if b < a then false else strLt as bs

/-- The call `std::sort(first, last, comp)`: the elements in an order in which no
element is `comp`-smaller than an earlier one. The comparator of
`suffixArrayNaive` never finds two of its elements equivalent, so this order is
unique (`suffixArrayNaive_unique`); it is computed here by insertion. -/
def stdSort {α : Type} (comp : α → α → Bool) (l : List α) : List α :=
  l.insertionSort (fun a b => comp b a = false)

/-- The function `suffixArrayNaive` (lines 79-87). The index `(int)i` stored with
each suffix is kept as the natural number `i`: the function holds all the
suffixes of `s` at once, `|s| (|s| + 1) / 2` characters, so that `|s|` is far
below `2^31` on every input it can process, and the cast does not wrap. -/
def suffixArrayNaive (s : List Char) : List Nat :=
  (stdSort (fun a b => strLt a.1 b.1)
    ((List.range s.length).map (fun i => (s.drop i, i)))).map Prod.snd

/-! ## Specification predicates for KMP -/

/-- The `vector<int>` that holds the natural numbers of `l`. -/
def castL (l : List Nat) : List Int :=
  l.map (fun (v : Nat) => (v : Int))

/-- The `vector<int>` that receives the natural numbers of `l` through the
conversion to `int`. -/
def narrowL (l : List Nat) : List Int :=
  l.map (fun (p : Nat) => toInt (p : Int))


/-- The first `j` characters of `pat` are the last `j` characters of `txt[0..i)`. -/
def PS (pat txt : List Char) (i j : Nat) : Prop :=
  j ≤ i ∧ i ≤ txt.length ∧ j ≤ pat.length ∧ ∀ t, t < j → pat[t]? = txt[i - j + t]?

/-- The number `k` is the length of a proper border of `pat[0..q)`: a prefix of
`pat[0..q)`, shorter than `q`, that is also a suffix of it. -/
def Bord (pat : List Char) (q k : Nat) : Prop :=
  k < q ∧ PS pat pat q k

/-- The number `v` is the length of the longest proper border of `pat[0..q)`. -/
def LpsOK (pat : List Char) (q v : Nat) : Prop :=
  Bord pat q v ∧ ∀ k, Bord pat q k → k ≤ v

/-- The number `j` is the length of the longest prefix of `pat` that ends `txt[0..i)`. -/
def MaxPS (pat txt : List Char) (i j : Nat) : Prop :=
  PS pat txt i j ∧ ∀ k, PS pat txt i k → k ≤ j

/-- The invariant of the matching automaton at the state `(i, j)`: `pat[0..j)`
ends `txt[0..i)`, `j` is a position of `pat`, and every prefix of `pat` that
can be extended by `txt[i]` is no longer than `j`. -/
def Inv (pat txt : List Char) (i j : Nat) : Prop :=
  PS pat txt i j ∧ j < pat.length ∧
    ∀ k, k < pat.length → PS pat txt (i + 1) (k + 1) → k ≤ j

/-- The entries `lps[0..i)` are the longest-border lengths of
`pat[0..1)`, ..., `pat[0..i)`. -/
def LpsUpTo (pat : List Char) (lps : List Nat) (i : Nat) : Prop :=
  ∀ q, q < i → ∃ v, lps[q]? = some v ∧ LpsOK pat (q + 1) v

/-- The start positions, in ascending order, of the occurrences of `pat` in
`txt` that end at or before position `i`. -/
def occUpTo (txt pat : List Char) (i : Nat) : List Nat :=
  (List.range (i + 1 - pat.length)).filter
    (fun p => decide ((txt.drop p).take pat.length = pat))

/-- All start positions of `pat` in `txt`, in ascending order. -/
def occurrences (txt pat : List Char) : List Nat :=
  occUpTo txt pat txt.length

/-! ## Specification predicates for the Z-function -/

/-- The length of the longest common prefix of two sequences. -/
def lcpLen : List Char → List Char → Nat
  | a :: as, b :: bs => if a = b then lcpLen as bs + 1 else 0
  | _, _ => 0

/-- The first `z` characters of `s` are the first `z` characters of `s[i..]`. -/
def ZSound (s : List Char) (i z : Nat) : Prop :=
  i + z ≤ s.length ∧ ∀ t, t < z → s[t]? = s[i + t]?

/-- The number `z` is the length of the longest common prefix of `s` and `s[i..]`. -/
def IsZ (s : List Char) (i z : Nat) : Prop :=
  ZSound s i z ∧ (i + z < s.length → s[z]? ≠ s[i + z]?)

/-- The invariant of the loop of `zFunctionNat` when iteration `i` starts. -/
def ZInv (s : List Char) (i : Nat) (Z : List Nat) (L R : Nat) : Prop :=
  Z.length = s.length ∧
  (∀ k, k < s.length → ∃ z, Z[k]? = some z ∧ ZSound s k z) ∧
  (∀ k, 1 ≤ k → k < i → k < s.length → ∃ z, Z[k]? = some z ∧ IsZ s k z) ∧
  L ≤ i ∧ R < s.length ∧ ∀ t, L + t ≤ R → s[t]? = s[L + t]?

/-- The start positions below `b`, in ascending order, of the occurrences of
`pat` in `txt` that are not followed by the character `'$'`. -/
def zHitsUpTo (txt pat : List Char) (b : Nat) : List Nat :=
  (List.range b).filter
    (fun p => decide (p + pat.length ≤ txt.length ∧
      (txt.drop p).take pat.length = pat ∧ txt[p + pat.length]? ≠ some '$'))

/-! ## Specification predicates for Manacher -/

/-- Around the index `c` the sequence `t` reads the same in both directions up
to the distance `p`, without leaving `t`. -/
def PalAt (t : List Char) (c p : Nat) : Prop :=
  p ≤ c ∧ c + p < t.length ∧ ∀ x, x ≤ p → t[c - x]? = t[c + x]?

/-- The number `p` is the palindrome radius of `t` at `c`: the largest distance
up to which `t` reads the same in both directions around `c`. -/
def IsRad (t : List Char) (c p : Nat) : Prop :=
  PalAt t c p ∧ ¬ PalAt t c (p + 1)

/-- The first and the last character of `t` occur nowhere else in `t`. -/
def Guarded (t : List Char) : Prop :=
  3 ≤ t.length ∧ (∀ k, 1 ≤ k → k < t.length → t[k]? ≠ t[0]?) ∧
    (∀ k, k + 1 < t.length → t[k]? ≠ t[t.length - 1]?)

/-- The invariant of the first loop of Manacher when iteration `i` starts. -/
def MInv (t : List Char) (i : Nat) (P : List Nat) (C R : Nat) : Prop :=
  P.length = t.length ∧
  (∀ k, k < t.length → ∃ p, P[k]? = some p ∧ PalAt t k p) ∧
  (∀ k, 1 ≤ k → k < i → ∃ p, P[k]? = some p ∧ IsRad t k p) ∧
  C ≤ i ∧ C ≤ R ∧ PalAt t C (R - C)

/-- The invariant of the second loop of Manacher when iteration `i` starts:
`maxLen` bounds the entries `P[1..i)`, and either nothing was recorded yet or
`center` is the first index that holds `maxLen`. -/
def BestInv (P : List Nat) (i maxLen center : Nat) : Prop :=
  (∀ k, 1 ≤ k → k < i → ∃ p, P[k]? = some p ∧ p ≤ maxLen) ∧
  ((maxLen = 0 ∧ center = 0) ∨
    (1 ≤ maxLen ∧ 1 ≤ center ∧ center < i ∧ P[center]? = some maxLen ∧
      ∀ k, 1 ≤ k → k < center → ∃ p, P[k]? = some p ∧ p < maxLen))

/-- The substring `s[a .. a+L)` lies in `s` and is a palindrome. -/
def PalS (s : List Char) (a L : Nat) : Prop :=
  a + L ≤ s.length ∧ ∀ x, x < L → s[a + x]? = s[a + L - 1 - x]?

/-- The character at index `k` of the sequence `abcabcabc...`. -/
def abcAt (k : Nat) : Char :=
  if k % 3 = 0 then 'a' else if k % 3 = 1 then 'b' else 'c'

/-- The first `N` characters of `abcabcabc...`: a sequence in which no two
characters at distance `1` or `2` are equal, so that it has no palindromic
substring longer than one character. -/
def abcCycle (N : Nat) : List Char :=
  (List.range N).map abcAt

/-! ## Borders and the matching automaton -/

theorem ps_zero {pat txt : List Char} {i : Nat} (h : i ≤ txt.length) : PS pat txt i 0 :=
  ⟨Nat.zero_le _, h, Nat.zero_le _, fun t ht => absurd ht (Nat.not_lt_zero t)⟩

theorem ps_extend {pat txt : List Char} {i j : Nat} (h : PS pat txt i j)
    (hj : j < pat.length) (hi : i < txt.length) (he : pat[j]? = txt[i]?) :
    PS pat txt (i + 1) (j + 1) := by
  obtain ⟨h1, _, _, h4⟩ := h
  refine ⟨by omega, by omega, by omega, fun t ht => ?_⟩
  by_cases htj : t = j
  · subst htj
    have e : i + 1 - (t + 1) + t = i := by omega
    rw [e]; exact he
  · have e : i + 1 - (j + 1) + t = i - j + t := by omega
    rw [e]; exact h4 t (by omega)

theorem ps_shrink {pat txt : List Char} {i j : Nat} (h : PS pat txt (i + 1) (j + 1)) :
    PS pat txt i j ∧ pat[j]? = txt[i]? := by
  obtain ⟨h1, h2, h3, h4⟩ := h
  refine ⟨⟨by omega, by omega, by omega, fun t ht => ?_⟩, ?_⟩
  · have e : i + 1 - (j + 1) + t = i - j + t := by omega
    rw [← e]; exact h4 t (by omega)
  · have e : i + 1 - (j + 1) + j = i := by omega
    rw [← e]; exact h4 j (by omega)

theorem ps_compose {pat txt : List Char} {i j k : Nat} (h : PS pat txt i j)
    (hb : PS pat pat j k) : PS pat txt i k := by
  obtain ⟨h1, h2, h3, h4⟩ := h
  obtain ⟨b1, _, _, b4⟩ := hb
  refine ⟨by omega, h2, by omega, fun t ht => ?_⟩
  have e : i - k + t = i - j + (j - k + t) := by omega
  rw [b4 t ht, e]
  exact h4 _ (by omega)

theorem ps_restrict {pat txt : List Char} {i j k : Nat} (h : PS pat txt i j)
    (hk : PS pat txt i k) (hkj : k ≤ j) : PS pat pat j k := by
  obtain ⟨h1, _, h3, h4⟩ := h
  obtain ⟨_, _, k3, k4⟩ := hk
  refine ⟨hkj, h3, k3, fun t ht => ?_⟩
  have e : i - k + t = i - j + (j - k + t) := by omega
  rw [k4 t ht, e]
  exact (h4 _ (by omega)).symm

theorem bord_iff_ps_drop {pat : List Char} {q k : Nat} (hq : 1 ≤ q)
    (hm : 1 ≤ pat.length) : Bord pat q k ↔ PS pat (pat.drop 1) (q - 1) k := by
  unfold Bord PS
  simp only [List.length_drop, List.getElem?_drop]
  constructor
  · rintro ⟨h0, _, h2, h3, h4⟩
    refine ⟨by omega, by omega, h3, fun t ht => ?_⟩
    have e : 1 + (q - 1 - k + t) = q - k + t := by omega
    rw [e]; exact h4 t ht
  · rintro ⟨h1, h2, h3, h4⟩
    refine ⟨by omega, by omega, by omega, h3, fun t ht => ?_⟩
    have e : 1 + (q - 1 - k + t) = q - k + t := by omega
    rw [← e]; exact h4 t ht

theorem lpsOK_of_maxPS {pat : List Char} {i v : Nat} (hm : 1 ≤ pat.length)
    (h : MaxPS pat (pat.drop 1) i v) : LpsOK pat (i + 1) v :=
  ⟨(bord_iff_ps_drop (Nat.succ_pos i) hm).2 h.1,
    fun k hk => h.2 k ((bord_iff_ps_drop (Nat.succ_pos i) hm).1 hk)⟩

/-- After a match the extended prefix is the longest one ending at `i + 1`. -/
theorem maxPS_of_match {pat txt : List Char} {i j : Nat} (h : Inv pat txt i j)
    (hi : i < txt.length) (he : pat[j]? = txt[i]?) : MaxPS pat txt (i + 1) (j + 1) := by
  obtain ⟨h1, h2, h3⟩ := h
  refine ⟨ps_extend h1 h2 hi he, fun k hk => ?_⟩
  rcases k with _ | k
  · omega
  · have hk3 : k + 1 ≤ pat.length := hk.2.2.1
    have := h3 k (by omega) hk
    omega

/-- A longest prefix that is not the whole pattern gives the invariant. -/
theorem inv_of_maxPS {pat txt : List Char} {i j : Nat} (h : MaxPS pat txt i j)
    (hj : j < pat.length) : Inv pat txt i j :=
  ⟨h.1, hj, fun _ _ hk => h.2 _ (ps_shrink hk).1⟩

/-- After a full match the automaton falls back to the longest border of `pat`. -/
theorem inv_of_full {pat txt : List Char} {i v : Nat}
    (h : MaxPS pat txt i pat.length) (hv : LpsOK pat pat.length v) : Inv pat txt i v := by
  refine ⟨ps_compose h.1 hv.1.2, by have := hv.1.1; omega, fun k hk hps => ?_⟩
  have hk' := (ps_shrink hps).1
  exact hv.2 k ⟨hk, ps_restrict h.1 hk' (by omega)⟩

/-- After a mismatch at `j > 0` the automaton falls back to the longest border
of `pat[0..j)`. -/
theorem inv_of_mismatch {pat txt : List Char} {i j v : Nat} (h : Inv pat txt i j)
    (hne : pat[j]? ≠ txt[i]?) (hv : LpsOK pat j v) : Inv pat txt i v := by
  obtain ⟨h1, h2, h3⟩ := h
  refine ⟨ps_compose h1 hv.1.2, by have := hv.1.1; omega, fun k hk hps => ?_⟩
  have hkj := h3 k hk hps
  have hs := ps_shrink hps
  have hlt : k < j := by
    rcases Nat.lt_or_ge k j with hlt | hge
    · exact hlt
    · have : k = j := by omega
      subst this; exact absurd hs.2 hne
  exact hv.2 k ⟨hlt, ps_restrict h1 hs.1 hkj⟩

/-- After a mismatch at `j = 0` no prefix of `pat` ends at `i + 1`. -/
theorem maxPS_of_mismatch_zero {pat txt : List Char} {i : Nat} (h : Inv pat txt i 0)
    (hi : i < txt.length) (hne : pat[0]? ≠ txt[i]?) : MaxPS pat txt (i + 1) 0 := by
  obtain ⟨_, h2, h3⟩ := h
  refine ⟨ps_zero hi, fun k hk => ?_⟩
  rcases k with _ | k
  · omega
  · have hk3 : k + 1 ≤ pat.length := hk.2.2.1
    have hk0 := h3 k (by omega) hk
    have : k = 0 := by omega
    subst this
    exact absurd (ps_shrink hk).2 hne

theorem lpsUpTo_set {pat : List Char} {lps : List Nat} {i v : Nat}
    (h : LpsUpTo pat lps i) (hi : i < lps.length) (hv : LpsOK pat (i + 1) v) :
    LpsUpTo pat (lps.set i v) (i + 1) := by
  intro q hq
  by_cases hqi : q = i
  · subst hqi
    exact ⟨v, List.getElem?_set_self hi, hv⟩
  · rw [List.getElem?_set_ne (Ne.symm hqi)]
    exact h q (by omega)

/-- The loop of `buildLPSNat` returns, and fills `lps` with the longest-border
lengths, from every state that satisfies the invariant. -/
theorem buildLPSLoopNat_spec (pat : List Char) :
    ∀ (fuel : Nat) (lps : List Nat) (len i : Nat),
      i + 1 ≤ pat.length → lps.length = pat.length →
      Inv pat (pat.drop 1) i len → LpsUpTo pat lps (i + 1) →
      2 * pat.length ≤ fuel + (2 * (i + 1) - len) →
      ∃ r, buildLPSLoopNat pat fuel lps len (i + 1) = some r ∧ r.length = pat.length ∧
        LpsUpTo pat r pat.length := by
  intro fuel
  induction fuel with
  | zero =>
    intro lps len i h2 hl hinv hup hf
    have hlen : len ≤ i := hinv.1.1
    have hip : i + 1 = pat.length := by omega
    refine ⟨lps, ?_, hl, hip ▸ hup⟩
    simp [buildLPSLoopNat, hip]
  | succ fuel ih =>
    intro lps len i h2 hl hinv hup hf
    have hlen : len ≤ i := hinv.1.1
    have hm : 1 ≤ pat.length := by omega
    by_cases hi : i + 1 < pat.length
    · have hlen' : len < pat.length := hinv.2.1
      have ha : pat[i + 1]? = some pat[i + 1] := List.getElem?_eq_getElem hi
      have hb : pat[len]? = some pat[len] := List.getElem?_eq_getElem hlen'
      have hti : (pat.drop 1)[i]? = pat[i + 1]? := by
        rw [List.getElem?_drop, Nat.add_comm]
      have hil : i < (pat.drop 1).length := by rw [List.length_drop]; omega
      have hil' : i + 1 < lps.length := by omega
      rw [buildLPSLoopNat, if_pos hi, ha, hb]
      simp only []
      by_cases hab : pat[i + 1] = pat[len]
      · rw [if_pos hab, if_pos hil']
        have he : pat[len]? = (pat.drop 1)[i]? := by rw [hti, ha, hb, hab]
        have hmax := maxPS_of_match hinv hil he
        exact ih _ _ _ (by omega) (by rw [List.length_set]; exact hl)
          (inv_of_maxPS hmax (by omega))
          (lpsUpTo_set hup hil' (lpsOK_of_maxPS hm hmax)) (by omega)
      · rw [if_neg hab]
        have hne : pat[len]? ≠ (pat.drop 1)[i]? := by
          rw [hti, ha, hb]; intro h; exact hab (Option.some.inj h).symm
        by_cases hl0 : len = 0
        · subst hl0
          rw [if_neg (by simp), if_pos hil']
          have hmax := maxPS_of_mismatch_zero hinv hil hne
          exact ih _ _ _ (by omega) (by rw [List.length_set]; exact hl)
            (inv_of_maxPS hmax (by omega))
            (lpsUpTo_set hup hil' (lpsOK_of_maxPS hm hmax)) (by omega)
        · rw [if_pos hl0]
          obtain ⟨v, hv, hok⟩ := hup (len - 1) (by omega)
          have e : len - 1 + 1 = len := by omega
          rw [e] at hok
          rw [hv]
          simp only []
          have hvl : v < len := hok.1.1
          exact ih _ _ _ h2 hl (inv_of_mismatch hinv hne hok) hup (by omega)
    · have hip : i + 1 = pat.length := by omega
      refine ⟨lps, ?_, hl, hip ▸ hup⟩
      rw [buildLPSLoopNat, if_neg hi]

/-- The function `buildLPSNat` returns an array as long as the pattern whose entry
`q` is the length of the longest proper border of `pat[0..q+1)`. -/
theorem buildLPSNat_spec (pat : List Char) :
    ∃ lps, buildLPSNat pat = some lps ∧ lps.length = pat.length ∧
      LpsUpTo pat lps pat.length := by
  rcases Nat.eq_zero_or_pos pat.length with h0 | hpos
  · refine ⟨[], ?_, by simp [h0], fun q hq => by omega⟩
    have : pat = [] := List.length_eq_zero.1 h0
    subst this
    rfl
  · unfold buildLPSNat
    apply buildLPSLoopNat_spec pat _ _ 0 0 hpos (by simp)
    · refine ⟨ps_zero (Nat.zero_le _), hpos, fun k _ hk => ?_⟩
      have := hk.1
      omega
    · intro q hq
      have hq0 : q = 0 := by omega
      subst hq0
      refine ⟨0, by simp [List.getElem?_replicate, hpos], ⟨Nat.one_pos, ps_zero hpos⟩, ?_⟩
      intro k hk
      have := hk.1
      omega
    · omega

theorem ps_iff_take_drop {pat txt : List Char} {i j : Nat} (hji : j ≤ i)
    (hi : i ≤ txt.length) (hj : j ≤ pat.length) :
    PS pat txt i j ↔ pat.take j = (txt.take i).drop (i - j) := by
  constructor
  · rintro ⟨_, _, _, h4⟩
    apply List.ext_getElem?
    intro n
    rw [List.getElem?_take, List.getElem?_drop, List.getElem?_take]
    by_cases hn : n < j
    · rw [if_pos hn, if_pos (by omega)]; exact h4 n hn
    · rw [if_neg hn, if_neg (by omega)]
  · intro h
    refine ⟨hji, hi, hj, fun t ht => ?_⟩
    have := congrArg (fun l => l[t]?) h
    simp only [List.getElem?_take, List.getElem?_drop] at this
    rwa [if_pos ht, if_pos (by omega)] at this

theorem ps_iff_drop_take {pat txt : List Char} {p : Nat}
    (hp : p + pat.length ≤ txt.length) :
    PS pat txt (p + pat.length) pat.length ↔ (txt.drop p).take pat.length = pat := by
  constructor
  · rintro ⟨_, _, _, h4⟩
    apply List.ext_getElem?
    intro n
    rw [List.getElem?_take, List.getElem?_drop]
    by_cases hn : n < pat.length
    · rw [if_pos hn, h4 n hn]
      congr 1; omega
    · rw [if_neg hn, List.getElem?_eq_none (by omega)]
  · intro h
    refine ⟨by omega, hp, le_refl _, fun t ht => ?_⟩
    have := congrArg (fun l => l[t]?) h
    simp only [List.getElem?_take, List.getElem?_drop] at this
    rw [if_pos ht] at this
    rw [← this]
    congr 1; omega

theorem occUpTo_succ_of_match {txt pat : List Char} {i : Nat}
    (h : PS pat txt (i + 1) pat.length) :
    occUpTo txt pat (i + 1) = occUpTo txt pat i ++ [i + 1 - pat.length] := by
  have h1 : pat.length ≤ i + 1 := h.1
  have h2 : i + 1 ≤ txt.length := h.2.1
  have e : i + 1 + 1 - pat.length = (i + 1 - pat.length) + 1 := by omega
  have e2 : i + 1 - pat.length + pat.length = i + 1 := by omega
  have hm : (txt.drop (i + 1 - pat.length)).take pat.length = pat :=
    (ps_iff_drop_take (by omega)).1 (by rw [e2]; exact h)
  unfold occUpTo
  rw [e, List.range_succ, List.filter_append]
  simp [hm]

theorem occUpTo_succ_of_not_match {txt pat : List Char} {i : Nat}
    (hi : i + 1 ≤ txt.length)
    (h : ¬ PS pat txt (i + 1) pat.length) :
    occUpTo txt pat (i + 1) = occUpTo txt pat i := by
  unfold occUpTo
  rcases Nat.lt_or_ge (i + 1) pat.length with hlt | hge
  · have e1 : i + 1 + 1 - pat.length = 0 := by omega
    have e2 : i + 1 - pat.length = 0 := by omega
    rw [e1, e2]
  · have e : i + 1 + 1 - pat.length = (i + 1 - pat.length) + 1 := by omega
    have e2 : i + 1 - pat.length + pat.length = i + 1 := by omega
    have hn : ¬ (txt.drop (i + 1 - pat.length)).take pat.length = pat := by
      intro hc
      apply h
      have := (ps_iff_drop_take (p := i + 1 - pat.length) (by omega)).2 hc
      rwa [e2] at this
    rw [e, List.range_succ, List.filter_append]
    simp [hn]

/-- The loop of `kmpSearchNat` returns, with exactly the occurrences of the
pattern, from every state that satisfies the invariant. -/
theorem kmpLoopNat_spec (txt pat : List Char) (lps : List Nat) (hm : 1 ≤ pat.length)
    (hlps : LpsUpTo pat lps pat.length) :
    ∀ (fuel i j : Nat) (pos : List Nat),
      i ≤ txt.length → Inv pat txt i j → pos = occUpTo txt pat i →
      2 * txt.length ≤ fuel + (2 * i - j) →
      kmpLoopNat txt pat lps fuel i j pos = some (occurrences txt pat) := by
  intro fuel
  induction fuel with
  | zero =>
    intro i j pos h1 hinv hpos hf
    have hji : j ≤ i := hinv.1.1
    have hin : i = txt.length := by omega
    rw [kmpLoopNat, if_neg (by omega), hpos, hin]
    rfl
  | succ fuel ih =>
    intro i j pos h1 hinv hpos hf
    have hji : j ≤ i := hinv.1.1
    have hjm : j < pat.length := hinv.2.1
    by_cases hi : i < txt.length
    · have ha : txt[i]? = some txt[i] := List.getElem?_eq_getElem hi
      have hb : pat[j]? = some pat[j] := List.getElem?_eq_getElem hjm
      rw [kmpLoopNat, if_pos hi, ha, hb]
      simp only []
      by_cases hab : txt[i] = pat[j]
      · rw [if_pos hab]
        have he : pat[j]? = txt[i]? := by rw [ha, hb, hab]
        have hmax := maxPS_of_match hinv hi he
        by_cases hfull : j + 1 = pat.length
        · rw [if_pos hfull]
          obtain ⟨v, hv, hok⟩ := hlps j hjm
          rw [Nat.add_sub_cancel, hv]
          simp only []
          rw [hfull] at hmax hok
          have hvl : v < pat.length := hok.1.1
          refine ih _ _ _ hi (inv_of_full hmax hok) ?_ (by omega)
          rw [occUpTo_succ_of_match hmax.1, hpos, hfull]
        · rw [if_neg hfull]
          refine ih _ _ _ hi (inv_of_maxPS hmax (by omega)) ?_ (by omega)
          rw [occUpTo_succ_of_not_match hi, hpos]
          intro hc
          have := hmax.2 _ hc
          omega
      · rw [if_neg hab]
        have hne : pat[j]? ≠ txt[i]? := by
          rw [ha, hb]; intro h; exact hab (Option.some.inj h).symm
        by_cases hj0 : j = 0
        · subst hj0
          rw [if_neg (by simp)]
          have hmax := maxPS_of_mismatch_zero hinv hi hne
          refine ih _ _ _ hi (inv_of_maxPS hmax (by omega)) ?_ (by omega)
          rw [occUpTo_succ_of_not_match hi, hpos]
          intro hc
          have := hmax.2 _ hc
          omega
        · rw [if_pos hj0]
          obtain ⟨v, hv, hok⟩ := hlps (j - 1) (by omega)
          have e : j - 1 + 1 = j := by omega
          rw [e] at hok
          rw [hv]
          simp only []
          have hvl : v < j := hok.1.1
          exact ih _ _ _ h1 (inv_of_mismatch hinv hne hok) hpos (by omega)
    · have hin : i = txt.length := by omega
      rw [kmpLoopNat, if_neg hi, hpos, hin]
      rfl

/-- For a non-empty pattern `kmpSearchNat` returns exactly the list of all start
positions of the pattern in the text, in ascending order. -/
theorem kmpSearchNat_eq_occurrences (txt pat : List Char) (hp : pat ≠ []) :
    kmpSearchNat txt pat = some (occurrences txt pat) := by
  have hm : 1 ≤ pat.length := List.length_pos.2 hp
  obtain ⟨lps, h1, _, h3⟩ := buildLPSNat_spec pat
  unfold kmpSearchNat
  rw [if_neg hp, h1]
  simp only []
  apply kmpLoopNat_spec txt pat lps hm h3 _ 0 0 [] (Nat.zero_le _)
  · refine ⟨ps_zero (Nat.zero_le _), hm, fun k _ hk => ?_⟩
    have := hk.1
    omega
  · unfold occUpTo
    have e : 0 + 1 - pat.length = 0 := by omega
    rw [e]; rfl
  · omega

theorem mem_occurrences {txt pat : List Char} {p : Nat} :
    p ∈ occurrences txt pat ↔
      p + pat.length ≤ txt.length ∧ (txt.drop p).take pat.length = pat := by
  unfold occurrences occUpTo
  rw [List.mem_filter, List.mem_range, decide_eq_true_iff]
  constructor
  · rintro ⟨h1, h2⟩
    exact ⟨by omega, h2⟩
  · rintro ⟨h1, h2⟩
    exact ⟨by omega, h2⟩

/-! ## The Z-function -/

theorem zSeedNat_spec {s : List Char} {i : Nat} {Z : List Nat} {L R : Nat}
    (h : ZInv s i Z L R) (hi : i < s.length) :
    ∃ z0, zSeedNat Z L R i = some z0 ∧ ZSound s i z0 := by
  obtain ⟨_, h2, _, h4, h5, h6⟩ := h
  unfold zSeedNat
  by_cases hR : i ≤ R
  · rw [if_pos hR, if_pos h4]
    obtain ⟨v, hv, hs1, hs2⟩ := h2 (i - L) (by omega)
    rw [hv]
    refine ⟨_, rfl, by omega, fun t ht => ?_⟩
    have e : i + t = L + (i - L + t) := by omega
    rw [hs2 t (by omega), e]
    exact h6 _ (by omega)
  · rw [if_neg hR]
    exact h2 i hi

theorem zExtendNat_spec (s : List Char) (i : Nat) :
    ∀ (fuel z0 : Nat), ZSound s i z0 → s.length ≤ fuel + (i + z0) →
      ∃ z, zExtendNat s i fuel z0 = some z ∧ IsZ s i z := by
  intro fuel
  induction fuel with
  | zero =>
    intro z0 h hf
    refine ⟨z0, ?_, h, fun hc => by omega⟩
    rw [zExtendNat, if_neg (by omega)]
  | succ fuel ih =>
    intro z0 h hf
    by_cases hlt : i + z0 < s.length
    · have ha : s[z0]? = some s[z0] := List.getElem?_eq_getElem (by omega)
      have hb : s[i + z0]? = some s[i + z0] := List.getElem?_eq_getElem hlt
      rw [zExtendNat, if_pos hlt, ha, hb]
      simp only []
      by_cases hab : s[z0] = s[i + z0]
      · rw [if_pos hab]
        apply ih (z0 + 1) ⟨by omega, fun t ht => ?_⟩ (by omega)
        by_cases htz : t = z0
        · subst htz; rw [ha, hb, hab]
        · exact h.2 t (by omega)
      · rw [if_neg hab]
        refine ⟨z0, rfl, h, fun _ => ?_⟩
        rw [ha, hb]; intro hc; exact hab (Option.some.inj hc)
    · refine ⟨z0, ?_, h, fun hc => absurd hc hlt⟩
      rw [zExtendNat, if_neg hlt]

theorem zInv_step {s : List Char} {i : Nat} {Z : List Nat} {L R L' R' z : Nat}
    (h : ZInv s i Z L R) (h1 : 1 ≤ i) (hi : i < s.length) (hz : IsZ s i z)
    (hLR : (L' = i ∧ R' = i + z - 1) ∨ (L' = L ∧ R' = R)) :
    ZInv s (i + 1) (Z.set i z) L' R' := by
  obtain ⟨g1, g2, g3, g4, g5, g6⟩ := h
  have hiZ : i < Z.length := by omega
  refine ⟨by rw [List.length_set]; exact g1, fun k hk => ?_, fun k hk1 hk2 hk3 => ?_,
    ?_, ?_, ?_⟩
  · by_cases hki : k = i
    · subst hki; exact ⟨z, List.getElem?_set_self hiZ, hz.1⟩
    · rw [List.getElem?_set_ne (Ne.symm hki)]; exact g2 k hk
  · by_cases hki : k = i
    · subst hki; exact ⟨z, List.getElem?_set_self hiZ, hz⟩
    · rw [List.getElem?_set_ne (Ne.symm hki)]; exact g3 k hk1 (by omega) hk3
  · rcases hLR with ⟨rfl, _⟩ | ⟨rfl, _⟩ <;> omega
  · have := hz.1.1
    rcases hLR with ⟨_, rfl⟩ | ⟨_, rfl⟩ <;> omega
  · rcases hLR with ⟨rfl, rfl⟩ | ⟨rfl, rfl⟩
    · intro t ht
      exact hz.1.2 t (by omega)
    · exact g6

/-- The loop of `zFunctionNat` returns, with every entry from index `1` on equal
to the longest-common-prefix length, from every state satisfying the invariant. -/
theorem zLoopNat_spec (s : List Char) :
    ∀ (k i : Nat) (Z : List Nat) (L R : Nat),
      1 ≤ i → i + k = s.length → ZInv s i Z L R →
      ∃ Z', zLoopNat s k i Z L R = some Z' ∧ Z'.length = s.length ∧
        ∀ j, 1 ≤ j → j < s.length → ∃ z, Z'[j]? = some z ∧ IsZ s j z := by
  intro k
  induction k with
  | zero =>
    intro i Z L R h1 hk h
    exact ⟨Z, rfl, h.1, fun j hj1 hj2 => h.2.2.1 j hj1 (by omega) hj2⟩
  | succ k ih =>
    intro i Z L R h1 hk h
    have hi : i < s.length := by omega
    obtain ⟨z0, hz0, hs0⟩ := zSeedNat_spec h hi
    obtain ⟨z, hz, hisz⟩ := zExtendNat_spec s i s.length z0 hs0 (by omega)
    have hiZ : i < Z.length := by rw [h.1]; exact hi
    rw [zLoopNat, hz0]
    simp only []
    rw [hz]
    simp only []
    rw [if_pos hiZ]
    by_cases hR : i + z - 1 > R
    · rw [if_pos hR]
      exact ih _ _ _ _ (by omega) (by omega) (zInv_step h h1 hi hisz (Or.inl ⟨rfl, rfl⟩))
    · rw [if_neg hR]
      exact ih _ _ _ _ (by omega) (by omega) (zInv_step h h1 hi hisz (Or.inr ⟨rfl, rfl⟩))

theorem zFunctionNat_spec (s : List Char) :
    ∃ Z, zFunctionNat s = some Z ∧ Z.length = s.length ∧
      ∀ j, 1 ≤ j → j < s.length → ∃ z, Z[j]? = some z ∧ IsZ s j z := by
  rcases Nat.eq_zero_or_pos s.length with h0 | hpos
  · have : s = [] := List.length_eq_zero.1 h0
    subst this
    exact ⟨[], rfl, rfl, fun j _ hj => absurd hj (Nat.not_lt_zero j)⟩
  · unfold zFunctionNat
    apply zLoopNat_spec s _ 1 _ 0 0 (le_refl 1) (by omega)
    refine ⟨by simp, fun k hk => ?_, fun k hk1 hk2 _ => by omega, Nat.zero_le _, hpos,
      fun t ht => ?_⟩
    · exact ⟨0, by simp [List.getElem?_replicate, hk], by omega,
        fun t ht => absurd ht (Nat.not_lt_zero t)⟩
    · rw [Nat.zero_add]

theorem lcpLen_eq_of_agree :
    ∀ (z : Nat) (a b : List Char),
      (∀ t, t < z → ∃ c, a[t]? = some c ∧ b[t]? = some c) →
      (a[z]? = none ∨ b[z]? = none ∨ a[z]? ≠ b[z]?) → lcpLen a b = z := by
  intro z
  induction z with
  | zero =>
    intro a b _ h
    cases a with
    | nil => cases b <;> rfl
    | cons x xs =>
      cases b with
      | nil => rfl
      | cons y ys =>
        have hxy : x ≠ y := by
          rcases h with h | h | h
          · simp at h
          · simp at h
          · intro hc; apply h; simp [hc]
        simp [lcpLen, hxy]
  | succ z ih =>
    intro a b hag h
    obtain ⟨c, hc1, hc2⟩ := hag 0 (Nat.succ_pos z)
    cases a with
    | nil => simp at hc1
    | cons x xs =>
      cases b with
      | nil => simp at hc2
      | cons y ys =>
        have hx : x = c := by simpa using hc1
        have hy : y = c := by simpa using hc2
        have hrec : lcpLen xs ys = z := by
          apply ih xs ys
          · intro t ht
            have := hag (t + 1) (by omega)
            simpa using this
          · simpa using h
        simp [lcpLen, hx, hy, hrec]

theorem isZ_eq_lcpLen {s : List Char} {i z : Nat} (h : IsZ s i z) :
    z = lcpLen s (s.drop i) := by
  obtain ⟨⟨h1, h2⟩, h3⟩ := h
  symm
  apply lcpLen_eq_of_agree
  · intro t ht
    refine ⟨s[t], List.getElem?_eq_getElem (by omega), ?_⟩
    rw [List.getElem?_drop, ← h2 t ht]
    exact List.getElem?_eq_getElem (by omega)
  · rw [List.getElem?_drop]
    by_cases hlt : i + z < s.length
    · exact Or.inr (Or.inr (h3 hlt))
    · exact Or.inr (Or.inl (List.getElem?_eq_none (by omega)))

/-! ## Search with the Z-function -/

theorem isZ_unique {s : List Char} {i z z' : Nat} (h : IsZ s i z) (h' : IsZ s i z') :
    z = z' := by
  obtain ⟨⟨a1, a2⟩, a3⟩ := h
  obtain ⟨⟨b1, b2⟩, b3⟩ := h'
  rcases Nat.lt_trichotomy z z' with hlt | heq | hgt
  · exact absurd (b2 z hlt) (a3 (by omega))
  · exact heq
  · exact absurd (a2 z' hgt) (b3 (by omega))

theorem sep_left {pat txt : List Char} {t : Nat} (ht : t < pat.length) :
    (pat ++ '$' :: txt)[t]? = pat[t]? :=
  List.getElem?_append_left ht

theorem sep_mid (pat txt : List Char) :
    (pat ++ '$' :: txt)[pat.length]? = some '$' := by
  rw [List.getElem?_append_right (le_refl _), Nat.sub_self, List.getElem?_cons_zero]

theorem sep_right (pat txt : List Char) (x : Nat) :
    (pat ++ '$' :: txt)[pat.length + 1 + x]? = txt[x]? := by
  rw [List.getElem?_append_right (by omega)]
  have e : pat.length + 1 + x - pat.length = x + 1 := by omega
  rw [e, List.getElem?_cons_succ]

theorem sep_length (pat txt : List Char) :
    (pat ++ '$' :: txt).length = pat.length + 1 + txt.length := by
  rw [List.length_append, List.length_cons]; omega

/-- The entry of the Z-array at the text position `p` equals the pattern length
exactly when the pattern occurs at `p` and the occurrence is not followed by
the separator character. -/
theorem isZ_sep_iff {pat txt : List Char} {p z : Nat}
    (h : IsZ (pat ++ '$' :: txt) (pat.length + 1 + p) z) :
    z = pat.length ↔
      (p + pat.length ≤ txt.length ∧ (txt.drop p).take pat.length = pat ∧
        txt[p + pat.length]? ≠ some '$') := by
  constructor
  · intro hz
    subst hz
    obtain ⟨⟨a1, a2⟩, a3⟩ := h
    rw [sep_length] at a1 a3
    have hp : p + pat.length ≤ txt.length := by omega
    refine ⟨hp, (ps_iff_drop_take hp).1 ⟨by omega, hp, le_refl _, fun t ht => ?_⟩, ?_⟩
    · have := a2 t ht
      rw [sep_left ht, Nat.add_assoc, sep_right] at this
      rw [this]; congr 1; omega
    · rcases Nat.lt_or_ge (p + pat.length) txt.length with hlt | hge
      · have := a3 (by omega)
        rw [sep_mid, Nat.add_assoc, sep_right] at this
        exact fun hc => this hc.symm
      · rw [List.getElem?_eq_none hge]; simp
  · rintro ⟨hp, hm, hd⟩
    have hps := (ps_iff_drop_take hp).2 hm
    apply isZ_unique h
    refine ⟨⟨by rw [sep_length]; omega, fun t ht => ?_⟩, fun _ => ?_⟩
    · rw [sep_left ht, Nat.add_assoc, sep_right, hps.2.2.2 t ht]
      congr 1; omega
    · rw [sep_mid, Nat.add_assoc, sep_right]
      exact fun hc => hd hc.symm

theorem zHitsUpTo_succ (txt pat : List Char) (p : Nat) :
    zHitsUpTo txt pat (p + 1) =
      zHitsUpTo txt pat p ++
        (if p + pat.length ≤ txt.length ∧ (txt.drop p).take pat.length = pat ∧
            txt[p + pat.length]? ≠ some '$' then [p] else []) := by
  unfold zHitsUpTo
  rw [List.range_succ, List.filter_append]
  congr 1
  by_cases hc : p + pat.length ≤ txt.length ∧ (txt.drop p).take pat.length = pat ∧
      txt[p + pat.length]? ≠ some '$'
  · rw [if_pos hc]; simp [List.filter, hc]
  · rw [if_neg hc]; simp [List.filter, hc]

theorem zSearchLoopNat_spec (txt pat : List Char) (Z : List Nat)
    (hZ : ∀ j, 1 ≤ j → j < (pat ++ '$' :: txt).length →
      ∃ z, Z[j]? = some z ∧ IsZ (pat ++ '$' :: txt) j z) :
    ∀ (k p : Nat) (pos : List Nat), p + k = txt.length → pos = zHitsUpTo txt pat p →
      zSearchLoopNat Z pat.length k (pat.length + 1 + p) pos =
        some (zHitsUpTo txt pat txt.length) := by
  intro k
  induction k with
  | zero =>
    intro p pos hk hpos
    have : p = txt.length := by omega
    rw [zSearchLoopNat, hpos, this]
  | succ k ih =>
    intro p pos hk hpos
    obtain ⟨z, hz, hisz⟩ := hZ (pat.length + 1 + p) (by omega) (by rw [sep_length]; omega)
    rw [zSearchLoopNat, hz]
    simp only []
    have e : pat.length + 1 + p + 1 = pat.length + 1 + (p + 1) := by omega
    rw [e]
    apply ih (p + 1) _ (by omega)
    rw [zHitsUpTo_succ, hpos]
    have e2 : pat.length + 1 + p - pat.length - 1 = p := by omega
    rw [e2]
    by_cases hzm : z = pat.length
    · rw [if_pos hzm, if_pos ((isZ_sep_iff hisz).1 hzm)]
    · rw [if_neg hzm, if_neg (fun hc => hzm ((isZ_sep_iff hisz).2 hc)), List.append_nil]

/-- For a non-empty pattern `zSearchNat` returns exactly the start positions of
the occurrences of the pattern that are not followed by `'$'` in the text. -/
theorem zSearchNat_eq_zHits (txt pat : List Char) (hp : pat ≠ []) :
    zSearchNat txt pat = some (zHitsUpTo txt pat txt.length) := by
  obtain ⟨Z, h1, _, h3⟩ := zFunctionNat_spec (pat ++ '$' :: txt)
  unfold zSearchNat
  rw [if_neg hp, h1]
  simp only []
  have e : (pat ++ '$' :: txt).length - (pat.length + 1) = txt.length := by
    rw [sep_length]; omega
  rw [e]
  exact zSearchLoopNat_spec txt pat Z h3 txt.length 0 [] (by omega) rfl

theorem filter_range_of_bound {f : Nat → Bool} {a b : Nat} (hab : a ≤ b)
    (hf : ∀ p, f p = true → p < a) :
    (List.range b).filter f = (List.range a).filter f := by
  obtain ⟨c, rfl⟩ : ∃ c, b = a + c := ⟨b - a, by omega⟩
  rw [List.range_add, List.filter_append]
  have : List.filter f (List.map (fun x => a + x) (List.range c)) = [] := by
    rw [List.filter_eq_nil_iff]
    intro x hx hfx
    obtain ⟨y, _, rfl⟩ := List.mem_map.1 hx
    have := hf _ hfx
    omega
  rw [this, List.append_nil]

theorem getElem?_ne_of_not_mem {txt : List Char} {c : Char} (h : c ∉ txt) (k : Nat) :
    txt[k]? ≠ some c := by
  intro hc
  obtain ⟨hk, rfl⟩ := List.getElem?_eq_some.1 hc
  exact h (List.getElem_mem hk)

/-- On a text without `'$'` the Z-search finds every occurrence. -/
theorem zHits_eq_occurrences {txt pat : List Char} (hp : pat ≠ [])
    (ht : '$' ∉ txt) : zHitsUpTo txt pat txt.length = occurrences txt pat := by
  have hm : 1 ≤ pat.length := List.length_pos.2 hp
  unfold zHitsUpTo occurrences occUpTo
  rw [filter_range_of_bound (a := txt.length + 1 - pat.length) (by omega)]
  · apply List.filter_congr
    intro p hp'
    have hlt := List.mem_range.1 hp'
    have h1 : p + pat.length ≤ txt.length := by omega
    have h2 := getElem?_ne_of_not_mem ht (p + pat.length)
    simp [h1, h2]
  · intro p hfp
    have := (decide_eq_true_iff.1 hfp).1
    omega

theorem occurrences_sorted (txt pat : List Char) :
    (occurrences txt pat).Sorted (· < ·) :=
  List.Sorted.filter _ (List.sorted_lt_range _)

/-! ## The naive suffix array -/

theorem suffixArrayNaive_perm_range (s : List Char) :
    (suffixArrayNaive s).Perm (List.range s.length) := by
  unfold suffixArrayNaive stdSort
  have h := (List.perm_insertionSort
    (fun (a b : List Char × Nat) => strLt b.1 a.1 = false)
    ((List.range s.length).map (fun i => (s.drop i, i)))).map Prod.snd
  have e : ((List.range s.length).map (fun i => (s.drop i, i))).map Prod.snd
      = List.range s.length := by
    rw [List.map_map]
    exact List.map_id _
  rw [e] at h
  exact h

/-- C10. For every sequence `s` of length `n`, `suffixArrayNaive s` is a
permutation of `0..n-1`: it has length `n`, its elements are below `n`, and it
contains each index below `n` exactly once; it is empty when `s` is. -/
theorem suffixArrayNaive_permutation (s : List Char) :
    (suffixArrayNaive s).length = s.length ∧
      (suffixArrayNaive s).Perm (List.range s.length) ∧
      (∀ i, i ∈ suffixArrayNaive s → i < s.length) ∧
      (∀ i, i < s.length → (suffixArrayNaive s).count i = 1) ∧
      suffixArrayNaive [] = [] := by
  have h := suffixArrayNaive_perm_range s
  refine ⟨by rw [h.length_eq, List.length_range], h, fun i hi => ?_, fun i hi => ?_, rfl⟩
  · exact List.mem_range.1 (h.mem_iff.1 hi)
  · rw [h.count_eq]
    exact List.count_eq_one_of_mem (List.nodup_range _) (List.mem_range.2 hi)

/-! ## Manacher: the radius array -/

theorem palAt_mono {t : List Char} {c p q : Nat} (h : PalAt t c p) (hq : q ≤ p) :
    PalAt t c q :=
  ⟨by have := h.1; omega, by have := h.2.1; omega, fun x hx => h.2.2 x (by omega)⟩

theorem palAt_sym {t : List Char} {c d a b : Nat} (h : PalAt t c d)
    (hab : a + b = 2 * c) (hle : a ≤ b) (hb : b ≤ c + d) : t[a]? = t[b]? := by
  have h3 := h.2.2 (b - c) (by omega)
  have e1 : c - (b - c) = a := by omega
  have e2 : c + (b - c) = b := by omega
  rwa [e1, e2] at h3

theorem le_of_isRad {t : List Char} {c p q : Nat} (h : IsRad t c p) (hq : PalAt t c q) :
    q ≤ p := by
  by_contra hc
  exact h.2 (palAt_mono hq (by omega))

/-- In a guarded sequence a palindrome around an inner index stops before both
ends. -/
theorem palAt_interior {t : List Char} {c p : Nat} (hg : Guarded t) (h1 : 1 ≤ c)
    (h2 : c + 1 < t.length) (h : PalAt t c p) : p < c ∧ c + p + 1 < t.length := by
  obtain ⟨_, g2, g3⟩ := hg
  obtain ⟨a1, a2, a3⟩ := h
  constructor
  · by_contra hc
    have hpc : p = c := by omega
    have := a3 c (by omega)
    rw [Nat.sub_self] at this
    exact g2 (c + c) (by omega) (by omega) this.symm
  · by_contra hc
    have e : c + p = t.length - 1 := by omega
    have := a3 p (le_refl p)
    rw [e] at this
    exact g3 (c - p) (by omega) this

theorem mExpandNat_spec {t : List Char} {i : Nat} (hg : Guarded t) (h1 : 1 ≤ i)
    (h2 : i + 1 < t.length) :
    ∀ (fuel p0 : Nat), PalAt t i p0 → i ≤ fuel + p0 →
      ∃ p, mExpandNat t i fuel p0 = some p ∧ IsRad t i p := by
  intro fuel
  induction fuel with
  | zero =>
    intro p0 h hf
    have := (palAt_interior hg h1 h2 h).1
    omega
  | succ fuel ih =>
    intro p0 h hf
    obtain ⟨b1, b2⟩ := palAt_interior hg h1 h2 h
    have ha : t[i + 1 + p0]? = some t[i + 1 + p0] := List.getElem?_eq_getElem (by omega)
    have hb : t[i - 1 - p0]? = some t[i - 1 - p0] := List.getElem?_eq_getElem (by omega)
    rw [mExpandNat, if_neg (by omega), ha, hb]
    simp only []
    have e1 : i - (p0 + 1) = i - 1 - p0 := by omega
    have e2 : i + (p0 + 1) = i + 1 + p0 := by omega
    by_cases hab : t[i + 1 + p0] = t[i - 1 - p0]
    · rw [if_pos hab]
      apply ih (p0 + 1) ⟨by omega, by omega, fun x hx => ?_⟩ (by omega)
      by_cases hxp : x = p0 + 1
      · subst hxp; rw [e1, e2, ha, hb, hab]
      · exact h.2.2 x (by omega)
    · rw [if_neg hab]
      refine ⟨p0, rfl, h, fun hc => ?_⟩
      have := hc.2.2 (p0 + 1) (le_refl _)
      rw [e1, e2, ha, hb] at this
      exact hab (Option.some.inj this).symm

theorem mSeedNat_spec {t : List Char} {i : Nat} {P : List Nat} {C R : Nat}
    (h : MInv t i P C R) (hi : i < t.length) :
    ∃ p0, mSeedNat P C R i = some p0 ∧ PalAt t i p0 := by
  obtain ⟨_, h2, _, h4, h5, h6⟩ := h
  unfold mSeedNat
  by_cases hR : R > i
  · have hc1 : R - C ≤ C := h6.1
    have hc2 : C + (R - C) < t.length := h6.2.1
    rw [if_pos hR, if_pos (by omega)]
    obtain ⟨v, hv, hv1, hv2, hv3⟩ := h2 (2 * C - i) (by omega)
    rw [hv]
    refine ⟨_, rfl, by omega, by omega, fun x hx => ?_⟩
    have s1 : t[2 * C - i - x]? = t[i + x]? :=
      palAt_sym h6 (by omega) (by omega) (by omega)
    have s2 : t[i - x]? = t[2 * C - i + x]? := by
      rcases Nat.le_total (i - x) (2 * C - i + x) with hle | hle
      · exact palAt_sym h6 (by omega) hle (by omega)
      · exact (palAt_sym h6 (by omega) hle (by omega)).symm
    rw [s2, ← s1]
    exact (hv3 x (by omega)).symm
  · rw [if_neg hR]
    exact h2 i hi

theorem mInv_step {t : List Char} {i : Nat} {P : List Nat} {C R C' R' p : Nat}
    (h : MInv t i P C R) (hi : i < t.length) (hp : IsRad t i p)
    (hCR : (C' = i ∧ R' = i + p) ∨ (C' = C ∧ R' = R)) :
    MInv t (i + 1) (P.set i p) C' R' := by
  obtain ⟨g1, g2, g3, g4, g5, g6⟩ := h
  have hiP : i < P.length := by omega
  refine ⟨by rw [List.length_set]; exact g1, fun k hk => ?_, fun k hk1 hk2 => ?_,
    ?_, ?_, ?_⟩
  · by_cases hki : k = i
    · subst hki; exact ⟨p, List.getElem?_set_self hiP, hp.1⟩
    · rw [List.getElem?_set_ne (Ne.symm hki)]; exact g2 k hk
  · by_cases hki : k = i
    · subst hki; exact ⟨p, List.getElem?_set_self hiP, hp⟩
    · rw [List.getElem?_set_ne (Ne.symm hki)]; exact g3 k hk1 (by omega)
  · rcases hCR with ⟨rfl, _⟩ | ⟨rfl, _⟩ <;> omega
  · rcases hCR with ⟨rfl, rfl⟩ | ⟨rfl, rfl⟩ <;> omega
  · rcases hCR with ⟨rfl, rfl⟩ | ⟨rfl, rfl⟩
    · rw [Nat.add_sub_cancel_left]; exact hp.1
    · exact g6

/-- The first loop of Manacher returns, with the palindrome radius at every
inner index, from every state that satisfies the invariant. -/
theorem mLoopNat_spec {t : List Char} (hg : Guarded t) :
    ∀ (k i : Nat) (P : List Nat) (C R : Nat),
      1 ≤ i → i + k + 1 = t.length → MInv t i P C R →
      ∃ P', mLoopNat t k i P C R = some P' ∧ P'.length = t.length ∧
        ∀ j, 1 ≤ j → j + 1 < t.length → ∃ p, P'[j]? = some p ∧ IsRad t j p := by
  intro k
  induction k with
  | zero =>
    intro i P C R h1 hk h
    exact ⟨P, rfl, h.1, fun j hj1 hj2 => h.2.2.1 j hj1 (by omega)⟩
  | succ k ih =>
    intro i P C R h1 hk h
    have hi : i < t.length := by omega
    obtain ⟨p0, hp0, hs0⟩ := mSeedNat_spec h hi
    obtain ⟨p, hp, hrad⟩ := mExpandNat_spec hg h1 (by omega) t.length p0 hs0 (by omega)
    have hiP : i < P.length := by rw [h.1]; exact hi
    rw [mLoopNat, hp0]
    simp only []
    rw [hp]
    simp only []
    rw [if_pos hiP]
    by_cases hR : i + p > R
    · rw [if_pos hR]
      exact ih _ _ _ _ (by omega) (by omega) (mInv_step h hi hrad (Or.inl ⟨rfl, rfl⟩))
    · rw [if_neg hR]
      exact ih _ _ _ _ (by omega) (by omega) (mInv_step h hi hrad (Or.inr ⟨rfl, rfl⟩))

theorem mBestNat_spec (P : List Nat) :
    ∀ (k i maxLen center : Nat),
      1 ≤ i → i + k + 1 = P.length → BestInv P i maxLen center →
      ∃ m c, mBestNat P k i maxLen center = some (m, c) ∧ BestInv P (i + k) m c := by
  intro k
  induction k with
  | zero =>
    intro i maxLen center _ _ h
    exact ⟨maxLen, center, rfl, h⟩
  | succ k ih =>
    intro i maxLen center h1 hk h
    have hiP : i < P.length := by omega
    have hp : P[i]? = some P[i] := List.getElem?_eq_getElem hiP
    obtain ⟨b1, b2⟩ := h
    have e : i + (k + 1) = i + 1 + k := by omega
    have hnext : ∀ m' c', BestInv P (i + 1) m' c' →
        ∃ m c, mBestNat P k (i + 1) m' c' = some (m, c) ∧ BestInv P (i + (k + 1)) m c := by
      intro m' c' hb
      obtain ⟨m, c, hm, hb'⟩ := ih (i + 1) m' c' (by omega) (by omega) hb
      exact ⟨m, c, hm, by rw [e]; exact hb'⟩
    rw [mBestNat, hp]
    simp only []
    by_cases hgt : P[i] > maxLen
    · rw [if_pos hgt]
      apply hnext
      have hlt : ∀ k, 1 ≤ k → k < i → ∃ p, P[k]? = some p ∧ p < P[i] := by
        intro k hk1 hk2
        obtain ⟨p, hp1, hp2⟩ := b1 k hk1 hk2
        exact ⟨p, hp1, by omega⟩
      refine ⟨fun k hk1 hk2 => ?_, Or.inr ⟨by omega, h1, by omega, hp, hlt⟩⟩
      by_cases hki : k = i
      · subst hki; exact ⟨_, hp, le_refl _⟩
      · obtain ⟨p, hp1, hp2⟩ := hlt k hk1 (by omega)
        exact ⟨p, hp1, by omega⟩
    · rw [if_neg hgt]
      apply hnext
      refine ⟨fun k hk1 hk2 => ?_, ?_⟩
      · by_cases hki : k = i
        · subst hki; exact ⟨_, hp, by omega⟩
        · exact b1 k hk1 (by omega)
      · rcases b2 with b2 | ⟨c1, c2, c3, c4, c5⟩
        · exact Or.inl b2
        · exact Or.inr ⟨c1, c2, by omega, c4, c5⟩

/-! ## Manacher: the transformed string -/

theorem length_interleave (s : List Char) : (interleave s).length = 2 * s.length := by
  induction s with
  | nil => rfl
  | cons c cs ih => simp only [interleave, List.length_cons, ih]; omega

theorem interleave_even (s : List Char) :
    ∀ k, k < s.length → (interleave s)[2 * k]? = some '#' := by
  induction s with
  | nil => intro k hk; simp at hk
  | cons c cs ih =>
    intro k hk
    rcases k with _ | k
    · rfl
    · have e : 2 * (k + 1) = 2 * k + 1 + 1 := by omega
      rw [interleave, e, List.getElem?_cons_succ, List.getElem?_cons_succ]
      exact ih k (by simpa using hk)

theorem interleave_odd (s : List Char) :
    ∀ k, (interleave s)[2 * k + 1]? = s[k]? := by
  induction s with
  | nil => intro k; simp [interleave]
  | cons c cs ih =>
    intro k
    rcases k with _ | k
    · simp [interleave]
    · have e : 2 * (k + 1) + 1 = 2 * k + 1 + 1 + 1 := by omega
      rw [interleave, e, List.getElem?_cons_succ, List.getElem?_cons_succ,
        List.getElem?_cons_succ]
      exact ih k

theorem mT_length (s : List Char) : (manacherT s).length = 2 * s.length + 3 := by
  simp only [manacherT, List.length_cons, List.length_append, length_interleave,
    List.length_nil]

theorem mT_zero (s : List Char) : (manacherT s)[0]? = some '^' := by
  rw [manacherT, List.getElem?_cons_zero]

theorem mT_odd (s : List Char) {k : Nat} (hk : k ≤ s.length) :
    (manacherT s)[2 * k + 1]? = some '#' := by
  rw [manacherT, List.getElem?_cons_succ]
  rcases Nat.lt_or_ge k s.length with hlt | hge
  · rw [List.getElem?_append_left (by rw [length_interleave]; omega)]
    exact interleave_even s k hlt
  · have hkn : k = s.length := by omega
    rw [List.getElem?_append_right (by rw [length_interleave]; omega), length_interleave,
      hkn, Nat.sub_self]
    rfl

theorem mT_even (s : List Char) {k : Nat} (hk : k < s.length) :
    (manacherT s)[2 * k + 2]? = s[k]? := by
  rw [manacherT, List.getElem?_cons_succ,
    List.getElem?_append_left (by rw [length_interleave]; omega)]
  exact interleave_odd s k

theorem mT_last (s : List Char) : (manacherT s)[2 * s.length + 2]? = some '$' := by
  rw [manacherT, List.getElem?_cons_succ,
    List.getElem?_append_right (by rw [length_interleave]; omega), length_interleave]
  have e : 2 * s.length + 1 - 2 * s.length = 1 := by omega
  rw [e]
  rfl

/-- The transformed string is guarded when the input contains neither boundary
character. -/
theorem guarded_manacherT {s : List Char} (h1 : '^' ∉ s) (h2 : '$' ∉ s) :
    Guarded (manacherT s) := by
  refine ⟨by rw [mT_length]; omega, fun k hk1 hk2 => ?_, fun k hk => ?_⟩
  · rw [mT_length] at hk2
    rw [mT_zero]
    obtain ⟨j, hj | hj⟩ : ∃ j, k = 2 * j + 1 ∨ k = 2 * j + 2 := ⟨(k - 1) / 2, by omega⟩
    · rw [hj, mT_odd s (by omega)]; decide
    · rcases Nat.lt_or_ge j s.length with hlt | hge
      · rw [hj, mT_even s hlt]; exact getElem?_ne_of_not_mem h1 j
      · have hjn : j = s.length := by omega
        rw [hj, hjn, mT_last]; decide
  · rw [mT_length] at hk ⊢
    have e : 2 * s.length + 3 - 1 = 2 * s.length + 2 := by omega
    rw [e, mT_last]
    rcases Nat.eq_zero_or_pos k with h0 | hpos
    · rw [h0, mT_zero]; decide
    · obtain ⟨j, hj | hj⟩ : ∃ j, k = 2 * j + 1 ∨ k = 2 * j + 2 := ⟨(k - 1) / 2, by omega⟩
      · rw [hj, mT_odd s (by omega)]; decide
      · rw [hj, mT_even s (by omega)]; exact getElem?_ne_of_not_mem h2 j

/-- A palindromic substring `s[a .. a+L)` is a palindrome of radius `L` around
the index `2a + L + 1` of the transformed string. -/
theorem palAt_of_palS {s : List Char} {a L : Nat} (h : PalS s a L) (hL : 1 ≤ L) :
    PalAt (manacherT s) (2 * a + L + 1) L := by
  obtain ⟨h1, h2⟩ := h
  refine ⟨by omega, by rw [mT_length]; omega, fun x hx => ?_⟩
  obtain ⟨j, hj | hj⟩ : ∃ j, 2 * a + L + 1 - x = 2 * j + 1 ∨ 2 * a + L + 1 - x = 2 * j + 2 :=
    ⟨(2 * a + L + 1 - x - 1) / 2, by omega⟩
  · have e : 2 * a + L + 1 + x = 2 * (j + x) + 1 := by omega
    rw [hj, e, mT_odd s (by omega), mT_odd s (by omega)]
  · have e : 2 * a + L + 1 + x = 2 * (j + x) + 2 := by omega
    rw [hj, e, mT_even s (by omega), mT_even s (by omega)]
    have := h2 (j - a) (by omega)
    have e1 : a + (j - a) = j := by omega
    have e2 : a + L - 1 - (j - a) = j + x := by omega
    rwa [e1, e2] at this

/-- A palindrome of maximal radius `p` around an inner index `c` of the
transformed string starts and ends on a filler position and encloses the
palindromic substring `s[a .. a+p)` with `c = 2a + 1 + p`. -/
theorem palS_of_isRad {s : List Char} {c p : Nat} (hg : Guarded (manacherT s))
    (h : IsRad (manacherT s) c p) (h1 : 1 ≤ c) (h2 : c + 1 < (manacherT s).length) :
    ∃ a, c = 2 * a + 1 + p ∧ PalS s a p := by
  obtain ⟨b1, b2⟩ := palAt_interior hg h1 h2 h.1
  rw [mT_length] at b2 h2
  obtain ⟨j, hj | hj⟩ : ∃ j, c - p = 2 * j + 1 ∨ c - p = 2 * j + 2 :=
    ⟨(c - p - 1) / 2, by omega⟩
  · refine ⟨j, by omega, by omega, fun x hx => ?_⟩
    rw [← mT_even s (k := j + x) (by omega), ← mT_even s (k := j + p - 1 - x) (by omega)]
    rcases Nat.le_total (2 * (j + x) + 2) (2 * (j + p - 1 - x) + 2) with hle | hle
    · exact palAt_sym h.1 (by omega) hle (by omega)
    · exact (palAt_sym h.1 (by omega) hle (by omega)).symm
  · exfalso
    apply h.2
    refine ⟨by omega, by rw [mT_length]; omega, fun x hx => ?_⟩
    by_cases hxp : x = p + 1
    · have e1 : c - x = 2 * j + 1 := by omega
      have e2 : c + x = 2 * (j + p + 1) + 1 := by omega
      rw [e1, e2, mT_odd s (by omega), mT_odd s (by omega)]
    · exact h.1.2.2 x (by omega)

/-! ## Manacher: the result -/

theorem mInv_init {t : List Char} (ht : 1 ≤ t.length) :
    MInv t 1 (List.replicate t.length 0) 0 0 := by
  have h0 : ∀ k, k < t.length → PalAt t k 0 := fun k hk =>
    ⟨Nat.zero_le _, by omega, fun x hx => by
      have : x = 0 := by omega
      subst this; rfl⟩
  refine ⟨by simp, fun k hk => ⟨0, by simp [List.getElem?_replicate, hk], h0 k hk⟩,
    fun k hk1 hk2 => by omega, Nat.zero_le _, le_refl _, h0 0 (by omega)⟩

theorem palS_single {s : List Char} (hn : 1 ≤ s.length) : PalS s 0 1 :=
  ⟨by omega, fun x hx => by
    have : x = 0 := by omega
    subst this; rfl⟩

/-- On a non-empty input without the two boundary characters, Manacher returns
the palindromic substring `s[a .. a+L)` where `L` is the largest length of a
palindromic substring and `a` the first start of one of that length. -/
theorem manacherNat_spec {s : List Char} (hs : s ≠ []) (h1 : '^' ∉ s) (h2 : '$' ∉ s) :
    ∃ a L, longestPalSubstring_ManacherNat s = some ((s.drop a).take L) ∧ 1 ≤ L ∧
      PalS s a L ∧ (∀ a' L', PalS s a' L' → L' ≤ L) ∧ (∀ a', PalS s a' L → a ≤ a') := by
  have hn : 1 ≤ s.length := List.length_pos.2 hs
  have hg := guarded_manacherT h1 h2
  have hlen := mT_length s
  obtain ⟨P, hP, hPl, hrad⟩ := mLoopNat_spec hg ((manacherT s).length - 2) 1
    (List.replicate (manacherT s).length 0) 0 0 (le_refl 1) (by omega)
    (mInv_init (by omega))
  obtain ⟨m, c, hbest, hb1, hb2⟩ := mBestNat_spec P (P.length - 2) 1 0 0 (le_refl 1)
    (by omega) ⟨fun k hk1 hk2 => by omega, Or.inl ⟨rfl, rfl⟩⟩
  have hbound : ∀ a' L', PalS s a' L' → 1 ≤ L' →
      ∃ p, P[2 * a' + L' + 1]? = some p ∧ L' ≤ p ∧ p ≤ m := by
    intro a' L' hpal hL'
    have hin := hpal.1
    obtain ⟨p, hp, hr⟩ := hrad (2 * a' + L' + 1) (by omega) (by omega)
    obtain ⟨p', hp', hle'⟩ := hb1 (2 * a' + L' + 1) (by omega) (by omega)
    have hpp : p = p' := Option.some.inj (hp.symm.trans hp')
    exact ⟨p, hp, le_of_isRad hr (palAt_of_palS hpal hL'), by omega⟩
  have hm1 : 1 ≤ m := by
    obtain ⟨p, _, hp1, hp2⟩ := hbound 0 1 (palS_single hn) (le_refl 1)
    omega
  rcases hb2 with ⟨hm0, _⟩ | ⟨_, c2, c3, c4, c5⟩
  · omega
  · obtain ⟨p, hp, hr⟩ := hrad c c2 (by omega)
    have hpm : p = m := Option.some.inj (hp.symm.trans c4)
    rw [hpm] at hr
    obtain ⟨a, hca, hpal⟩ := palS_of_isRad hg hr c2 (by omega)
    have hin := hpal.1
    refine ⟨a, m, ?_, hm1, hpal, fun a' L' hpal' => ?_, fun a' hpal' => ?_⟩
    · have e : (c - m) / 2 = a := by omega
      rw [longestPalSubstring_ManacherNat, if_neg hs, hP]
      simp only []
      rw [hbest]
      simp only []
      rw [if_pos (by omega), e, if_pos (by omega)]
    · rcases Nat.eq_zero_or_pos L' with h0 | hpos
      · omega
      · obtain ⟨p', _, hp1, hp2⟩ := hbound a' L' hpal' hpos
        omega
    · obtain ⟨p', hp', hp1, hp2⟩ := hbound a' m hpal' hm1
      by_contra hc
      obtain ⟨q, hq, hqlt⟩ := c5 (2 * a' + m + 1) (by omega) (by omega)
      have hqp : q = p' := Option.some.inj (hq.symm.trans hp')
      omega

theorem getElem?_drop_take {s : List Char} {a L x : Nat} (hx : x < L) :
    ((s.drop a).take L)[x]? = s[a + x]? := by
  rw [List.getElem?_take, if_pos hx, List.getElem?_drop]

theorem length_drop_take {s : List Char} {a L : Nat} (h : a + L ≤ s.length) :
    ((s.drop a).take L).length = L := by
  rw [List.length_take, List.length_drop]; omega

theorem palS_iff_reverse {s : List Char} {a L : Nat} (h : a + L ≤ s.length) :
    PalS s a L ↔ ((s.drop a).take L).reverse = (s.drop a).take L := by
  have hl := length_drop_take h
  have hrev : ∀ x, x < L → ((s.drop a).take L).reverse[x]? = s[a + L - 1 - x]? := by
    intro x hx
    rw [List.getElem?_reverse (by omega), hl, getElem?_drop_take (by omega)]
    congr 1; omega
  constructor
  · intro hp
    apply List.ext_getElem?
    intro x
    rcases Nat.lt_or_ge x L with hx | hx
    · rw [hrev x hx, getElem?_drop_take hx]; exact (hp.2 x hx).symm
    · rw [List.getElem?_eq_none (by rw [List.length_reverse]; omega),
        List.getElem?_eq_none (by omega)]
  · intro he
    refine ⟨h, fun x hx => ?_⟩
    rw [← hrev x hx, he, getElem?_drop_take hx]

theorem exists_of_infix {w s : List Char} (h : w <:+: s) :
    ∃ a, a + w.length ≤ s.length ∧ (s.drop a).take w.length = w := by
  obtain ⟨u, v, rfl⟩ := h
  refine ⟨u.length, by simp only [List.length_append]; omega, ?_⟩
  simp [List.append_assoc]

theorem drop_take_infix (s : List Char) (a L : Nat) : (s.drop a).take L <:+: s :=
  (List.take_prefix _ _).isInfix.trans (List.drop_suffix _ _).isInfix

/-! ## Further properties of the two matchers -/

theorem zHitsUpTo_sorted (txt pat : List Char) (b : Nat) :
    (zHitsUpTo txt pat b).Sorted (· < ·) :=
  List.Sorted.filter _ (List.sorted_lt_range _)

theorem mem_zHitsUpTo {txt pat : List Char} {b p : Nat} (h : p ∈ zHitsUpTo txt pat b) :
    p + pat.length ≤ txt.length ∧ (txt.drop p).take pat.length = pat ∧
      txt[p + pat.length]? ≠ some '$' := by
  unfold zHitsUpTo at h
  exact decide_eq_true_iff.1 (List.mem_filter.1 h).2

/-! ## The Z-array at index `0` -/

/-- The loop of `zFunctionNat` never writes the entry `Z[0]`. -/
theorem zLoopNat_zero (s : List Char) :
    ∀ (k i : Nat) (Z : List Nat) (L R : Nat) (Z' : List Nat),
      1 ≤ i → zLoopNat s k i Z L R = some Z' → Z'[0]? = Z[0]? := by
  intro k
  induction k with
  | zero =>
    intro i Z L R Z' _ h
    rw [zLoopNat] at h
    rw [Option.some.inj h]
  | succ k ih =>
    intro i Z L R Z' hi h
    rw [zLoopNat] at h
    split at h
    · split at h
      · split at h
        · split at h
          · rw [ih _ _ _ _ _ (by omega) h, List.getElem?_set_ne (by omega)]
          · rw [ih _ _ _ _ _ (by omega) h, List.getElem?_set_ne (by omega)]
        · exact absurd h (by simp)
      · exact absurd h (by simp)
    · exact absurd h (by simp)

/-! ## Totality of the failure-function matcher -/

/-- On a non-empty input without the two boundary characters both loops of
Manacher return, and the recorded `center` and `maxLen` enclose a palindromic
substring `s[a .. a+maxLen)` with `center = 2a + 1 + maxLen`. -/
theorem manacherNat_run {s : List Char} (hs : s ≠ []) (h1 : '^' ∉ s) (h2 : '$' ∉ s) :
    ∃ P m c a,
      mLoopNat (manacherT s) ((manacherT s).length - 2) 1
        (List.replicate (manacherT s).length 0) 0 0 = some P ∧
      mBestNat P (P.length - 2) 1 0 0 = some (m, c) ∧
      c = 2 * a + 1 + m ∧ 1 ≤ m ∧ PalS s a m ∧
      longestPalSubstring_ManacherNat s = some ((s.drop ((c - m) / 2)).take m) := by
  have hn : 1 ≤ s.length := List.length_pos.2 hs
  have hg := guarded_manacherT h1 h2
  have hlen := mT_length s
  obtain ⟨P, hP, hPl, hrad⟩ := mLoopNat_spec hg ((manacherT s).length - 2) 1
    (List.replicate (manacherT s).length 0) 0 0 (le_refl 1) (by omega)
    (mInv_init (by omega))
  obtain ⟨m, c, hbest, hb1, hb2⟩ := mBestNat_spec P (P.length - 2) 1 0 0 (le_refl 1)
    (by omega) ⟨fun k hk1 hk2 => by omega, Or.inl ⟨rfl, rfl⟩⟩
  have hm1 : 1 ≤ m := by
    obtain ⟨p, hp, hr⟩ := hrad 2 (by omega) (by omega)
    obtain ⟨p', hp', hle'⟩ := hb1 2 (by omega) (by omega)
    have hpp : p = p' := Option.some.inj (hp.symm.trans hp')
    have := le_of_isRad hr (palAt_of_palS (palS_single hn) (le_refl 1))
    omega
  rcases hb2 with ⟨hm0, _⟩ | ⟨_, c2, c3, c4, _⟩
  · omega
  · obtain ⟨p, hp, hr⟩ := hrad c c2 (by omega)
    have hpm : p = m := Option.some.inj (hp.symm.trans c4)
    rw [hpm] at hr
    obtain ⟨a, hca, hpal⟩ := palS_of_isRad hg hr c2 (by omega)
    have hin := hpal.1
    refine ⟨P, m, c, a, hP, hbest, hca, hm1, hpal, ?_⟩
    rw [longestPalSubstring_ManacherNat, if_neg hs, hP]
    simp only []
    rw [hbest]
    simp only []
    rw [if_pos (by omega), if_pos (by omega)]

/-! ## The code and the loops over natural numbers: KMP -/

theorem strAt_of_lt {s : List Char} {k : Nat} (h : k < s.length) : strAt s k = s[k]? := by
  rw [strAt, if_neg (by omega)]

theorem toInt_natCast {n : Nat} (h : n < 2147483648) : toInt (n : Int) = (n : Int) := by
  unfold toInt; omega

theorem toSize_natCast {n : Nat} (h : n < 18446744073709551616) : toSize (n : Int) = n := by
  unfold toSize; omega

theorem castL_length (l : List Nat) : (castL l).length = l.length := by
  rw [castL, List.length_map]

theorem castL_getElem? (l : List Nat) (k : Nat) :
    (castL l)[k]? = (l[k]?).map (fun (v : Nat) => (v : Int)) := by
  rw [castL, List.getElem?_map]

theorem castL_set (l : List Nat) (k v : Nat) :
    (castL l).set k (v : Int) = castL (l.set k v) := by
  rw [castL, castL, List.map_set]

theorem castL_replicate (n : Nat) : castL (List.replicate n 0) = List.replicate n (0 : Int) := by
  rw [castL, List.map_replicate]; rfl

theorem entries_le_set {l : List Nat} {i v : Nat} (h : ∀ (k w : Nat), l[k]? = some w → w ≤ k)
    (hv : v ≤ i) : ∀ (k w : Nat), (l.set i v)[k]? = some w → w ≤ k := by
  intro k w hw
  by_cases hki : i = k
  · subst hki
    rw [List.getElem?_set] at hw
    simp only [if_true] at hw
    split at hw
    · rw [← Option.some.inj hw]; exact hv
    · exact absurd hw (by simp)
  · rw [List.getElem?_set_ne hki] at hw
    exact h k w hw

/-- While no `int` wraps, the loop of `buildLPS` is the loop over natural
numbers. -/
theorem buildLPSLoop_sim (pat : List Char) (hn : pat.length < 2147483648) :
    ∀ (fuel : Nat) (lps : List Nat) (len i : Nat), len < i →
      (∀ (k v : Nat), lps[k]? = some v → v ≤ k) →
      buildLPSLoop pat fuel (castL lps) (len : Int) i =
        (buildLPSLoopNat pat fuel lps len i).map castL := by
  intro fuel
  induction fuel with
  | zero =>
    intro lps len i _ _
    rw [buildLPSLoop, buildLPSLoopNat]
    by_cases hi : i < pat.length
    · rw [if_pos hi, if_pos hi]; rfl
    · rw [if_neg hi, if_neg hi]; rfl
  | succ fuel ih =>
    intro lps len i hlen hent
    rw [buildLPSLoop, buildLPSLoopNat]
    by_cases hi : i < pat.length
    · rw [if_pos hi, if_pos hi, toSize_natCast (by omega), strAt_of_lt hi,
        strAt_of_lt (by omega), List.getElem?_eq_getElem hi,
        List.getElem?_eq_getElem (show len < pat.length by omega)]
      simp only []
      by_cases hab : pat[i] = pat[len]
      · rw [if_pos hab, if_pos hab, castL_length]
        by_cases hil : i < lps.length
        · have e : toInt ((len : Int) + 1) = ((len + 1 : Nat) : Int) := by
            unfold toInt; omega
          rw [if_pos hil, if_pos hil, e, castL_set]
          exact ih _ _ _ (by omega) (entries_le_set hent (by omega))
        · rw [if_neg hil, if_neg hil]; rfl
      · rw [if_neg hab, if_neg hab]
        by_cases hl0 : len = 0
        · subst hl0
          have h1 : ¬ (((0 : Nat) : Int) ≠ 0) := by simp
          have h2 : ¬ ((0 : Nat) ≠ 0) := by simp
          rw [if_neg h1, if_neg h2, castL_length]
          by_cases hil : i < lps.length
          · rw [if_pos hil, if_pos hil]
            have := ih (lps.set i 0) 0 (i + 1) (by omega) (entries_le_set hent (by omega))
            rw [← castL_set] at this
            exact this
          · rw [if_neg hil, if_neg hil]; rfl
        · have e : toSize (toInt ((len : Int) - 1)) = len - 1 := by
            unfold toSize toInt; omega
          rw [if_pos (by omega), if_pos hl0, e, castL_getElem?]
          cases hl : lps[len - 1]? with
          | none => rfl
          | some l =>
            simp only [Option.map_some']
            have := hent _ _ hl
            exact ih _ _ _ (by omega) hent
    · rw [if_neg hi, if_neg hi]; rfl

theorem buildLPS_eq (pat : List Char) (hn : pat.length < 2147483648) :
    buildLPS pat = (buildLPSNat pat).map castL := by
  unfold buildLPS buildLPSNat
  have h := buildLPSLoop_sim pat hn (2 * pat.length) (List.replicate pat.length 0) 0 1
    (by omega) (fun k v hv => by
      rw [List.getElem?_replicate] at hv
      split at hv
      · rw [← Option.some.inj hv]; omega
      · exact absurd hv (by simp))
  rw [castL_replicate] at h
  exact h

theorem narrowL_append (l : List Nat) (p : Nat) :
    narrowL l ++ [toInt (p : Int)] = narrowL (l ++ [p]) := by
  rw [narrowL, narrowL, List.map_append]; rfl

/-- The loop of `kmpSearch` is the loop over natural numbers, with every
recorded position converted to `int`. -/
theorem kmpLoop_sim (txt pat : List Char) (lps : List Nat)
    (hm : pat.length < 2147483648) (hn : txt.length < 18446744073709551616)
    (hent : ∀ (k v : Nat), lps[k]? = some v → v ≤ k) :
    ∀ (fuel i j : Nat) (pos : List Nat), j < pat.length → j ≤ i →
      kmpLoop txt pat (castL lps) fuel i j (narrowL pos) =
        (kmpLoopNat txt pat lps fuel i j pos).map narrowL := by
  intro fuel
  induction fuel with
  | zero =>
    intro i j pos _ _
    rw [kmpLoop, kmpLoopNat]
    by_cases hi : i < txt.length
    · rw [if_pos hi, if_pos hi]; rfl
    · rw [if_neg hi, if_neg hi]; rfl
  | succ fuel ih =>
    intro i j pos hj hji
    rw [kmpLoop, kmpLoopNat]
    by_cases hi : i < txt.length
    · rw [if_pos hi, if_pos hi, strAt_of_lt hi, strAt_of_lt hj,
        List.getElem?_eq_getElem hi, List.getElem?_eq_getElem hj]
      simp only []
      by_cases hab : txt[i] = pat[j]
      · rw [if_pos hab, if_pos hab]
        by_cases hfull : j + 1 = pat.length
        · rw [if_pos hfull, if_pos hfull, castL_getElem?]
          cases hl : lps[j + 1 - 1]? with
          | none => rfl
          | some l =>
            simp only [Option.map_some']
            have hlj := hent _ _ hl
            have e1 : toSize (l : Int) = l := toSize_natCast (by omega)
            have e2 : toSize (((i + 1 : Nat) : Int) - ((j + 1 : Nat) : Int))
                = (i + 1) - (j + 1) := by
              unfold toSize; omega
            rw [e1, e2, narrowL_append]
            exact ih _ _ _ (by omega) (by omega)
        · rw [if_neg hfull, if_neg hfull]
          exact ih _ _ _ (by omega) (by omega)
      · rw [if_neg hab, if_neg hab]
        by_cases hj0 : j = 0
        · subst hj0
          have h2 : ¬ ((0 : Nat) ≠ 0) := by simp
          rw [if_neg h2, if_neg h2]
          exact ih _ _ _ hj (by omega)
        · rw [if_pos hj0, if_pos hj0, castL_getElem?]
          cases hl : lps[j - 1]? with
          | none => rfl
          | some l =>
            simp only [Option.map_some']
            have hlj := hent _ _ hl
            rw [toSize_natCast (show l < 18446744073709551616 by omega)]
            exact ih _ _ _ (by omega) (by omega)
    · rw [if_neg hi, if_neg hi]; rfl

theorem lpsUpTo_entries_le {pat : List Char} {lps : List Nat}
    (hl : lps.length = pat.length) (h : LpsUpTo pat lps pat.length) :
    ∀ (k v : Nat), lps[k]? = some v → v ≤ k := by
  intro k v hv
  have hk : k < pat.length := by
    rw [← hl]
    exact (List.getElem?_eq_some.1 hv).1
  obtain ⟨w, hw, hok⟩ := h k hk
  have hvw : v = w := Option.some.inj (hv.symm.trans hw)
  have := hok.1.1
  omega

/-- For a non-empty pattern shorter than `2^31`, `kmpSearch` returns the start
positions of all occurrences, in ascending order, each converted to `int`. -/
theorem kmpSearch_eq (txt pat : List Char) (hp : pat ≠ [])
    (hm : pat.length < 2147483648) (hn : txt.length < 18446744073709551616) :
    kmpSearch txt pat = some (narrowL (occurrences txt pat)) := by
  obtain ⟨lps, h1, h2, h3⟩ := buildLPSNat_spec pat
  have hN := kmpSearchNat_eq_occurrences txt pat hp
  unfold kmpSearchNat at hN
  rw [if_neg hp, h1] at hN
  simp only [] at hN
  unfold kmpSearch
  rw [if_neg hp, buildLPS_eq pat hm, h1]
  simp only [Option.map_some']
  have hsim := kmpLoop_sim txt pat lps hm hn (lpsUpTo_entries_le h2 h3) (2 * txt.length)
    0 0 [] (List.length_pos.2 hp) (le_refl 0)
  rw [hN] at hsim
  exact hsim

theorem narrowL_eq_castL {l : List Nat} (h : ∀ p, p ∈ l → p < 2147483648) :
    narrowL l = castL l := by
  unfold narrowL castL
  apply List.map_congr_left
  intro p hp
  exact toInt_natCast (h p hp)

/-- For a non-empty pattern and a text, both shorter than `2^31`, `kmpSearch`
returns the start positions of all occurrences, in ascending order. -/
theorem kmpSearch_eq_of_short (txt pat : List Char) (hp : pat ≠ [])
    (hm : pat.length < 2147483648) (hn : txt.length < 2147483648) :
    kmpSearch txt pat = some (castL (occurrences txt pat)) := by
  rw [kmpSearch_eq txt pat hp hm (by omega), narrowL_eq_castL]
  intro p hp'
  have := (mem_occurrences.1 hp').1
  omega

theorem mem_castL {l : List Nat} {x : Int} :
    x ∈ castL l ↔ ∃ p, p ∈ l ∧ (p : Int) = x := by
  unfold castL
  exact List.mem_map

theorem castL_sorted {l : List Nat} (h : l.Sorted (· < ·)) : (castL l).Sorted (· < ·) := by
  unfold castL
  rw [List.Sorted, List.pairwise_map]
  exact List.Pairwise.imp (fun hab => by omega) h

/-! ## The narrowing of positions in `kmpSearch` -/

theorem occurrences_b_a (N : Nat) :
    occurrences (List.replicate N 'b' ++ ['a']) ['a'] = [N] := by
  have hlen : (List.replicate N 'b' ++ ['a']).length + 1 - ['a'].length = N + 1 := by
    simp
  unfold occurrences occUpTo
  rw [hlen, List.range_succ, List.filter_append]
  have h1 : List.filter (fun p => decide (List.take ['a'].length
      (List.drop p (List.replicate N 'b' ++ ['a'])) = ['a'])) (List.range N) = [] := by
    rw [List.filter_eq_nil_iff]
    intro p hp hc
    have hpN := List.mem_range.1 hp
    have h0 := congrArg (fun l => l[0]?) (decide_eq_true_iff.1 hc)
    simp only [List.length_singleton, List.getElem?_take, List.getElem?_drop] at h0
    rw [if_pos Nat.one_pos, Nat.add_zero,
      List.getElem?_append_left (by rw [List.length_replicate]; exact hpN),
      List.getElem?_replicate, if_pos hpN] at h0
    exact absurd (Option.some.inj h0) (by decide)
  have h2 : List.drop N (List.replicate N 'b' ++ ['a']) = ['a'] := by
    have := List.drop_left (List.replicate N 'b') ['a']
    rwa [List.length_replicate] at this
  rw [h1, List.nil_append]
  simp [List.filter, h2]

/-- On `N` times `'b'` followed by `'a'`, the pattern `"a"` occurs at `N` only,
and `kmpSearch` returns the `int` that `N` converts to. -/
theorem kmpSearch_b_a (N : Nat) (hN : N + 1 < 18446744073709551616) :
    kmpSearch (List.replicate N 'b' ++ ['a']) ['a'] = some [toInt (N : Int)] := by
  rw [kmpSearch_eq _ _ (by decide) (by decide)
    (by rw [List.length_append, List.length_replicate]; exact hN), occurrences_b_a]
  rfl

theorem toInt_two_pow_31 : toInt ((2147483648 : Nat) : Int) = -2147483648 := by
  decide

/-! ## The overflow of `len` in `buildLPS` -/

theorem strAt_replicate_a {n k : Nat} (h : k < n) :
    strAt (List.replicate n 'a') k = some 'a' := by
  rw [strAt_of_lt (by rw [List.length_replicate]; exact h), List.getElem?_replicate,
    if_pos h]

/-- On a pattern of more than `2^31` times `'a'` the loop of `buildLPS` reaches
the index `2^31` with `len = 2^31 - 1`. -/
theorem buildLPSLoop_run_a (n : Nat) (hn : 2147483648 < n) :
    ∀ (d i fuel : Nat) (lps : List Int), 1 ≤ i → i + d = 2147483648 →
      lps.length = n → d ≤ fuel →
      ∃ lps', lps'.length = n ∧
        buildLPSLoop (List.replicate n 'a') fuel lps ((i - 1 : Nat) : Int) i =
          buildLPSLoop (List.replicate n 'a') (fuel - d) lps' 2147483647 2147483648 := by
  intro d
  induction d with
  | zero =>
    intro i fuel lps _ hi hl _
    have hi' : i = 2147483648 := by omega
    subst hi'
    exact ⟨lps, hl, rfl⟩
  | succ d ih =>
    intro i fuel lps h1 hi hl hf
    obtain ⟨f, rfl⟩ : ∃ f, fuel = f + 1 := ⟨fuel - 1, by omega⟩
    have e1 : toSize ((i - 1 : Nat) : Int) = i - 1 := toSize_natCast (by omega)
    have e2 : toInt (((i - 1 : Nat) : Int) + 1) = ((i + 1 - 1 : Nat) : Int) := by
      unfold toInt; omega
    obtain ⟨lps', hl', hrun⟩ := ih (i + 1) f (lps.set i ((i + 1 - 1 : Nat) : Int))
      (by omega) (by omega) (by rw [List.length_set]; exact hl) (by omega)
    refine ⟨lps', hl', ?_⟩
    rw [buildLPSLoop, List.length_replicate, if_pos (by omega), e1,
      strAt_replicate_a (by omega), strAt_replicate_a (by omega)]
    simp only []
    have e4 : f + 1 - (d + 1) = f - d := by omega
    rw [if_pos trivial, if_pos (by omega), e2, hrun, e4]

/-- At the index `2^31` the increment `++len` wraps to `-2^31`. -/
theorem buildLPSLoop_wrap_a (n : Nat) (hn : 2147483648 < n) (fuel : Nat)
    (lps : List Int) (hl : lps.length = n) :
    buildLPSLoop (List.replicate n 'a') (fuel + 1) lps 2147483647 2147483648 =
      buildLPSLoop (List.replicate n 'a') fuel
        (lps.set 2147483648 (-2147483648)) (-2147483648) 2147483649 := by
  have e1 : toSize 2147483647 = 2147483647 := by decide
  have e2 : toInt (2147483647 + 1) = -2147483648 := by decide
  rw [buildLPSLoop, List.length_replicate, if_pos hn, e1, strAt_replicate_a hn,
    strAt_replicate_a (by omega)]
  have e3 : (2147483648 + 1 : Nat) = 2147483649 := rfl
  simp only []
  rw [if_pos trivial, if_pos (by omega), e2, e3]

/-- On `2^31 + 1` times `'a'` the function `buildLPS` returns an array whose
last entry is `-2^31`. -/
theorem buildLPS_a_wraps (n : Nat) (hn : n = 2147483649) :
    ∃ lps, buildLPS (List.replicate n 'a') = some lps ∧
      lps[2147483648]? = some (-2147483648) := by
  obtain ⟨lps', hl', hrun⟩ := buildLPSLoop_run_a n (by omega) 2147483647 1 (2 * n)
    (List.replicate n 0) (le_refl 1) (by omega) (List.length_replicate _ _) (by omega)
  obtain ⟨f, hf⟩ : ∃ f, 2 * n - 2147483647 = f + 1 := ⟨2 * n - 2147483648, by omega⟩
  refine ⟨lps'.set 2147483648 (-2147483648), ?_,
    List.getElem?_set_self (by omega)⟩
  unfold buildLPS
  rw [List.length_replicate]
  rw [show ((1 - 1 : Nat) : Int) = 0 from rfl] at hrun
  rw [hrun, hf, buildLPSLoop_wrap_a n (by omega) f lps' hl']
  cases f with
  | zero => rw [buildLPSLoop, List.length_replicate, if_neg (by omega)]
  | succ f => rw [buildLPSLoop, List.length_replicate, if_neg (by omega)]

theorem drop_b_a (N : Nat) : List.drop N (List.replicate N 'b' ++ ['a']) = ['a'] := by
  have := List.drop_left (List.replicate N 'b') ['a']
  rwa [List.length_replicate] at this

theorem length_b_a (N : Nat) : (List.replicate N 'b' ++ ['a']).length = N + 1 := by
  rw [List.length_append, List.length_replicate]; rfl

/-- C1, counterexample. On the text of `2^31` times `'b'` followed by `'a'` and
the pattern `"a"`, the position `2^31` is recorded as `int(i - j)`: `kmpSearch`
returns `[-2147483648]`, which is no position of the text. -/
theorem kmpSearch_negative_position :
    ['a'] ≠ [] ∧
    kmpSearch (List.replicate 2147483648 'b' ++ ['a']) ['a'] = some [-2147483648] ∧
    ¬ ∃ pos, kmpSearch (List.replicate 2147483648 'b' ++ ['a']) ['a'] = some pos ∧
      ∀ p, p ∈ pos → 0 ≤ p ∧
        p + (['a'] : List Char).length ≤
          (List.replicate 2147483648 'b' ++ ['a']).length ∧
        ((List.replicate 2147483648 'b' ++ ['a']).drop p.toNat).take
          (['a'] : List Char).length = ['a'] := by
  have h := kmpSearch_b_a 2147483648 (by decide)
  rw [toInt_two_pow_31] at h
  refine ⟨by decide, h, ?_⟩
  rintro ⟨pos, h1, h2⟩
  rw [h] at h1
  have hm : (-2147483648 : Int) ∈ pos := by
    rw [← Option.some.inj h1]; exact List.mem_singleton_self _
  exact absurd (h2 _ hm).1 (by decide)

/-- C1, amended. Soundness of `kmpSearch`: for every text and every non-empty
pattern, both shorter than `2^31` characters, the search returns a list, and
every position `p` in it satisfies `0 ≤ p`, `p + |pat| ≤ |txt|` and
`txt[p .. p+|pat|) = pat`. -/
theorem kmpSearch_sound (txt pat : List Char) (hp : pat ≠ [])
    (hm : pat.length < 2147483648) (hn : txt.length < 2147483648) :
    ∃ pos, kmpSearch txt pat = some pos ∧
      ∀ p, p ∈ pos → 0 ≤ p ∧ p + pat.length ≤ txt.length ∧
        (txt.drop p.toNat).take pat.length = pat := by
  refine ⟨_, kmpSearch_eq_of_short txt pat hp hm hn, fun p hpm => ?_⟩
  obtain ⟨q, hq, rfl⟩ := mem_castL.1 hpm
  obtain ⟨h1, h2⟩ := mem_occurrences.1 hq
  refine ⟨by omega, by omega, ?_⟩
  rw [Int.toNat_ofNat]
  exact h2

/-- C1, amended, at the text `"abxabcabcaby"` and the pattern `"abcaby"`, where
the search returns `[6]`. -/
theorem kmpSearch_sound_witness :
    "abcaby".toList ≠ [] ∧ "abcaby".toList.length < 2147483648 ∧
      "abxabcabcaby".toList.length < 2147483648 ∧
      kmpSearch "abxabcabcaby".toList "abcaby".toList = some [6] ∧
      ∃ pos, kmpSearch "abxabcabcaby".toList "abcaby".toList = some pos ∧
        ∀ p, p ∈ pos → 0 ≤ p ∧
          p + "abcaby".toList.length ≤ "abxabcabcaby".toList.length ∧
          ("abxabcabcaby".toList.drop p.toNat).take "abcaby".toList.length =
            "abcaby".toList :=
  ⟨by decide, by decide, by decide, by decide,
    kmpSearch_sound "abxabcabcaby".toList "abcaby".toList (by decide) (by decide)
      (by decide)⟩

/-- C2, counterexample. On the text of `2^31` times `'b'` followed by `'a'`, the
pattern `"a"` occurs at `2^31`, and the list `[-2147483648]` that `kmpSearch`
returns does not contain `2^31`. -/
theorem kmpSearch_misses_occurrence :
    ['a'] ≠ [] ∧
    2147483648 + (['a'] : List Char).length ≤
      (List.replicate 2147483648 'b' ++ ['a']).length ∧
    ((List.replicate 2147483648 'b' ++ ['a']).drop 2147483648).take
      (['a'] : List Char).length = ['a'] ∧
    kmpSearch (List.replicate 2147483648 'b' ++ ['a']) ['a'] = some [-2147483648] ∧
    (2147483648 : Int) ∉ [(-2147483648 : Int)] := by
  have h := kmpSearch_b_a 2147483648 (by decide)
  rw [toInt_two_pow_31] at h
  refine ⟨by decide, ?_, ?_, h, by decide⟩
  · rw [length_b_a]; exact le_refl _
  · rw [drop_b_a]; rfl

/-- C2, amended. Completeness of `kmpSearch`: for every text and every non-empty
pattern, both shorter than `2^31` characters, the search returns a list that
contains every `p` with `p + |pat| ≤ |txt|` and `txt[p .. p+|pat|) = pat`,
overlapping occurrences included. -/
theorem kmpSearch_complete (txt pat : List Char) (hp : pat ≠ [])
    (hm : pat.length < 2147483648) (hn : txt.length < 2147483648) :
    ∃ pos, kmpSearch txt pat = some pos ∧
      ∀ p : Nat, p + pat.length ≤ txt.length → (txt.drop p).take pat.length = pat →
        (p : Int) ∈ pos :=
  ⟨_, kmpSearch_eq_of_short txt pat hp hm hn,
    fun p h1 h2 => mem_castL.2 ⟨p, mem_occurrences.2 ⟨h1, h2⟩, rfl⟩⟩

/-- C2, amended, at the text `"aaaa"` and the pattern `"aa"`, whose three
occurrences overlap. -/
theorem kmpSearch_complete_witness :
    "aa".toList ≠ [] ∧ "aa".toList.length < 2147483648 ∧
      "aaaa".toList.length < 2147483648 ∧
      kmpSearch "aaaa".toList "aa".toList = some [0, 1, 2] ∧
      ∃ pos, kmpSearch "aaaa".toList "aa".toList = some pos ∧
        ∀ p : Nat, p + "aa".toList.length ≤ "aaaa".toList.length →
          ("aaaa".toList.drop p).take "aa".toList.length = "aa".toList →
          (p : Int) ∈ pos :=
  ⟨by decide, by decide, by decide, by decide,
    kmpSearch_complete "aaaa".toList "aa".toList (by decide) (by decide) (by decide)⟩

/-- For a pattern shorter than `2^31`, `buildLPS` returns the array of the
longest-border lengths. -/
theorem buildLPS_spec (pat : List Char) (hm : pat.length < 2147483648) :
    ∃ lps : List Nat, buildLPS pat = some (castL lps) ∧ lps.length = pat.length ∧
      LpsUpTo pat lps pat.length := by
  obtain ⟨lps, h1, h2, h3⟩ := buildLPSNat_spec pat
  exact ⟨lps, by rw [buildLPS_eq pat hm, h1]; rfl, h2, h3⟩

/-- C5, counterexample. On the pattern of `2^31 + 1` times `'a'`, the entry of
`buildLPS` at the index `2^31` is `-2147483648`: the increment `++len` has
wrapped, and the entry is not the length `2^31` of the longest border. -/
theorem buildLPS_entry_not_border :
    2147483648 < (List.replicate 2147483649 'a').length ∧
    ∃ lps, buildLPS (List.replicate 2147483649 'a') = some lps ∧
      lps[2147483648]? = some (-2147483648) ∧
      ¬ ∃ v : Nat, lps[2147483648]? = some (v : Int) := by
  obtain ⟨lps, h1, h2⟩ := buildLPS_a_wraps 2147483649 rfl
  refine ⟨by rw [List.length_replicate]; decide, lps, h1, h2, ?_⟩
  rintro ⟨v, hv⟩
  rw [h2] at hv
  have := Option.some.inj hv
  omega

/-- C5, amended. For every pattern shorter than `2^31` characters `buildLPS`
returns an array of the pattern's length, and for every index `i` of the pattern
its entry `i` is the largest `k ≤ i` such that the first `k` characters of the
pattern are the last `k` characters of `pat[0..i]`. -/
theorem buildLPS_longest_border (pat : List Char) (hm : pat.length < 2147483648) :
    ∃ lps, buildLPS pat = some lps ∧ lps.length = pat.length ∧
      ∀ i, i < pat.length → ∃ v : Nat, lps[i]? = some (v : Int) ∧ v ≤ i ∧
        pat.take v = (pat.take (i + 1)).drop (i + 1 - v) ∧
        ∀ k, k ≤ i → pat.take k = (pat.take (i + 1)).drop (i + 1 - k) → k ≤ v := by
  obtain ⟨lps, h1, h2, h3⟩ := buildLPS_spec pat hm
  refine ⟨castL lps, h1, by rw [castL_length, h2], fun i hi => ?_⟩
  obtain ⟨v, hv, ⟨hb1, hb2⟩, hmax⟩ := h3 i hi
  have hvi : v ≤ i := by omega
  refine ⟨v, by rw [castL_getElem?, hv]; rfl, hvi,
    (ps_iff_take_drop (by omega) (by omega) (by omega)).1 hb2, ?_⟩
  intro k hk hkeq
  exact hmax k ⟨by omega, (ps_iff_take_drop (by omega) (by omega) (by omega)).2 hkeq⟩

/-- C5, amended, at the pattern `"aabaaab"`, where the array is
`[0, 1, 0, 1, 2, 2, 3]`. -/
theorem buildLPS_longest_border_witness :
    "aabaaab".toList.length < 2147483648 ∧
      buildLPS "aabaaab".toList = some [0, 1, 0, 1, 2, 2, 3] ∧
      ∃ lps, buildLPS "aabaaab".toList = some lps ∧
        lps.length = "aabaaab".toList.length ∧
        ∀ i, i < "aabaaab".toList.length → ∃ v : Nat, lps[i]? = some (v : Int) ∧ v ≤ i ∧
          "aabaaab".toList.take v = ("aabaaab".toList.take (i + 1)).drop (i + 1 - v) ∧
          ∀ k, k ≤ i →
            "aabaaab".toList.take k = ("aabaaab".toList.take (i + 1)).drop (i + 1 - k) →
            k ≤ v :=
  ⟨by decide, by decide, buildLPS_longest_border "aabaaab".toList (by decide)⟩

/-- C13, counterexample. On the pattern of `2^31 + 1` times `'a'`, the entry of
`buildLPS` at the index `2^31` is negative. -/
theorem buildLPS_negative_entry :
    2147483648 < (List.replicate 2147483649 'a').length ∧
    ∃ lps, buildLPS (List.replicate 2147483649 'a') = some lps ∧
      ∃ v, lps[2147483648]? = some v ∧ v < 0 := by
  obtain ⟨lps, h1, h2⟩ := buildLPS_a_wraps 2147483649 rfl
  exact ⟨by rw [List.length_replicate]; decide, lps, h1, _, h2, by decide⟩

/-- C13, amended. LPS invariant: for every pattern shorter than `2^31`
characters `buildLPS` returns an array of the pattern's length, whose entry `0`
is `0` when the pattern is non-empty and whose entry `i` lies between `0` and
`i` for every index `i`. -/
theorem buildLPS_invariant (pat : List Char) (hm : pat.length < 2147483648) :
    ∃ lps, buildLPS pat = some lps ∧ lps.length = pat.length ∧
      (pat ≠ [] → lps[0]? = some 0) ∧
      ∀ i : Nat, i < pat.length → ∃ v : Int, lps[i]? = some v ∧ 0 ≤ v ∧ v ≤ i := by
  obtain ⟨lps, h1, h2, h3⟩ := buildLPS_spec pat hm
  have hle : ∀ i : Nat, i < pat.length →
      ∃ v : Nat, (castL lps)[i]? = some (v : Int) ∧ v ≤ i := by
    intro i hi
    obtain ⟨v, hv, hok⟩ := h3 i hi
    have := hok.1.1
    exact ⟨v, by rw [castL_getElem?, hv]; rfl, by omega⟩
  refine ⟨castL lps, h1, by rw [castL_length, h2], fun hp => ?_, fun i hi => ?_⟩
  · obtain ⟨v, hv, hv0⟩ := hle 0 (List.length_pos.2 hp)
    have : v = 0 := by omega
    rw [hv, this]; rfl
  · obtain ⟨v, hv, hvi⟩ := hle i hi
    exact ⟨v, hv, by omega, by omega⟩

/-- C13, amended, at the pattern `"abcaby"`, where the array is
`[0, 0, 0, 1, 2, 0]`. -/
theorem buildLPS_invariant_witness :
    "abcaby".toList.length < 2147483648 ∧
      buildLPS "abcaby".toList = some [0, 0, 0, 1, 2, 0] ∧
      ∃ lps, buildLPS "abcaby".toList = some lps ∧
        lps.length = "abcaby".toList.length ∧
        ("abcaby".toList ≠ [] → lps[0]? = some 0) ∧
        ∀ i : Nat, i < "abcaby".toList.length →
          ∃ v : Int, lps[i]? = some v ∧ 0 ≤ v ∧ v ≤ i :=
  ⟨by decide, by decide, buildLPS_invariant "abcaby".toList (by decide)⟩

theorem forall_getElem?_set {Q : Nat → Nat → Prop} {l : List Nat} {i v : Nat}
    (h : ∀ (k w : Nat), l[k]? = some w → Q k w) (hv : Q i v) :
    ∀ (k w : Nat), (l.set i v)[k]? = some w → Q k w := by
  intro k w hw
  by_cases hki : i = k
  · subst hki
    rw [List.getElem?_set] at hw
    simp only [if_true] at hw
    split at hw
    · rw [← Option.some.inj hw]; exact hv
    · exact absurd hw (by simp)
  · rw [List.getElem?_set_ne hki] at hw
    exact h k w hw

theorem castL_append (l : List Nat) (p : Nat) :
    castL l ++ [(p : Int)] = castL (l ++ [p]) := by
  rw [castL, castL, List.map_append]; rfl

theorem zExtendNat_le (s : List Char) (i : Nat) :
    ∀ (fuel z0 z : Nat), zExtendNat s i fuel z0 = some z → i + z0 ≤ s.length →
      i + z ≤ s.length := by
  intro fuel
  induction fuel with
  | zero =>
    intro z0 z h hz
    rw [zExtendNat] at h
    split at h
    · exact absurd h (by simp)
    · rw [← Option.some.inj h]; exact hz
  | succ fuel ih =>
    intro z0 z h hz
    rw [zExtendNat] at h
    split at h
    · split at h
      · split at h
        · exact ih _ _ h (by omega)
        · rw [← Option.some.inj h]; exact hz
      · exact absurd h (by simp)
    · rw [← Option.some.inj h]; exact hz

/-- While no `int` wraps, the `while` loop of `zFunction` is the loop over
natural numbers. -/
theorem zExtend_sim (s : List Char) (hn : s.length < 2147483648) (i : Nat) :
    ∀ (fuel z : Nat), i + z ≤ s.length →
      zExtend s i fuel (z : Int) =
        (zExtendNat s i fuel z).map (fun (v : Nat) => (v : Int)) := by
  intro fuel
  induction fuel with
  | zero =>
    intro z hz
    have e : toSize ((i : Int) + (z : Int)) = i + z := by unfold toSize; omega
    rw [zExtend, zExtendNat, e]
    by_cases h : i + z < s.length
    · rw [if_pos h, if_pos h]; rfl
    · rw [if_neg h, if_neg h]; rfl
  | succ fuel ih =>
    intro z hz
    have e : toSize ((i : Int) + (z : Int)) = i + z := by unfold toSize; omega
    rw [zExtend, zExtendNat, e]
    by_cases h : i + z < s.length
    · have e2 : toInt ((z : Int) + 1) = ((z + 1 : Nat) : Int) := by unfold toInt; omega
      have hz' : z < s.length := by omega
      rw [if_pos h, if_pos h, toSize_natCast (by omega), strAt_of_lt hz',
        strAt_of_lt h, List.getElem?_eq_getElem hz', List.getElem?_eq_getElem h]
      simp only []
      by_cases hab : s[z] = s[i + z]
      · rw [if_pos hab, if_pos hab, e2]
        exact ih _ (by omega)
      · rw [if_neg hab, if_neg hab]; rfl
    · rw [if_neg h, if_neg h]; rfl

theorem zSeedNat_le {s : List Char} {Z : List Nat} {L R i z0 : Nat}
    (h : zSeedNat Z L R i = some z0) (hR : R < s.length)
    (hent : ∀ (k v : Nat), Z[k]? = some v → k + v ≤ s.length) : i + z0 ≤ s.length := by
  unfold zSeedNat at h
  split at h
  · split at h
    · split at h
      · rw [← Option.some.inj h]; omega
      · exact absurd h (by simp)
    · exact absurd h (by simp)
  · exact hent _ _ h

theorem zSeed_sim {n : Nat} (hn : n < 2147483648) (Z : List Nat) {L R i : Nat}
    (hi : i < n) (hL : L ≤ i) (hR : R < n) :
    zSeed (castL Z) (L : Int) (R : Int) i =
      (zSeedNat Z L R i).map (fun (v : Nat) => (v : Int)) := by
  unfold zSeed zSeedNat
  rw [toInt_natCast (by omega)]
  by_cases h : i ≤ R
  · have e1 : toSize ((i : Int) - (L : Int)) = i - L := by unfold toSize; omega
    have e2 : toInt (toInt ((R : Int) - (i : Int)) + 1) = ((R - i + 1 : Nat) : Int) := by
      unfold toInt; omega
    rw [if_pos (by omega), if_pos h, if_pos hL, e1, e2, castL_getElem?]
    cases hv : Z[i - L]? with
    | none => rfl
    | some v =>
      simp only [Option.map_some']
      congr 1
      omega
  · rw [if_neg (by omega), if_neg h, castL_getElem?]

theorem toInt_update {i z n : Nat} (h1 : 1 ≤ i) (hz : i + z ≤ n) (hn : n < 2147483648) :
    toInt (toInt (toInt (i : Int) + (z : Int)) - 1) = ((i + z - 1 : Nat) : Int) := by
  unfold toInt; omega

/-- While no `int` wraps, the loop of `zFunction` is the loop over natural
numbers. -/
theorem zLoop_sim (s : List Char) (hn : s.length < 2147483648) :
    ∀ (k i : Nat) (Z : List Nat) (L R : Nat), 1 ≤ i → i + k ≤ s.length → L ≤ i →
      R < s.length → (∀ (j v : Nat), Z[j]? = some v → j + v ≤ s.length) →
      zLoop s k i (castL Z) (L : Int) (R : Int) = (zLoopNat s k i Z L R).map castL := by
  intro k
  induction k with
  | zero =>
    intro i Z L R _ _ _ _ _
    rw [zLoop, zLoopNat]; rfl
  | succ k ih =>
    intro i Z L R h1 hk hL hR hent
    have hi : i < s.length := by omega
    rw [zLoop, zLoopNat, zSeed_sim hn Z hi hL hR]
    cases hseed : zSeedNat Z L R i with
    | none => rfl
    | some z0 =>
      simp only [Option.map_some']
      have hz0 := zSeedNat_le hseed hR hent
      rw [zExtend_sim s hn i s.length z0 hz0]
      cases hext : zExtendNat s i s.length z0 with
      | none => rfl
      | some z =>
        simp only [Option.map_some']
        have hz := zExtendNat_le s i _ _ _ hext hz0
        have hi2 : i < 2147483648 := by omega
        rw [castL_length, toInt_update h1 hz hn, toInt_natCast hi2, castL_set]
        by_cases hiZ : i < Z.length
        · rw [if_pos hiZ, if_pos hiZ]
          by_cases hgt : i + z - 1 > R
          · have hgt' : ((i + z - 1 : Nat) : Int) > (R : Int) := by omega
            rw [if_pos hgt', if_pos hgt]
            exact ih (i + 1) (Z.set i z) i (i + z - 1) (by omega) (by omega) (by omega)
              (by omega) (forall_getElem?_set hent hz)
          · have hgt' : ¬ ((i + z - 1 : Nat) : Int) > (R : Int) := by omega
            rw [if_neg hgt', if_neg hgt]
            exact ih (i + 1) (Z.set i z) L R (by omega) (by omega) (by omega) hR
              (forall_getElem?_set hent hz)
        · rw [if_neg hiZ, if_neg hiZ]; rfl

theorem zFunction_eq (s : List Char) (hn : s.length < 2147483648) :
    zFunction s = (zFunctionNat s).map castL := by
  rcases Nat.eq_zero_or_pos s.length with h0 | hpos
  · have : s = [] := List.length_eq_zero.1 h0
    subst this
    rfl
  · unfold zFunction zFunctionNat
    have h := zLoop_sim s hn (s.length - 1) 1 (List.replicate s.length 0) 0 0 (le_refl 1)
      (by omega) (by omega) hpos (fun j v hv => by
        rw [List.getElem?_replicate] at hv
        split at hv
        · rw [← Option.some.inj hv]; omega
        · exact absurd hv (by simp))
    rw [castL_replicate] at h
    exact h

/-- For a sequence shorter than `2^31`, `zFunction` returns an array of the
length of `s` whose entries from index `1` on are the longest-common-prefix
lengths. -/
theorem zFunction_spec (s : List Char) (hn : s.length < 2147483648) :
    ∃ Z : List Nat, zFunction s = some (castL Z) ∧ zFunctionNat s = some Z ∧
      Z.length = s.length ∧
      ∀ j, 1 ≤ j → j < s.length → ∃ z, Z[j]? = some z ∧ IsZ s j z := by
  obtain ⟨Z, h1, h2, h3⟩ := zFunctionNat_spec s
  exact ⟨Z, by rw [zFunction_eq s hn, h1]; rfl, h1, h2, h3⟩

/-- While no `int` wraps, the loop of `zSearch` is the loop over natural
numbers. -/
theorem zSearchLoop_sim (Z : List Nat) (m : Nat) :
    ∀ (k i : Nat) (pos : List Nat), m + 1 ≤ i → i + k < 2147483648 →
      zSearchLoop (castL Z) m k i (castL pos) =
        (zSearchLoopNat Z m k i pos).map castL := by
  intro k
  induction k with
  | zero =>
    intro i pos _ _
    rw [zSearchLoop, zSearchLoopNat]; rfl
  | succ k ih =>
    intro i pos hi hk
    rw [zSearchLoop, zSearchLoopNat, castL_getElem?]
    cases hz : Z[i]? with
    | none => rfl
    | some z =>
      simp only [Option.map_some']
      have e1 : toInt (m : Int) = (m : Int) := toInt_natCast (by omega)
      have e2 : toInt ((toSize ((i : Int) - (m : Int) - 1) : Nat) : Int)
          = ((i - m - 1 : Nat) : Int) := by
        unfold toInt toSize; omega
      rw [e1, e2]
      by_cases hzm : z = m
      · have hzm' : (z : Int) = (m : Int) := by omega
        rw [if_pos hzm', if_pos hzm, castL_append]
        exact ih (i + 1) (pos ++ [i - m - 1]) (by omega) (by omega)
      · have hzm' : ¬ (z : Int) = (m : Int) := by omega
        rw [if_neg hzm', if_neg hzm]
        exact ih (i + 1) pos (by omega) (by omega)

/-- For a non-empty pattern and a text with `|pat| + 1 + |txt| < 2^31`,
`zSearch` returns the start positions of the occurrences of the pattern that
are not followed by `'$'` in the text. -/
theorem zSearch_eq_of_short (txt pat : List Char) (hp : pat ≠ [])
    (hn : pat.length + 1 + txt.length < 2147483648) :
    zSearch txt pat = some (castL (zHitsUpTo txt pat txt.length)) := by
  have hN := zSearchNat_eq_zHits txt pat hp
  unfold zSearchNat at hN
  rw [if_neg hp] at hN
  unfold zSearch
  rw [if_neg hp, zFunction_eq _ (by rw [sep_length]; exact hn)]
  cases hZ : zFunctionNat (pat ++ '$' :: txt) with
  | none => rw [hZ] at hN; exact absurd hN (by simp)
  | some Z =>
    rw [hZ] at hN
    simp only [] at hN
    simp only [Option.map_some']
    have hsim := zSearchLoop_sim Z pat.length
      ((pat ++ '$' :: txt).length - (pat.length + 1)) (pat.length + 1) [] (le_refl _)
      (by rw [sep_length]; omega)
    rw [hN] at hsim
    exact hsim

/-! ## The cast `(int)i` in `zFunction` -/

theorem replicate_set_zero (n i : Nat) :
    (List.replicate n (0 : Int)).set i 0 = List.replicate n 0 := by
  apply List.ext_getElem?
  intro k
  rw [List.getElem?_set]
  by_cases hik : i = k
  · subst hik
    rw [if_pos rfl, List.length_replicate, List.getElem?_replicate]
  · rw [if_neg hik]

/-- Where the first character of `s` differs from the character at `i`, the
`while` loop of `zFunction` ends at once with `Z[i] = 0`. -/
theorem zExtend_mismatch {s : List Char} {i : Nat} (fuel : Nat) (hi : i < s.length)
    (hn : s.length < 18446744073709551615) (hne : s[i]? ≠ s[0]?) :
    zExtend s i (fuel + 1) 0 = some 0 := by
  have e0 : toSize ((i : Int) + 0) = i := by unfold toSize; omega
  have e1 : toSize 0 = 0 := by decide
  have h0 : 0 < s.length := by omega
  rw [zExtend, e0, if_pos hi, e1, strAt_of_lt h0, strAt_of_lt hi,
    List.getElem?_eq_getElem h0, List.getElem?_eq_getElem hi]
  simp only []
  rw [List.getElem?_eq_getElem h0, List.getElem?_eq_getElem hi] at hne
  rw [if_neg (fun h => hne (by rw [h]))]

/-- At `i = 2^31` the cast `(int)i` is negative: the seed branch is taken
whatever `R` is, and the seed is `-1` unless the read of `Z` already fails. -/
theorem zSeed_wrap (n : Nat) (L : Int) :
    zSeed (List.replicate n 0) L (max (((2147483648 : Nat) : Int) - 2) 0) 2147483648 = none ∨
    zSeed (List.replicate n 0) L (max (((2147483648 : Nat) : Int) - 2) 0) 2147483648
      = some (-1) := by
  have c : toInt ((2147483648 : Nat) : Int) ≤ max (((2147483648 : Nat) : Int) - 2) 0 := by
    decide
  have e : min (toInt (toInt (max (((2147483648 : Nat) : Int) - 2) 0
      - toInt ((2147483648 : Nat) : Int)) + 1)) (0 : Int) = -1 := by
    decide
  unfold zSeed
  rw [if_pos c, List.getElem?_replicate]
  by_cases hidx : toSize (((2147483648 : Nat) : Int) - L) < n
  · right
    rw [if_pos hidx]
    simp only []
    rw [e]
  · left
    rw [if_neg hidx]

/-- With `Z[i] = -1` the `while` loop of `zFunction` reads `s[Z[i]]` outside
`s`. -/
theorem zExtend_neg_one {s : List Char} (fuel : Nat) (hn : 2147483648 < s.length)
    (hn' : s.length < 18446744073709551615) :
    zExtend s 2147483648 (fuel + 1) (-1) = none := by
  have e0 : toSize (((2147483648 : Nat) : Int) + -1) = 2147483647 := by decide
  have e1 : toSize (-1) = 18446744073709551615 := by decide
  rw [zExtend, e0, if_pos (by omega), e1, strAt, if_neg (by omega),
    List.getElem?_eq_none (by omega)]

/-- On a sequence of more than `2^31` characters whose first character occurs
nowhere else, the loop of `zFunction` has `Z` all zero up to the index `2^31`,
and has no result there. -/
theorem zLoop_overflow (s : List Char)
    (hs0 : ∀ j, 1 ≤ j → j < s.length → s[j]? ≠ s[0]?)
    (hn : 2147483648 < s.length) (hn' : s.length < 18446744073709551615) :
    ∀ (k i : Nat) (L : Int), 1 ≤ i → i ≤ 2147483648 → i + k = s.length →
      zLoop s k i (List.replicate s.length 0) L (max ((i : Int) - 2) 0) = none := by
  intro k
  induction k with
  | zero =>
    intro i L _ h2 hk
    omega
  | succ k ih =>
    intro i L h1 h2 hk
    obtain ⟨f, hf⟩ : ∃ f, s.length = f + 1 := ⟨s.length - 1, by omega⟩
    have hi : i < s.length := by omega
    rw [zLoop]
    by_cases hw : i = 2147483648
    · subst hw
      rcases zSeed_wrap s.length L with hseed | hseed
      · rw [hseed]
      · rw [hseed]
        simp only []
        rw [hf, zExtend_neg_one f (by omega) (by omega)]
    · have hseed : zSeed (List.replicate s.length 0) L (max ((i : Int) - 2) 0) i
          = some 0 := by
        have c : ¬ (toInt (i : Int) ≤ max ((i : Int) - 2) 0) := by
          rw [toInt_natCast (by omega)]; omega
        unfold zSeed
        rw [if_neg c, List.getElem?_replicate, if_pos hi]
      have eR : toInt (toInt (toInt (i : Int) + 0) - 1)
          = max (((i + 1 : Nat) : Int) - 2) 0 := by
        unfold toInt; omega
      rw [hseed]
      simp only []
      rw [hf, zExtend_mismatch f (by omega) (by omega) (hs0 i h1 hi)]
      simp only []
      rw [List.length_replicate, ← hf, if_pos hi, replicate_set_zero, eR]
      by_cases h2' : 2 ≤ i
      · have c2 : max (((i + 1 : Nat) : Int) - 2) 0 > max ((i : Int) - 2) 0 := by omega
        rw [if_pos c2]
        exact ih (i + 1) (toInt (i : Int)) (by omega) (by omega) (by omega)
      · have c2 : ¬ (max (((i + 1 : Nat) : Int) - 2) 0 > max ((i : Int) - 2) 0) := by
          omega
        have e3 : max ((i : Int) - 2) 0 = max (((i + 1 : Nat) : Int) - 2) 0 := by omega
        rw [if_neg c2, e3]
        exact ih (i + 1) L (by omega) (by omega) (by omega)

theorem zFunction_overflow (s : List Char)
    (hs0 : ∀ j, 1 ≤ j → j < s.length → s[j]? ≠ s[0]?)
    (hn : 2147483648 < s.length) (hn' : s.length < 18446744073709551615) :
    zFunction s = none := by
  have h := zLoop_overflow s hs0 hn hn' (s.length - 1) 1 0 (le_refl 1) (by omega)
    (by omega)
  rw [show max (((1 : Nat) : Int) - 2) 0 = (0 : Int) from by decide] at h
  exact h

theorem first_unique {c0 : Char} {l : List Char} (h : c0 ∉ l) :
    ∀ j, 1 ≤ j → j < (c0 :: l).length → (c0 :: l)[j]? ≠ (c0 :: l)[0]? := by
  intro j hj _
  obtain ⟨j', rfl⟩ : ∃ j', j = j' + 1 := ⟨j - 1, by omega⟩
  rw [List.getElem?_cons_succ, List.getElem?_cons_zero]
  exact getElem?_ne_of_not_mem h j'

/-- On `'a'` followed by `N ≥ 2^31` times `'b'`, `zFunction` has no result. -/
theorem zFunction_a_b (N : Nat) (hN : 2147483648 ≤ N) (hN' : N < 9223372036854775808) :
    zFunction ('a' :: List.replicate N 'b') = none := by
  apply zFunction_overflow
  · apply first_unique
    intro hc
    exact absurd (List.eq_of_mem_replicate hc) (by decide)
  · rw [List.length_cons, List.length_replicate]; omega
  · rw [List.length_cons, List.length_replicate]; omega

/-- On a text of `N ≥ 2^31` times a character other than `'a'`, and the pattern
`"a"`, `zSearch` has no result. -/
theorem zSearch_overflow (N : Nat) (c : Char) (hc : 'a' ≠ c) (hN : 2147483648 ≤ N)
    (hN' : N < 9223372036854775808) : zSearch (List.replicate N c) ['a'] = none := by
  have hz : zFunction (['a'] ++ '$' :: List.replicate N c) = none := by
    show zFunction ('a' :: '$' :: List.replicate N c) = none
    apply zFunction_overflow
    · apply first_unique
      intro hm
      rcases List.mem_cons.1 hm with h | h
      · exact absurd h (by decide)
      · exact hc (List.eq_of_mem_replicate h)
    · rw [List.length_cons, List.length_cons, List.length_replicate]; omega
    · rw [List.length_cons, List.length_cons, List.length_replicate]; omega
  rw [zSearch, if_neg (by decide), hz]

/-! ## The contracts of `zFunction` and `zSearch` -/

theorem mem_castL_occurrences {txt pat : List Char} {p : Int} :
    p ∈ castL (occurrences txt pat) ↔
      0 ≤ p ∧ p + pat.length ≤ txt.length ∧
        (txt.drop p.toNat).take pat.length = pat := by
  rw [mem_castL]
  constructor
  · rintro ⟨q, hq, rfl⟩
    obtain ⟨h1, h2⟩ := mem_occurrences.1 hq
    refine ⟨by omega, by omega, ?_⟩
    rw [Int.toNat_ofNat]
    exact h2
  · rintro ⟨h0, h1, h2⟩
    exact ⟨p.toNat, mem_occurrences.2 ⟨by omega, h2⟩, by omega⟩

/-- C6, counterexample. On `'a'` followed by `2^31` times `'b'`, the cast
`(int)i` is negative at `i = 2^31`: the seed branch is taken with the seed `-1`,
the `while` loop reads `s[Z[i]]` outside `s`, and `zFunction` has no result. -/
theorem zFunction_out_of_range :
    zFunction ('a' :: List.replicate 2147483648 'b') = none ∧
    ¬ ∃ Z, zFunction ('a' :: List.replicate 2147483648 'b') = some Z := by
  have h := zFunction_a_b 2147483648 (by decide) (by decide)
  refine ⟨h, ?_⟩
  rintro ⟨Z, hZ⟩
  rw [h] at hZ
  exact absurd hZ (by simp)

/-- C6, amended. For every sequence `s` shorter than `2^31` characters,
`zFunction` returns an array of length `|s|` whose entry at every index `i` with
`1 ≤ i < |s|` is the length of the longest common prefix of `s` and its suffix
`s[i..]`. -/
theorem zFunction_correct (s : List Char) (hn : s.length < 2147483648) :
    ∃ Z, zFunction s = some Z ∧ Z.length = s.length ∧
      ∀ i, 1 ≤ i → i < s.length →
        Z[i]? = some ((lcpLen s (s.drop i) : Nat) : Int) := by
  obtain ⟨Z, h1, _, h2, h3⟩ := zFunction_spec s hn
  refine ⟨castL Z, h1, by rw [castL_length, h2], fun i hi1 hi2 => ?_⟩
  obtain ⟨z, hz, hisz⟩ := h3 i hi1 hi2
  rw [castL_getElem?, hz, isZ_eq_lcpLen hisz]
  rfl

/-- C6, amended, at the sequence `"aabxaab"`, where the array is
`[0, 1, 0, 0, 3, 1, 0]`. -/
theorem zFunction_correct_witness :
    "aabxaab".toList.length < 2147483648 ∧
      zFunction "aabxaab".toList = some [0, 1, 0, 0, 3, 1, 0] ∧
      ∃ Z, zFunction "aabxaab".toList = some Z ∧ Z.length = "aabxaab".toList.length ∧
        ∀ i, 1 ≤ i → i < "aabxaab".toList.length →
          Z[i]? = some ((lcpLen "aabxaab".toList ("aabxaab".toList.drop i) : Nat) : Int) :=
  ⟨by decide, by decide, zFunction_correct "aabxaab".toList (by decide)⟩

/-- C15, counterexample. On `"aa"` the function `zFunction` returns `[0, 1]`: its
entry at index `0` is `0`, and the longest common prefix of `"aa"` and its
suffix from `0` has length `2`. On `'a'` followed by `2^31 + 1` times `'b'` it
has no result at all, the cast `(int)i` being negative at `i = 2^31`. -/
theorem zFunction_zero_not_lcp :
    (zFunction "aa".toList = some [0, 1] ∧
      lcpLen "aa".toList ("aa".toList.drop 0) = 2 ∧
      ¬ ∃ Z, zFunction "aa".toList = some Z ∧
        Z[0]? = some ((lcpLen "aa".toList ("aa".toList.drop 0) : Nat) : Int)) ∧
    zFunction ('a' :: List.replicate 2147483649 'b') = none := by
  have h : zFunction "aa".toList = some [0, 1] := by decide
  refine ⟨⟨h, by decide, ?_⟩, zFunction_a_b 2147483649 (by decide) (by decide)⟩
  rintro ⟨Z, h1, h2⟩
  rw [h] at h1
  have hZ : Z = [0, 1] := (Option.some.inj h1).symm
  subst hZ
  revert h2
  decide

/-- C15, amended. For every sequence `s` shorter than `2^31` characters,
`zFunction` returns an array of length `|s|` whose entry at every index `i` with
`1 ≤ i < |s|` is the length of the longest common prefix of `s` and its suffix
`s[i..]`, and whose entry at index `0` is `0` when `s` is non-empty. -/
theorem zFunction_invariant (s : List Char) (hn : s.length < 2147483648) :
    ∃ Z, zFunction s = some Z ∧ Z.length = s.length ∧
      (∀ i, 1 ≤ i → i < s.length →
        Z[i]? = some ((lcpLen s (s.drop i) : Nat) : Int)) ∧
      (s ≠ [] → Z[0]? = some 0) := by
  obtain ⟨Z, h1, hN, h2, h3⟩ := zFunction_spec s hn
  refine ⟨castL Z, h1, by rw [castL_length, h2], fun i hi1 hi2 => ?_, fun hs => ?_⟩
  · obtain ⟨z, hz, hisz⟩ := h3 i hi1 hi2
    rw [castL_getElem?, hz, isZ_eq_lcpLen hisz]
    rfl
  · have hpos : 0 < s.length := List.length_pos.2 hs
    unfold zFunctionNat at hN
    rw [castL_getElem?, zLoopNat_zero s _ 1 _ 0 0 Z (le_refl 1) hN,
      List.getElem?_replicate, if_pos hpos]
    rfl

/-- C15, amended, at the sequence `"aa"`, where the array is `[0, 1]`. -/
theorem zFunction_invariant_witness :
    "aa".toList.length < 2147483648 ∧ zFunction "aa".toList = some [0, 1] ∧
      ∃ Z, zFunction "aa".toList = some Z ∧ Z.length = "aa".toList.length ∧
        (∀ i, 1 ≤ i → i < "aa".toList.length →
          Z[i]? = some ((lcpLen "aa".toList ("aa".toList.drop i) : Nat) : Int)) ∧
        ("aa".toList ≠ [] → Z[0]? = some 0) :=
  ⟨by decide, by decide, zFunction_invariant "aa".toList (by decide)⟩

/-- C3, counterexample. On the text `"a$"` and the pattern `"a"`, which is
non-empty and free of `'$'`, `kmpSearch` finds the occurrence at `0` and
`zSearch` finds nothing. On the text of `2^31` times `'b'`, free of `'$'` too,
`kmpSearch` returns a list and `zSearch` has no result. -/
theorem kmpSearch_ne_zSearch :
    ("a".toList ≠ [] ∧ '$' ∉ "a".toList ∧
      kmpSearch "a$".toList "a".toList = some [0] ∧
      zSearch "a$".toList "a".toList = some [] ∧
      kmpSearch "a$".toList "a".toList ≠ zSearch "a$".toList "a".toList) ∧
    ('$' ∉ List.replicate 2147483648 'b' ∧
      (∃ pos, kmpSearch (List.replicate 2147483648 'b') ['a'] = some pos) ∧
      zSearch (List.replicate 2147483648 'b') ['a'] = none) := by
  refine ⟨by decide, fun h => absurd (List.eq_of_mem_replicate h) (by decide),
    ⟨_, kmpSearch_eq _ _ (by decide) (by decide)
      (by rw [List.length_replicate]; decide)⟩,
    zSearch_overflow 2147483648 'b' (by decide) (by decide) (by decide)⟩

/-- C3, amended. For every text that does not contain `'$'` and every pattern
that is non-empty and does not contain `'$'`, with `|pat| + 1 + |txt| < 2^31`,
`kmpSearch` and `zSearch` return the same list. -/
theorem kmpSearch_eq_zSearch (txt pat : List Char) (hp : pat ≠ [])
    (_hpat : '$' ∉ pat) (htxt : '$' ∉ txt)
    (hn : pat.length + 1 + txt.length < 2147483648) :
    ∃ pos, kmpSearch txt pat = some pos ∧ zSearch txt pat = some pos := by
  refine ⟨_, kmpSearch_eq_of_short txt pat hp (by omega) (by omega), ?_⟩
  rw [zSearch_eq_of_short txt pat hp hn, zHits_eq_occurrences hp htxt]

/-- C3, amended, at the text `"abcabcabc"` and the pattern `"abc"`. -/
theorem kmpSearch_eq_zSearch_witness :
    "abc".toList ≠ [] ∧ '$' ∉ "abc".toList ∧ '$' ∉ "abcabcabc".toList ∧
      "abc".toList.length + 1 + "abcabcabc".toList.length < 2147483648 ∧
      ∃ pos, kmpSearch "abcabcabc".toList "abc".toList = some pos ∧
        zSearch "abcabcabc".toList "abc".toList = some pos :=
  ⟨by decide, by decide, by decide, by decide,
    kmpSearch_eq_zSearch "abcabcabc".toList "abc".toList (by decide) (by decide)
      (by decide) (by decide)⟩

/-- C4, counterexample. On the text of `2^31` times `'b'` and the pattern `"a"`,
both free of `'$'`, `zSearch` has no result: in `zFunction` the cast `(int)i` is
negative at `i = 2^31` and `s[Z[i]]` is read outside the combined sequence. -/
theorem zSearch_out_of_range :
    ['a'] ≠ [] ∧ '$' ∉ ['a'] ∧ '$' ∉ List.replicate 2147483648 'b' ∧
    zSearch (List.replicate 2147483648 'b') ['a'] = none := by
  exact ⟨by decide, by decide, fun h => absurd (List.eq_of_mem_replicate h) (by decide),
    zSearch_overflow 2147483648 'b' (by decide) (by decide) (by decide)⟩

/-- C4, amended. For every non-empty pattern and every text such that `'$'`
occurs in neither and `|pat| + 1 + |txt| < 2^31`, `zSearch` returns a strictly
ascending list whose elements are exactly the `p` with `0 ≤ p`,
`p + |pat| ≤ |txt|` and `txt[p .. p+|pat|) = pat`, and `kmpSearch` returns the
same list. -/
theorem zSearch_correct (txt pat : List Char) (hp : pat ≠ [])
    (_hpat : '$' ∉ pat) (htxt : '$' ∉ txt)
    (hn : pat.length + 1 + txt.length < 2147483648) :
    ∃ pos, zSearch txt pat = some pos ∧ pos.Sorted (· < ·) ∧
      (∀ p, p ∈ pos ↔
        0 ≤ p ∧ p + pat.length ≤ txt.length ∧
          (txt.drop p.toNat).take pat.length = pat) ∧
      kmpSearch txt pat = some pos := by
  refine ⟨castL (occurrences txt pat), ?_, castL_sorted (occurrences_sorted txt pat),
    fun p => mem_castL_occurrences,
    kmpSearch_eq_of_short txt pat hp (by omega) (by omega)⟩
  rw [zSearch_eq_of_short txt pat hp hn, zHits_eq_occurrences hp htxt]

/-- C4, amended, at the text `"aaaa"` and the pattern `"aa"`, where the search
returns `[0, 1, 2]`. -/
theorem zSearch_correct_witness :
    "aa".toList ≠ [] ∧ '$' ∉ "aa".toList ∧ '$' ∉ "aaaa".toList ∧
      "aa".toList.length + 1 + "aaaa".toList.length < 2147483648 ∧
      zSearch "aaaa".toList "aa".toList = some [0, 1, 2] ∧
      ∃ pos, zSearch "aaaa".toList "aa".toList = some pos ∧ pos.Sorted (· < ·) ∧
        (∀ p, p ∈ pos ↔ 0 ≤ p ∧ p + "aa".toList.length ≤ "aaaa".toList.length ∧
          ("aaaa".toList.drop p.toNat).take "aa".toList.length = "aa".toList) ∧
        kmpSearch "aaaa".toList "aa".toList = some pos :=
  ⟨by decide, by decide, by decide, by decide, by decide,
    zSearch_correct "aaaa".toList "aa".toList (by decide) (by decide) (by decide)
      (by decide)⟩

/-- C14, counterexample. On the text of `2^31` times `'b'` followed by `'a'` and
the pattern `"a"`, `kmpSearch` returns a list with the element `-2147483648`,
which is below `0`. -/
theorem kmpSearch_position_below_zero :
    ∃ pos, kmpSearch (List.replicate 2147483648 'b' ++ ['a']) ['a'] = some pos ∧
      ∃ p, p ∈ pos ∧ p < 0 := by
  have h := kmpSearch_b_a 2147483648 (by decide)
  rw [toInt_two_pow_31] at h
  exact ⟨_, h, -2147483648, List.mem_singleton_self _, by decide⟩

/-- C14, amended. For every text and every pattern with
`|pat| + 1 + |txt| < 2^31`, with no condition on `'$'`, the lists that
`kmpSearch` and `zSearch` return are strictly increasing, and every element `p`
of them satisfies `0 ≤ p ≤ |txt| - |pat|`. -/
theorem search_results_ascending_in_range (txt pat : List Char)
    (hn : pat.length + 1 + txt.length < 2147483648) :
    (∃ pos, kmpSearch txt pat = some pos ∧ pos.Sorted (· < ·) ∧
      ∀ p, p ∈ pos → 0 ≤ p ∧ p ≤ (txt.length : Int) - pat.length) ∧
    (∃ pos, zSearch txt pat = some pos ∧ pos.Sorted (· < ·) ∧
      ∀ p, p ∈ pos → 0 ≤ p ∧ p ≤ (txt.length : Int) - pat.length) := by
  by_cases hp : pat = []
  · subst hp
    exact ⟨⟨[], rfl, List.sorted_nil, fun p h => absurd h (List.not_mem_nil p)⟩,
      ⟨[], rfl, List.sorted_nil, fun p h => absurd h (List.not_mem_nil p)⟩⟩
  · refine ⟨⟨_, kmpSearch_eq_of_short txt pat hp (by omega) (by omega),
      castL_sorted (occurrences_sorted txt pat), fun p h => ?_⟩,
      ⟨_, zSearch_eq_of_short txt pat hp hn, castL_sorted (zHitsUpTo_sorted txt pat _),
      fun p h => ?_⟩⟩
    · obtain ⟨q, hq, rfl⟩ := mem_castL.1 h
      have := (mem_occurrences.1 hq).1
      omega
    · obtain ⟨q, hq, rfl⟩ := mem_castL.1 h
      have := (mem_zHitsUpTo hq).1
      omega

/-- C14, amended, at the text `"a$aa"` and the pattern `"a"`. -/
theorem search_results_ascending_in_range_witness :
    "a".toList.length + 1 + "a$aa".toList.length < 2147483648 ∧
      kmpSearch "a$aa".toList "a".toList = some [0, 2, 3] ∧
      zSearch "a$aa".toList "a".toList = some [2, 3] ∧
      ((∃ pos, kmpSearch "a$aa".toList "a".toList = some pos ∧ pos.Sorted (· < ·) ∧
        ∀ p, p ∈ pos → 0 ≤ p ∧
          p ≤ ("a$aa".toList.length : Int) - "a".toList.length) ∧
      (∃ pos, zSearch "a$aa".toList "a".toList = some pos ∧ pos.Sorted (· < ·) ∧
        ∀ p, p ∈ pos → 0 ≤ p ∧
          p ≤ ("a$aa".toList.length : Int) - "a".toList.length)) :=
  ⟨by decide, by decide, by decide,
    search_results_ascending_in_range "a$aa".toList "a".toList (by decide)⟩

/-- C18, counterexample. On the text of `2^31` times `'$'` and the pattern
`"a"`, `zSearch` has no result: in `zFunction` the cast `(int)i` is negative at
`i = 2^31` and `s[Z[i]]` is read outside the combined sequence. -/
theorem zSearch_no_result_sentinel_text :
    ['a'] ≠ [] ∧ zSearch (List.replicate 2147483648 '$') ['a'] = none ∧
    ¬ ∃ pos, zSearch (List.replicate 2147483648 '$') ['a'] = some pos := by
  have h := zSearch_overflow 2147483648 '$' (by decide) (by decide) (by decide)
  refine ⟨by decide, h, ?_⟩
  rintro ⟨pos, hpos⟩
  rw [h] at hpos
  exact absurd hpos (by simp)

/-- C18, amended. Soundness of `zSearch` without any condition on `'$'`: for
every text and every non-empty pattern with `|pat| + 1 + |txt| < 2^31` the
search returns a list, and every position `p` in it satisfies `0 ≤ p`,
`p + |pat| ≤ |txt|` and `txt[p .. p+|pat|) = pat`. -/
theorem zSearch_sound (txt pat : List Char) (hp : pat ≠ [])
    (hn : pat.length + 1 + txt.length < 2147483648) :
    ∃ pos, zSearch txt pat = some pos ∧
      ∀ p, p ∈ pos → 0 ≤ p ∧ p + pat.length ≤ txt.length ∧
        (txt.drop p.toNat).take pat.length = pat := by
  refine ⟨_, zSearch_eq_of_short txt pat hp hn, fun p h => ?_⟩
  obtain ⟨q, hq, rfl⟩ := mem_castL.1 h
  obtain ⟨h1, h2, _⟩ := mem_zHitsUpTo hq
  refine ⟨by omega, by omega, ?_⟩
  rw [Int.toNat_ofNat]
  exact h2

/-- C18, amended, at the text `"a$$a$"` and the pattern `"a$"`, both with `'$'`:
the search omits the occurrence at `0` and reports the one at `3`. -/
theorem zSearch_sound_witness :
    "a$".toList ≠ [] ∧ "a$".toList.length + 1 + "a$$a$".toList.length < 2147483648 ∧
      zSearch "a$$a$".toList "a$".toList = some [3] ∧
      ∃ pos, zSearch "a$$a$".toList "a$".toList = some pos ∧
        ∀ p, p ∈ pos → 0 ≤ p ∧ p + "a$".toList.length ≤ "a$$a$".toList.length ∧
          ("a$$a$".toList.drop p.toNat).take "a$".toList.length = "a$".toList :=
  ⟨by decide, by decide, by decide,
    zSearch_sound "a$$a$".toList "a$".toList (by decide) (by decide)⟩

/-- C19, counterexample. On the text of `2^31` times `'c'`, which does not
contain `'$'`, and the pattern `"a"`, `kmpSearch` returns a list and `zSearch`
has no result. -/
theorem zSearch_no_result_clean_text :
    ['a'] ≠ [] ∧ '$' ∉ List.replicate 2147483648 'c' ∧
    (∃ pos, kmpSearch (List.replicate 2147483648 'c') ['a'] = some pos) ∧
    zSearch (List.replicate 2147483648 'c') ['a'] = none :=
  ⟨by decide, fun h => absurd (List.eq_of_mem_replicate h) (by decide),
    ⟨_, kmpSearch_eq _ _ (by decide) (by decide)
      (by rw [List.length_replicate]; decide)⟩,
    zSearch_overflow 2147483648 'c' (by decide) (by decide) (by decide)⟩

/-- C19, amended. For every non-empty pattern, with or without `'$'`, and every
text that does not contain `'$'`, with `|pat| + 1 + |txt| < 2^31`, `zSearch`
returns a list that contains every occurrence position of the pattern in the
text, and `kmpSearch` returns the same list. -/
theorem zSearch_complete_of_clean_text (txt pat : List Char) (hp : pat ≠ [])
    (htxt : '$' ∉ txt) (hn : pat.length + 1 + txt.length < 2147483648) :
    ∃ pos, zSearch txt pat = some pos ∧
      (∀ p : Nat, p + pat.length ≤ txt.length → (txt.drop p).take pat.length = pat →
        (p : Int) ∈ pos) ∧
      kmpSearch txt pat = some pos := by
  refine ⟨castL (occurrences txt pat), ?_,
    fun p h1 h2 => mem_castL.2 ⟨p, mem_occurrences.2 ⟨h1, h2⟩, rfl⟩,
    kmpSearch_eq_of_short txt pat hp (by omega) (by omega)⟩
  rw [zSearch_eq_of_short txt pat hp hn, zHits_eq_occurrences hp htxt]

/-- C19, amended, at the text `"abab"` and the patterns `"ab"` and `"b$"`. -/
theorem zSearch_complete_of_clean_text_witness :
    "ab".toList ≠ [] ∧ '$' ∉ "abab".toList ∧
      "ab".toList.length + 1 + "abab".toList.length < 2147483648 ∧
      zSearch "abab".toList "ab".toList = some [0, 2] ∧
      zSearch "abab".toList "b$".toList = some [] ∧
      ∃ pos, zSearch "abab".toList "ab".toList = some pos ∧
        (∀ p : Nat, p + "ab".toList.length ≤ "abab".toList.length →
          ("abab".toList.drop p).take "ab".toList.length = "ab".toList →
          (p : Int) ∈ pos) ∧
        kmpSearch "abab".toList "ab".toList = some pos :=
  ⟨by decide, by decide, by decide, by decide, by decide,
    zSearch_complete_of_clean_text "abab".toList "ab".toList (by decide) (by decide)
      (by decide)⟩

/-- C12. Empty-pattern convention: for every text, the empty one included,
`kmpSearch` and `zSearch` return the empty list on the empty pattern. -/
theorem empty_pattern_convention (txt : List Char) :
    kmpSearch txt [] = some [] ∧ zSearch txt [] = some [] :=
  ⟨rfl, rfl⟩

/-! ## The code and the loops over natural numbers: Manacher -/

theorem mExpandNat_bound (t : List Char) (i : Nat) :
    ∀ (fuel p0 p : Nat), mExpandNat t i fuel p0 = some p →
      p0 ≤ p ∧ p + 1 ≤ i ∧ i + 1 + p < t.length := by
  intro fuel
  induction fuel with
  | zero =>
    intro p0 p h
    rw [mExpandNat] at h
    exact absurd h (by simp)
  | succ fuel ih =>
    intro p0 p h
    rw [mExpandNat] at h
    by_cases hlt : i < 1 + p0
    · rw [if_pos hlt] at h
      exact absurd h (by simp)
    · rw [if_neg hlt] at h
      split at h
      · rename_i a b ha hb
        by_cases hab : a = b
        · rw [if_pos hab] at h
          have := ih (p0 + 1) p h
          omega
        · rw [if_neg hab] at h
          have hp : p0 = p := Option.some.inj h
          have hlen : i + 1 + p0 < t.length := by
            by_contra hc
            rw [List.getElem?_eq_none (by omega)] at ha
            exact absurd ha (by simp)
          omega
      · exact absurd h (by simp)

/-- While no `int` wraps, a run of the `while` loop of Manacher that stays
inside `t` is the run of the loop over natural numbers. -/
theorem mExpand_sim (t : List Char) (ht : t.length < 2147483648) (i : Nat) :
    ∀ (fuel p0 p : Nat), mExpandNat t i fuel p0 = some p →
      mExpand t i fuel (p0 : Int) = some (p : Int) := by
  intro fuel
  induction fuel with
  | zero =>
    intro p0 p h
    rw [mExpandNat] at h
    exact absurd h (by simp)
  | succ fuel ih =>
    intro p0 p h
    rw [mExpandNat] at h
    by_cases hlt : i < 1 + p0
    · rw [if_pos hlt] at h
      exact absurd h (by simp)
    · rw [if_neg hlt] at h
      split at h
      · rename_i a b ha hb
        have hlen : i + 1 + p0 < t.length := by
          by_contra hc
          rw [List.getElem?_eq_none (by omega)] at ha
          exact absurd ha (by simp)
        have hlen2 : i - 1 - p0 < t.length := by omega
        have e1 : toSize ((i : Int) + 1 + (p0 : Int)) = i + 1 + p0 := by
          unfold toSize; omega
        have e2 : toSize ((i : Int) - 1 - (p0 : Int)) = i - 1 - p0 := by
          unfold toSize; omega
        have e3 : toInt ((p0 : Int) + 1) = ((p0 + 1 : Nat) : Int) := by
          unfold toInt; omega
        rw [mExpand, e1, e2, strAt_of_lt hlen, strAt_of_lt hlen2, ha, hb]
        simp only []
        by_cases hab : a = b
        · rw [if_pos hab] at h
          rw [if_pos hab, e3]
          exact ih (p0 + 1) p h
        · rw [if_neg hab] at h
          rw [if_neg hab, Option.some.inj h]
      · exact absurd h (by simp)

/-- While no `int` wraps, the seed of `P[i]` is the seed over natural
numbers. -/
theorem mSeed_sim (P : List Nat) {C R i p0 : Nat} (hi : i < 1073741824) (hC : C ≤ i)
    (hR : R < 2147483648) (h : mSeedNat P C R i = some p0) :
    mSeed (castL P) (C : Int) (R : Int) i = some (p0 : Int) := by
  unfold mSeedNat at h
  unfold mSeed
  have hi2 : i < 2147483648 := by omega
  rw [toInt_natCast hi2]
  by_cases hgt : R > i
  · have hgt' : (R : Int) > (i : Int) := by omega
    rw [if_pos hgt] at h
    rw [if_pos hgt']
    by_cases h2 : i ≤ 2 * C
    · rw [if_pos h2] at h
      have e1 : toSize (toInt (2 * (C : Int)) - (i : Int)) = 2 * C - i := by
        unfold toSize toInt; omega
      have e2 : toInt ((R : Int) - (i : Int)) = ((R - i : Nat) : Int) := by
        unfold toInt; omega
      rw [e1, e2, castL_getElem?]
      cases hv : P[2 * C - i]? with
      | none =>
        rw [hv] at h
        exact absurd h (by simp)
      | some v =>
        rw [hv] at h
        have hp : min (R - i) v = p0 := Option.some.inj h
        have e : min ((R - i : Nat) : Int) (v : Int) = (p0 : Int) := by omega
        simp only [Option.map_some']
        rw [e]
    · rw [if_neg h2] at h
      exact absurd h (by simp)
  · have hgt' : ¬ (R : Int) > (i : Int) := by omega
    rw [if_neg hgt] at h
    rw [if_neg hgt', castL_getElem?, h]
    rfl

/-- While no `int` wraps, the first loop of Manacher is the loop over natural
numbers, whenever that loop returns. -/
theorem mLoop_sim (t : List Char) (ht : t.length ≤ 1073741825) :
    ∀ (k i : Nat) (P : List Nat) (C R : Nat) (P' : List Nat),
      i + k + 1 = t.length → C ≤ i → R < t.length →
      mLoopNat t k i P C R = some P' →
      mLoop t k i (castL P) (C : Int) (R : Int) = some (castL P') := by
  intro k
  induction k with
  | zero =>
    intro i P C R P' _ _ _ h
    rw [mLoopNat] at h
    rw [mLoop, Option.some.inj h]
  | succ k ih =>
    intro i P C R P' hk hC hR h
    rw [mLoopNat] at h
    cases hseed : mSeedNat P C R i with
    | none =>
      rw [hseed] at h
      exact absurd h (by simp)
    | some p0 =>
      rw [hseed] at h
      simp only [] at h
      cases hexp : mExpandNat t i t.length p0 with
      | none =>
        rw [hexp] at h
        exact absurd h (by simp)
      | some p =>
        rw [hexp] at h
        simp only [] at h
        obtain ⟨_, hb1, hb2⟩ := mExpandNat_bound t i t.length p0 p hexp
        have hi1 : i < 1073741824 := by omega
        have hR1 : R < 2147483648 := by omega
        have ht1 : t.length < 2147483648 := by omega
        have e1 : toInt (toInt (i : Int) + (p : Int)) = ((i + p : Nat) : Int) := by
          unfold toInt; omega
        have e2 : toInt (i : Int) = (i : Int) := toInt_natCast (by omega)
        rw [mLoop, mSeed_sim P hi1 hC hR1 hseed]
        simp only []
        rw [mExpand_sim t ht1 i t.length p0 p hexp]
        simp only []
        rw [castL_length, e1, e2, castL_set]
        by_cases hiP : i < P.length
        · rw [if_pos hiP] at h
          rw [if_pos hiP]
          by_cases hgt : i + p > R
          · have hgt' : ((i + p : Nat) : Int) > (R : Int) := by omega
            rw [if_pos hgt] at h
            rw [if_pos hgt']
            have hk' : i + 1 + k + 1 = t.length := by omega
            have hC' : i ≤ i + 1 := by omega
            have hR' : i + p < t.length := by omega
            exact ih (i + 1) (P.set i p) i (i + p) P' hk' hC' hR' h
          · have hgt' : ¬ ((i + p : Nat) : Int) > (R : Int) := by omega
            rw [if_neg hgt] at h
            rw [if_neg hgt']
            have hk' : i + 1 + k + 1 = t.length := by omega
            have hC' : C ≤ i + 1 := by omega
            exact ih (i + 1) (P.set i p) C R P' hk' hC' hR h
        · rw [if_neg hiP] at h
          exact absurd h (by simp)

/-- While no `int` wraps, the second loop of Manacher is the loop over natural
numbers. -/
theorem mBest_sim (P : List Nat) :
    ∀ (k i m c m' c' : Nat), i + k < 2147483648 →
      mBestNat P k i m c = some (m', c') →
      mBest (castL P) k i (m : Int) (c : Int) = some ((m' : Int), (c' : Int)) := by
  intro k
  induction k with
  | zero =>
    intro i m c m' c' _ h
    rw [mBestNat] at h
    have h' := Option.some.inj h
    rw [mBest, (Prod.mk.inj h').1, (Prod.mk.inj h').2]
  | succ k ih =>
    intro i m c m' c' hk h
    rw [mBestNat] at h
    rw [mBest, castL_getElem?]
    cases hp : P[i]? with
    | none =>
      rw [hp] at h
      exact absurd h (by simp)
    | some p =>
      rw [hp] at h
      simp only [] at h
      simp only [Option.map_some']
      have e2 : toInt (i : Int) = (i : Int) := toInt_natCast (by omega)
      have hk' : i + 1 + k < 2147483648 := by omega
      by_cases hgt : p > m
      · have hgt' : (p : Int) > (m : Int) := by omega
        rw [if_pos hgt] at h
        rw [if_pos hgt', e2]
        exact ih (i + 1) p i m' c' hk' h
      · have hgt' : ¬ (p : Int) > (m : Int) := by omega
        rw [if_neg hgt] at h
        rw [if_neg hgt']
        exact ih (i + 1) m c m' c' hk' h

/-- On a non-empty input shorter than `2^29` characters without the two
boundary characters both loops of Manacher return, no tested index leaves `t`,
and the recorded `center` and `maxLen` enclose the palindromic substring
`s[a .. a+maxLen)` with `center = 2a + 1 + maxLen` that is returned. -/
theorem manacher_run {s : List Char} (hs : s ≠ []) (h1 : '^' ∉ s) (h2 : '$' ∉ s)
    (hn : s.length < 536870912) :
    ∃ (P : List Nat) (m c a : Nat),
      mLoop (manacherT s) ((manacherT s).length - 2) 1
        (List.replicate (manacherT s).length 0) 0 0 = some (castL P) ∧
      mLoopNat (manacherT s) ((manacherT s).length - 2) 1
        (List.replicate (manacherT s).length 0) 0 0 = some P ∧
      mBest (castL P) ((castL P).length - 2) 1 0 0 = some ((m : Int), (c : Int)) ∧
      c = 2 * a + 1 + m ∧ 1 ≤ m ∧ PalS s a m ∧
      toSize (Int.tdiv (toInt ((c : Int) - (m : Int))) 2) = a ∧
      toSize (m : Int) = m ∧
      longestPalSubstring_Manacher s = some ((s.drop a).take m) ∧
      longestPalSubstring_ManacherNat s = some ((s.drop a).take m) := by
  obtain ⟨P, m, c, a, hP, hbest, hca, hm, hpal, hres⟩ := manacherNat_run hs h1 h2
  have hlen := mT_length s
  have hin := hpal.1
  have hPl : P.length = (manacherT s).length := by
    have hg := guarded_manacherT h1 h2
    obtain ⟨P', hP', hPl', _⟩ := mLoopNat_spec hg ((manacherT s).length - 2) 1
      (List.replicate (manacherT s).length 0) 0 0 (le_refl 1) (by omega)
      (mInv_init (by omega))
    rw [hP] at hP'
    rw [Option.some.inj hP']
    exact hPl'
  have hk : 1 + ((manacherT s).length - 2) + 1 = (manacherT s).length := by omega
  have hC : 0 ≤ 1 := by omega
  have hR : 0 < (manacherT s).length := by omega
  have hsim := mLoop_sim (manacherT s) (by omega) ((manacherT s).length - 2) 1
    (List.replicate (manacherT s).length 0) 0 0 P hk hC hR hP
  rw [castL_replicate] at hsim
  have hk2 : 1 + (P.length - 2) < 2147483648 := by omega
  have hbsim := mBest_sim P (P.length - 2) 1 0 0 m c hk2 hbest
  have e1 : toInt ((c : Int) - (m : Int)) = ((c - m : Nat) : Int) := by
    unfold toInt; omega
  have e2 : Int.tdiv ((c - m : Nat) : Int) 2 = (((c - m) / 2 : Nat) : Int) := by
    rw [Int.tdiv_eq_ediv (by omega) (by omega)]
    omega
  have e3 : toSize (Int.tdiv (toInt ((c : Int) - (m : Int))) 2) = a := by
    rw [e1, e2, toSize_natCast (by omega)]
    omega
  have e4 : toSize (m : Int) = m := toSize_natCast (by omega)
  have e5 : (c - m) / 2 = a := by omega
  refine ⟨P, m, c, a, hsim, hP, by rw [castL_length]; exact hbsim, hca, hm, hpal, e3, e4,
    ?_, by rw [hres, e5]⟩
  have hsim0 : mLoop (manacherT s) ((manacherT s).length - 2) 1
      (List.replicate (manacherT s).length 0) 0 0 = some (castL P) := hsim
  have hb0 : mBest (castL P) ((castL P).length - 2) 1 0 0 = some ((m : Int), (c : Int)) := by
    rw [castL_length]; exact hbsim
  rw [longestPalSubstring_Manacher, if_neg hs, hsim0]
  simp only []
  rw [hb0]
  simp only []
  rw [e3, e4, if_pos (by omega)]

/-- On a non-empty input shorter than `2^29` characters without the two
boundary characters, Manacher returns the palindromic substring `s[a .. a+L)`
where `L` is the largest length of a palindromic substring and `a` the first
start of one of that length. -/
theorem manacher_spec {s : List Char} (hs : s ≠ []) (h1 : '^' ∉ s) (h2 : '$' ∉ s)
    (hn : s.length < 536870912) :
    ∃ a L, longestPalSubstring_Manacher s = some ((s.drop a).take L) ∧ 1 ≤ L ∧
      PalS s a L ∧ (∀ a' L', PalS s a' L' → L' ≤ L) ∧ (∀ a', PalS s a' L → a ≤ a') := by
  obtain ⟨_, m, _, a, _, _, _, _, _, _, _, _, hres, hresN⟩ := manacher_run hs h1 h2 hn
  obtain ⟨a', L, hr, hL, hpal, hmax, hleft⟩ := manacherNat_spec hs h1 h2
  refine ⟨a', L, ?_, hL, hpal, hmax, hleft⟩
  rw [hres, ← hresN, hr]

/-! ## The product `2*C` in Manacher -/

theorem mT_odd_index (s : List Char) (j : Nat) (hj : j % 2 = 1)
    (hle : j ≤ 2 * s.length + 1) : (manacherT s)[j]? = some '#' := by
  have e : j = 2 * (j / 2) + 1 := by omega
  have hk : j / 2 ≤ s.length := by omega
  rw [e]
  exact mT_odd s hk

theorem mT_even_index (s : List Char) (j k : Nat) (hj : j = 2 * k + 2)
    (hk : k < s.length) : (manacherT s)[j]? = s[k]? := by
  rw [hj]
  exact mT_even s hk

/-- Where the palindrome radius of `t` at `i` is at most `1`, the `while` loop
started at `0` ends at `0` or `1`. -/
theorem mExpand_flat (t : List Char) (ht : t.length < 2147483648) (i fuel : Nat)
    (h1 : 1 ≤ i) (h2 : i + 2 < t.length)
    (hflat : t[i + 1]? ≠ t[i - 1]? ∨ (2 ≤ i ∧ t[i + 2]? ≠ t[i - 2]?)) :
    ∃ p : Int, mExpand t i (fuel + 2) 0 = some p ∧ 0 ≤ p ∧ p ≤ 1 := by
  have a1 : i + 1 < t.length := by omega
  have a0 : i - 1 < t.length := by omega
  obtain ⟨a, ha⟩ : ∃ a, t[i + 1]? = some a := ⟨_, List.getElem?_eq_getElem a1⟩
  obtain ⟨b, hb⟩ : ∃ b, t[i - 1]? = some b := ⟨_, List.getElem?_eq_getElem a0⟩
  have e1 : toSize ((i : Int) + 1 + 0) = i + 1 := by unfold toSize; omega
  have e2 : toSize ((i : Int) - 1 - 0) = i - 1 := by unfold toSize; omega
  rw [mExpand, e1, e2, strAt_of_lt a1, strAt_of_lt a0, ha, hb]
  simp only []
  by_cases hab : a = b
  · rw [if_pos hab]
    have hne : 2 ≤ i ∧ t[i + 2]? ≠ t[i - 2]? := by
      rcases hflat with h | h
      · exact absurd (by rw [ha, hb, hab]) h
      · exact h
    have b1 : i + 2 < t.length := h2
    have b0 : i - 2 < t.length := by omega
    obtain ⟨c, hc⟩ : ∃ c, t[i + 2]? = some c := ⟨_, List.getElem?_eq_getElem b1⟩
    obtain ⟨d, hd⟩ : ∃ d, t[i - 2]? = some d := ⟨_, List.getElem?_eq_getElem b0⟩
    have e3 : toInt ((0 : Int) + 1) = 1 := by decide
    have e4 : toSize ((i : Int) + 1 + 1) = i + 2 := by unfold toSize; omega
    have e5 : toSize ((i : Int) - 1 - 1) = i - 2 := by unfold toSize; omega
    have hcd : ¬ c = d := by
      intro h
      apply hne.2
      rw [hc, hd, h]
    rw [e3, mExpand, e4, e5, strAt_of_lt b1, strAt_of_lt b0, hc, hd]
    simp only []
    rw [if_neg hcd]
    exact ⟨1, rfl, by omega, by omega⟩
  · rw [if_neg hab]
    exact ⟨0, rfl, by omega, by omega⟩

/-- Over a stretch of `t` where every palindrome radius is at most `1`, the first
loop of Manacher keeps `R ≤ i` and never takes the mirror branch. -/
theorem mLoop_flat (t : List Char) (ht : t.length < 2147483648) (M : Nat)
    (hM : M + 1 < t.length)
    (hflat : ∀ i, 1 ≤ i → i < M →
      (t[i + 1]? ≠ t[i - 1]? ∨ (2 ≤ i ∧ t[i + 2]? ≠ t[i - 2]?))) :
    ∀ (d k i : Nat) (P : List Int) (C R : Int), 1 ≤ i → i + d = M →
      P.length = t.length → (∀ j, i ≤ j → j < t.length → P[j]? = some 0) →
      R ≤ (i : Int) →
      ∃ (P' : List Int) (C' R' : Int),
        mLoop t (d + k) i P C R = mLoop t k M P' C' R' ∧ P'.length = t.length ∧
        (∀ j, M ≤ j → j < t.length → P'[j]? = some 0) ∧ R' ≤ (M : Int) := by
  intro d
  induction d with
  | zero =>
    intro k i P C R _ hd hPl hP0 hR
    have hiM : i = M := by omega
    subst hiM
    rw [Nat.zero_add]
    exact ⟨P, C, R, rfl, hPl, hP0, hR⟩
  | succ d ih =>
    intro k i P C R h1 hd hPl hP0 hR
    have hi : i < M := by omega
    have hit : i < t.length := by omega
    have hiP : i < P.length := by omega
    have e0 : d + 1 + k = (d + k) + 1 := by omega
    have hti : toInt (i : Int) = (i : Int) := toInt_natCast (by omega)
    have hnot : ¬ R > (i : Int) := by omega
    have hseed : mSeed P C R i = some 0 := by
      unfold mSeed
      rw [hti, if_neg hnot]
      exact hP0 i (le_refl i) hit
    obtain ⟨f, hf⟩ : ∃ f, t.length = f + 2 := ⟨t.length - 2, by omega⟩
    have hi2 : i + 2 < t.length := by omega
    obtain ⟨p, hp, hp0, hp1⟩ := mExpand_flat t ht i f h1 hi2 (hflat i h1 hi)
    rw [← hf] at hp
    have e1 : toInt ((i : Int) + p) = (i : Int) + p := by unfold toInt; omega
    have hset : ∀ j, i + 1 ≤ j → j < t.length → (P.set i p)[j]? = some 0 := by
      intro j hj1 hj2
      have hne : i ≠ j := by omega
      rw [List.getElem?_set_ne hne]
      exact hP0 j (by omega) hj2
    have hlen : (P.set i p).length = t.length := by rw [List.length_set]; exact hPl
    have h1' : 1 ≤ i + 1 := by omega
    have hd' : i + 1 + d = M := by omega
    rw [e0, mLoop, hseed]
    simp only []
    rw [hp]
    simp only []
    rw [if_pos hiP, hti, e1]
    by_cases hgt : (i : Int) + p > R
    · rw [if_pos hgt]
      have hR' : (i : Int) + p ≤ ((i + 1 : Nat) : Int) := by omega
      exact ih k (i + 1) (P.set i p) (i : Int) ((i : Int) + p) h1' hd' hlen hset hR'
    · rw [if_neg hgt]
      have hR' : R ≤ ((i + 1 : Nat) : Int) := by omega
      exact ih k (i + 1) (P.set i p) C R h1' hd' hlen hset hR'

theorem mirror_wrap (M n : Nat) (hn : n < 2147483648) (hM : M < 2147483648)
    (hbig : 2147483648 ≤ 2 * M) :
    n ≤ toSize (toInt (2 * (M : Int)) - ((M + 1 : Nat) : Int)) := by
  unfold toSize toInt
  omega

theorem mExpand_two (t : List Char) (ht : t.length < 2147483648) (M : Nat) (h3 : 3 ≤ M)
    (hM : M + 3 < t.length)
    (q1 : t[M + 1]? = t[M - 1]?) (q2 : t[M + 2]? = t[M - 2]?)
    (q3 : t[M + 3]? ≠ t[M - 3]?) : mExpand t M t.length 0 = some 2 := by
  have a1 : M + 1 < t.length := by omega
  have a2 : M + 2 < t.length := by omega
  have b1 : M - 1 < t.length := by omega
  have b2 : M - 2 < t.length := by omega
  have b3 : M - 3 < t.length := by omega
  obtain ⟨x1, hx1⟩ : ∃ a, t[M + 1]? = some a := ⟨_, List.getElem?_eq_getElem a1⟩
  obtain ⟨x2, hx2⟩ : ∃ a, t[M + 2]? = some a := ⟨_, List.getElem?_eq_getElem a2⟩
  obtain ⟨x3, hx3⟩ : ∃ a, t[M + 3]? = some a := ⟨_, List.getElem?_eq_getElem hM⟩
  obtain ⟨y3, hy3⟩ : ∃ a, t[M - 3]? = some a := ⟨_, List.getElem?_eq_getElem b3⟩
  have hy1 : t[M - 1]? = some x1 := by rw [← q1]; exact hx1
  have hy2 : t[M - 2]? = some x2 := by rw [← q2]; exact hx2
  have hxy : ¬ x3 = y3 := by
    intro h
    apply q3
    rw [hx3, hy3, h]
  obtain ⟨f, hf⟩ : ∃ f, t.length = f + 3 := ⟨t.length - 3, by omega⟩
  have e1 : toSize ((M : Int) + 1 + 0) = M + 1 := by unfold toSize; omega
  have e2 : toSize ((M : Int) - 1 - 0) = M - 1 := by unfold toSize; omega
  have e3 : toInt ((0 : Int) + 1) = 1 := by decide
  have e4 : toSize ((M : Int) + 1 + 1) = M + 2 := by unfold toSize; omega
  have e5 : toSize ((M : Int) - 1 - 1) = M - 2 := by unfold toSize; omega
  have e6 : toInt ((1 : Int) + 1) = 2 := by decide
  have e7 : toSize ((M : Int) + 1 + 2) = M + 3 := by unfold toSize; omega
  have e8 : toSize ((M : Int) - 1 - 2) = M - 3 := by unfold toSize; omega
  rw [hf, mExpand, e1, e2, strAt_of_lt a1, strAt_of_lt b1, hx1, hy1]
  simp only []
  rw [if_pos trivial, e3, mExpand, e4, e5, strAt_of_lt a2, strAt_of_lt b2, hx2, hy2]
  simp only []
  rw [if_pos trivial, e6, mExpand, e7, e8, strAt_of_lt hM, strAt_of_lt b3, hx3, hy3]
  simp only []
  rw [if_neg hxy]

theorem mSeed_wrap (P : List Int) (M : Nat) (hP : P.length < 2147483648)
    (hM : M + 1 < 2147483648) (hbig : 2147483648 ≤ 2 * M) :
    mSeed P (M : Int) ((M : Int) + 2) (M + 1) = none := by
  have hti1 : toInt ((M + 1 : Nat) : Int) = ((M + 1 : Nat) : Int) := toInt_natCast hM
  have hgt1 : (M : Int) + 2 > ((M + 1 : Nat) : Int) := by omega
  have hM' : M < 2147483648 := by omega
  have hidx := mirror_wrap M P.length hP hM' hbig
  unfold mSeed
  rw [hti1, if_pos hgt1, List.getElem?_eq_none hidx]

/-- At an index `M` with `2*M ≥ 2^31` and palindrome radius `2`, reached with
`R ≤ M`, the loop sets `C = M` and `R = M + 2`; at `M + 1` the product `2*C`
is negative as an `int`, `mirror` lies beyond the end of `P`, and the read
`P[mirror]` has no result. -/
theorem mLoop_tail (t : List Char) (ht : t.length < 2147483648) (M : Nat) (h3 : 3 ≤ M)
    (hM : M + 3 < t.length) (hbig : 2147483648 ≤ 2 * M)
    (q1 : t[M + 1]? = t[M - 1]?) (q2 : t[M + 2]? = t[M - 2]?)
    (q3 : t[M + 3]? ≠ t[M - 3]?) (k : Nat) (P : List Int) (C R : Int)
    (hPl : P.length = t.length) (hP0 : P[M]? = some 0) (hR : R ≤ (M : Int)) :
    mLoop t (k + 2) M P C R = none := by
  have hM1 : M < 2147483648 := by omega
  have hM2 : M + 1 < 2147483648 := by omega
  have hti : toInt (M : Int) = (M : Int) := toInt_natCast hM1
  have hnot : ¬ R > (M : Int) := by omega
  have hseed : mSeed P C R M = some 0 := by
    unfold mSeed
    rw [hti, if_neg hnot]
    exact hP0
  have hexp := mExpand_two t ht M h3 hM q1 q2 q3
  have hMP : M < P.length := by omega
  have e9 : toInt ((M : Int) + 2) = (M : Int) + 2 := by unfold toInt; omega
  have hgt : (M : Int) + 2 > R := by omega
  have hPs : (P.set M 2).length < 2147483648 := by rw [List.length_set, hPl]; exact ht
  have hseed1 := mSeed_wrap (P.set M 2) M hPs hM2 hbig
  rw [mLoop, hseed]
  simp only []
  rw [hexp]
  simp only []
  rw [if_pos hMP, hti, e9, if_pos hgt, mLoop, hseed1]

/-- On an input of `N + 2` characters, `2^29 - 1 ≤ N`, whose first `N + 1`
characters have no two equal at distance `1` or `2` and whose last two
characters are equal, the first loop of Manacher reads `P[mirror]` beyond the
end of `P`, and the function has no result. -/
theorem manacher_overflow (s : List Char) (N : Nat) (hlen : s.length = N + 2)
    (hN1 : 536870911 ≤ N) (hN2 : N < 1073741820)
    (hd1 : ∀ k, k + 1 ≤ N → s[k]? ≠ s[k + 1]?)
    (hd2 : ∀ k, k + 2 ≤ N + 1 → s[k]? ≠ s[k + 2]?)
    (hx : s[N]? = s[N + 1]?) (h1 : '^' ∉ s) (h2 : '$' ∉ s) :
    longestPalSubstring_Manacher s = none := by
  have hs : s ≠ [] := by
    intro h
    rw [h] at hlen
    exact absurd hlen (by simp)
  have htl : (manacherT s).length = 2 * N + 7 := by rw [mT_length, hlen]; omega
  have ht : (manacherT s).length < 2147483648 := by omega
  have hflat : ∀ i, 1 ≤ i → i < 2 * N + 3 →
      ((manacherT s)[i + 1]? ≠ (manacherT s)[i - 1]? ∨
        (2 ≤ i ∧ (manacherT s)[i + 2]? ≠ (manacherT s)[i - 2]?)) := by
    intro i hi1 hi2
    rcases Nat.mod_two_eq_zero_or_one i with hpar | hpar
    · right
      refine ⟨by omega, ?_⟩
      have hk : i / 2 < s.length := by omega
      rw [mT_even_index s (i + 2) (i / 2) (by omega) hk]
      by_cases hi : i = 2
      · have e : i - 2 = 0 := by omega
        rw [e, mT_zero]
        exact getElem?_ne_of_not_mem h1 _
      · have hk2 : i / 2 - 2 < s.length := by omega
        rw [mT_even_index s (i - 2) (i / 2 - 2) (by omega) hk2]
        have := hd2 (i / 2 - 2) (by omega)
        have e : i / 2 - 2 + 2 = i / 2 := by omega
        rw [e] at this
        exact fun h => this h.symm
    · left
      have hk : i / 2 < s.length := by omega
      rw [mT_even_index s (i + 1) (i / 2) (by omega) hk]
      by_cases hi : i = 1
      · have e : i - 1 = 0 := by omega
        rw [e, mT_zero]
        exact getElem?_ne_of_not_mem h1 _
      · have hk2 : i / 2 - 1 < s.length := by omega
        rw [mT_even_index s (i - 1) (i / 2 - 1) (by omega) hk2]
        have := hd1 (i / 2 - 1) (by omega)
        have e : i / 2 - 1 + 1 = i / 2 := by omega
        rw [e] at this
        exact fun h => this h.symm
  have hM : 2 * N + 3 + 1 < (manacherT s).length := by omega
  have hP0 : ∀ j, 1 ≤ j → j < (manacherT s).length →
      (List.replicate (manacherT s).length (0 : Int))[j]? = some 0 := by
    intro j _ hj
    rw [List.getElem?_replicate, if_pos hj]
  have hd : 1 + (2 * N + 2) = 2 * N + 3 := by omega
  have hR0 : (0 : Int) ≤ ((1 : Nat) : Int) := by omega
  obtain ⟨P', C', R', hrun, hPl', hP0', hR'⟩ :=
    mLoop_flat (manacherT s) ht (2 * N + 3) hM hflat (2 * N + 2) (1 + 2) 1
      (List.replicate (manacherT s).length 0) 0 0 (le_refl 1) hd
      (List.length_replicate _ _) hP0 hR0
  have q1 : (manacherT s)[2 * N + 3 + 1]? = (manacherT s)[2 * N + 3 - 1]? := by
    rw [mT_even_index s (2 * N + 3 + 1) (N + 1) (by omega) (by omega),
      mT_even_index s (2 * N + 3 - 1) N (by omega) (by omega)]
    exact hx.symm
  have q2 : (manacherT s)[2 * N + 3 + 2]? = (manacherT s)[2 * N + 3 - 2]? := by
    rw [mT_odd_index s (2 * N + 3 + 2) (by omega) (by omega),
      mT_odd_index s (2 * N + 3 - 2) (by omega) (by omega)]
  have q3 : (manacherT s)[2 * N + 3 + 3]? ≠ (manacherT s)[2 * N + 3 - 3]? := by
    have e : 2 * N + 3 + 3 = 2 * s.length + 2 := by omega
    rw [e, mT_last, mT_even_index s (2 * N + 3 - 3) (N - 1) (by omega) (by omega)]
    exact fun h => getElem?_ne_of_not_mem h2 _ h.symm
  have htail := mLoop_tail (manacherT s) ht (2 * N + 3) (by omega) (by omega) (by omega)
    q1 q2 q3 1 P' C' R' hPl' (hP0' (2 * N + 3) (le_refl _) (by omega)) hR'
  have e : (manacherT s).length - 2 = 2 * N + 2 + (1 + 2) := by omega
  rw [longestPalSubstring_Manacher, if_neg hs, e, hrun, htail]

theorem abcAt_cases (k : Nat) : abcAt k = 'a' ∨ abcAt k = 'b' ∨ abcAt k = 'c' := by
  unfold abcAt
  by_cases h0 : k % 3 = 0
  · rw [if_pos h0]; exact Or.inl rfl
  · rw [if_neg h0]
    by_cases h1 : k % 3 = 1
    · rw [if_pos h1]; exact Or.inr (Or.inl rfl)
    · rw [if_neg h1]; exact Or.inr (Or.inr rfl)

theorem abcAt_ne_of_mod {j k : Nat} (h : j % 3 ≠ k % 3) : abcAt j ≠ abcAt k := by
  unfold abcAt
  have hj : j % 3 = 0 ∨ j % 3 = 1 ∨ j % 3 = 2 := by omega
  have hk : k % 3 = 0 ∨ k % 3 = 1 ∨ k % 3 = 2 := by omega
  rcases hj with hj | hj | hj <;> rcases hk with hk | hk | hk <;>
    first
    | exact absurd (hj.trans hk.symm) h
    | (rw [hj, hk]; decide)

theorem abcAt_ne {c : Char} (k : Nat) (ha : c ≠ 'a') (hb : c ≠ 'b') (hc : c ≠ 'c') :
    abcAt k ≠ c := by
  rcases abcAt_cases k with h | h | h
  · rw [h]; exact fun e => ha e.symm
  · rw [h]; exact fun e => hb e.symm
  · rw [h]; exact fun e => hc e.symm

theorem abcCycle_length (N : Nat) : (abcCycle N).length = N := by
  rw [abcCycle, List.length_map, List.length_range]

theorem abcCycle_getElem? {N k : Nat} (h : k < N) (tl : List Char) :
    (abcCycle N ++ tl)[k]? = some (abcAt k) := by
  rw [List.getElem?_append_left (by rw [abcCycle_length]; exact h), abcCycle,
    List.getElem?_map, List.getElem?_range h]
  rfl

theorem abcCycle_getElem?_tail (N j : Nat) (tl : List Char) :
    (abcCycle N ++ tl)[N + j]? = tl[j]? := by
  rw [List.getElem?_append_right (by rw [abcCycle_length]; omega), abcCycle_length,
    Nat.add_sub_cancel_left]

theorem not_mem_abcCycle {c : Char} (N : Nat) (ha : c ≠ 'a') (hb : c ≠ 'b')
    (hc : c ≠ 'c') (hx : c ≠ 'x') : c ∉ abcCycle N ++ ['x', 'x'] := by
  intro h
  rcases List.mem_append.1 h with h | h
  · rw [abcCycle] at h
    obtain ⟨k, _, hk⟩ := List.mem_map.1 h
    exact abcAt_ne k ha hb hc hk
  · simp only [List.mem_cons, List.mem_singleton, List.not_mem_nil, or_false, or_self] at h
    exact hx h

/-- On `N` characters of `abcabc...` followed by `"xx"`, with `2^29 - 1 ≤ N`,
Manacher has no result. -/
theorem manacher_abc_xx (N : Nat) (hN1 : 536870911 ≤ N) (hN2 : N < 1073741820) :
    longestPalSubstring_Manacher (abcCycle N ++ ['x', 'x']) = none := by
  have hlen : (abcCycle N ++ ['x', 'x']).length = N + 2 := by
    rw [List.length_append, abcCycle_length]; rfl
  have hxN : (abcCycle N ++ ['x', 'x'])[N]? = some 'x' := abcCycle_getElem?_tail N 0 _
  have hxN1 : (abcCycle N ++ ['x', 'x'])[N + 1]? = some 'x' :=
    abcCycle_getElem?_tail N 1 _
  have hx : ∀ k, abcAt k ≠ 'x' := fun k =>
    abcAt_ne k (by decide) (by decide) (by decide)
  refine manacher_overflow _ N hlen hN1 hN2 (fun k hk => ?_) (fun k hk => ?_)
    (by rw [hxN, hxN1])
    (not_mem_abcCycle N (by decide) (by decide) (by decide) (by decide))
    (not_mem_abcCycle N (by decide) (by decide) (by decide) (by decide))
  · have hkN : k < N := by omega
    rw [abcCycle_getElem? hkN]
    by_cases h : k + 1 < N
    · rw [abcCycle_getElem? h]
      have hne : k % 3 ≠ (k + 1) % 3 := by omega
      exact fun e => abcAt_ne_of_mod hne (Option.some.inj e)
    · have e : k + 1 = N := by omega
      rw [e, hxN]
      exact fun e => hx k (Option.some.inj e)
  · have hkN : k < N := by omega
    rw [abcCycle_getElem? hkN]
    by_cases h : k + 2 < N
    · rw [abcCycle_getElem? h]
      have hne : k % 3 ≠ (k + 2) % 3 := by omega
      exact fun e => abcAt_ne_of_mod hne (Option.some.inj e)
    · rcases Nat.eq_or_lt_of_le (Nat.le_of_not_lt h) with e | e
      · rw [← e, hxN]
        exact fun e => hx k (Option.some.inj e)
      · have e' : k + 2 = N + 1 := by omega
        rw [e', hxN1]
        exact fun e => hx k (Option.some.inj e)

theorem abc_xx_admissible (N : Nat) :
    abcCycle N ++ ['x', 'x'] ≠ [] ∧ '^' ∉ abcCycle N ++ ['x', 'x'] ∧
      '#' ∉ abcCycle N ++ ['x', 'x'] ∧ '$' ∉ abcCycle N ++ ['x', 'x'] :=
  ⟨List.append_ne_nil_of_right_ne_nil _ (List.cons_ne_nil _ _),
    not_mem_abcCycle N (by decide) (by decide) (by decide) (by decide),
    not_mem_abcCycle N (by decide) (by decide) (by decide) (by decide),
    not_mem_abcCycle N (by decide) (by decide) (by decide) (by decide)⟩

theorem infix_palindrome_le {s : List Char} {L : Nat}
    (hmax : ∀ a' L', PalS s a' L' → L' ≤ L) (w : List Char) (hw : w <:+: s)
    (hrev : w.reverse = w) : w.length ≤ L := by
  obtain ⟨a', ha', hw'⟩ := exists_of_infix hw
  apply hmax a' w.length
  rw [palS_iff_reverse ha', hw']
  exact hrev

/-! ## The contract of `longestPalSubstring_Manacher` -/

/-- C7, counterexample. On `2^29 - 1` characters of `abcabc...` followed by
`"xx"`, an input of `2^29 + 1` characters without `'^'`, `'#'`, `'$'`, the `int`
product `2*C` wraps at `C = 2^30 + 1`, `mirror` lies beyond the end of `P`, and
`longestPalSubstring_Manacher` has no result. -/
theorem manacher_product_wraps :
    abcCycle 536870911 ++ ['x', 'x'] ≠ [] ∧
    '^' ∉ abcCycle 536870911 ++ ['x', 'x'] ∧ '#' ∉ abcCycle 536870911 ++ ['x', 'x'] ∧
    '$' ∉ abcCycle 536870911 ++ ['x', 'x'] ∧
    longestPalSubstring_Manacher (abcCycle 536870911 ++ ['x', 'x']) = none ∧
    ¬ ∃ r, longestPalSubstring_Manacher (abcCycle 536870911 ++ ['x', 'x']) = some r ∧
      r <:+: abcCycle 536870911 ++ ['x', 'x'] ∧ r.reverse = r := by
  have h := manacher_abc_xx 536870911 (by decide) (by decide)
  obtain ⟨a1, a2, a3, a4⟩ := abc_xx_admissible 536870911
  refine ⟨a1, a2, a3, a4, h, ?_⟩
  rintro ⟨r, hr, _⟩
  rw [h] at hr
  exact absurd hr (by simp)

/-- C7, amended. For every non-empty `s` shorter than `2^29` characters that
contains none of `'^'`, `'#'`, `'$'`, `longestPalSubstring_Manacher` returns a
contiguous substring of `s` that reads the same forwards and backwards. -/
theorem manacher_palindromic_substring (s : List Char) (hs : s ≠ [])
    (h1 : '^' ∉ s) (_h2 : '#' ∉ s) (h3 : '$' ∉ s) (hn : s.length < 536870912) :
    ∃ r, longestPalSubstring_Manacher s = some r ∧ r <:+: s ∧ r.reverse = r := by
  obtain ⟨a, L, hr, _, hpal, _, _⟩ := manacher_spec hs h1 h3 hn
  exact ⟨_, hr, drop_take_infix s a L, (palS_iff_reverse hpal.1).1 hpal⟩

/-- C7, amended, at the input `"babad"`, where the result is `"bab"`. -/
theorem manacher_palindromic_substring_witness :
    "babad".toList ≠ [] ∧ '^' ∉ "babad".toList ∧ '#' ∉ "babad".toList ∧
      '$' ∉ "babad".toList ∧ "babad".toList.length < 536870912 ∧
      longestPalSubstring_Manacher "babad".toList = some "bab".toList ∧
      ∃ r, longestPalSubstring_Manacher "babad".toList = some r ∧
        r <:+: "babad".toList ∧ r.reverse = r :=
  ⟨by decide, by decide, by decide, by decide, by decide, by decide,
    manacher_palindromic_substring "babad".toList (by decide) (by decide) (by decide)
      (by decide) (by decide)⟩

/-- C8, counterexample. On `2^29` characters of `abcabc...` followed by `"xx"`,
an input without `'^'`, `'#'`, `'$'`, the `int` product `2*C` wraps, and
`longestPalSubstring_Manacher` has no result, so that no length bounds the
palindromic substrings of the input. -/
theorem manacher_no_result_to_bound :
    '^' ∉ abcCycle 536870912 ++ ['x', 'x'] ∧ '#' ∉ abcCycle 536870912 ++ ['x', 'x'] ∧
    '$' ∉ abcCycle 536870912 ++ ['x', 'x'] ∧
    longestPalSubstring_Manacher (abcCycle 536870912 ++ ['x', 'x']) = none ∧
    ¬ ∃ r, longestPalSubstring_Manacher (abcCycle 536870912 ++ ['x', 'x']) = some r ∧
      (∀ w, w <:+: abcCycle 536870912 ++ ['x', 'x'] → w.reverse = w →
        w.length ≤ r.length) := by
  have h := manacher_abc_xx 536870912 (by decide) (by decide)
  obtain ⟨_, a2, a3, a4⟩ := abc_xx_admissible 536870912
  refine ⟨a2, a3, a4, h, ?_⟩
  rintro ⟨r, hr, _⟩
  rw [h] at hr
  exact absurd hr (by simp)

/-- C8, amended. For every `s` shorter than `2^29` characters that contains
none of `'^'`, `'#'`, `'$'`, no palindromic contiguous substring of `s` is
longer than the result of `longestPalSubstring_Manacher`, and the result has
length at least `1` when `s` is non-empty. -/
theorem manacher_maximal (s : List Char)
    (h1 : '^' ∉ s) (_h2 : '#' ∉ s) (h3 : '$' ∉ s) (hn : s.length < 536870912) :
    ∃ r, longestPalSubstring_Manacher s = some r ∧
      (∀ w, w <:+: s → w.reverse = w → w.length ≤ r.length) ∧
      (s ≠ [] → 1 ≤ r.length) := by
  by_cases hs : s = []
  · subst hs
    refine ⟨[], rfl, fun w hw _ => ?_, fun h => absurd rfl h⟩
    rw [List.infix_nil.1 hw]
  · obtain ⟨a, L, hr, hL, hpal, hmax, _⟩ := manacher_spec hs h1 h3 hn
    have hl := length_drop_take hpal.1
    refine ⟨_, hr, fun w hw hrev => ?_, fun _ => by rw [hl]; exact hL⟩
    rw [hl]
    exact infix_palindrome_le hmax w hw hrev

/-- C8, amended, at the input `"cbbd"`, where the result is `"bb"`. -/
theorem manacher_maximal_witness :
    '^' ∉ "cbbd".toList ∧ '#' ∉ "cbbd".toList ∧ '$' ∉ "cbbd".toList ∧
      "cbbd".toList.length < 536870912 ∧
      longestPalSubstring_Manacher "cbbd".toList = some "bb".toList ∧
      ∃ r, longestPalSubstring_Manacher "cbbd".toList = some r ∧
        (∀ w, w <:+: "cbbd".toList → w.reverse = w → w.length ≤ r.length) ∧
        ("cbbd".toList ≠ [] → 1 ≤ r.length) :=
  ⟨by decide, by decide, by decide, by decide, by decide,
    manacher_maximal "cbbd".toList (by decide) (by decide) (by decide) (by decide)⟩

/-- C9, counterexample. On `2^29 + 1` characters of `abcabc...` followed by
`"xx"`, an input without `'^'`, `'#'`, `'$'`, the `int` product `2*C` wraps, and
`longestPalSubstring_Manacher` has no result: it is no substring
`s[start .. start+L)` of the input. -/
theorem manacher_no_result_to_place :
    '^' ∉ abcCycle 536870913 ++ ['x', 'x'] ∧ '#' ∉ abcCycle 536870913 ++ ['x', 'x'] ∧
    '$' ∉ abcCycle 536870913 ++ ['x', 'x'] ∧
    longestPalSubstring_Manacher (abcCycle 536870913 ++ ['x', 'x']) = none ∧
    ¬ ∃ start L, longestPalSubstring_Manacher (abcCycle 536870913 ++ ['x', 'x']) =
      some (((abcCycle 536870913 ++ ['x', 'x']).drop start).take L) := by
  have h := manacher_abc_xx 536870913 (by decide) (by decide)
  obtain ⟨_, a2, a3, a4⟩ := abc_xx_admissible 536870913
  refine ⟨a2, a3, a4, h, ?_⟩
  rintro ⟨start, L, hr⟩
  rw [h] at hr
  exact absurd hr (by simp)

/-- C9, amended. For every `s` shorter than `2^29` characters that contains
none of `'^'`, `'#'`, `'$'`, the result of `longestPalSubstring_Manacher` is
`s[start .. start+L)` where `L` is the largest length of a palindromic substring
of `s` and `start` is the smallest index at which a palindromic substring of
length `L` begins. -/
theorem manacher_leftmost (s : List Char)
    (h1 : '^' ∉ s) (_h2 : '#' ∉ s) (h3 : '$' ∉ s) (hn : s.length < 536870912) :
    ∃ start L, longestPalSubstring_Manacher s = some ((s.drop start).take L) ∧
      start + L ≤ s.length ∧
      ((s.drop start).take L).reverse = (s.drop start).take L ∧
      (∀ w, w <:+: s → w.reverse = w → w.length ≤ L) ∧
      (∀ a, a + L ≤ s.length → ((s.drop a).take L).reverse = (s.drop a).take L →
        start ≤ a) := by
  by_cases hs : s = []
  · subst hs
    refine ⟨0, 0, rfl, le_refl _, rfl, fun w hw _ => ?_, fun a _ _ => Nat.zero_le a⟩
    rw [List.infix_nil.1 hw]; exact le_refl _
  · obtain ⟨a, L, hr, _, hpal, hmax, hleft⟩ := manacher_spec hs h1 h3 hn
    exact ⟨a, L, hr, hpal.1, (palS_iff_reverse hpal.1).1 hpal,
      infix_palindrome_le hmax,
      fun a' ha' hrev => hleft a' ((palS_iff_reverse ha').2 hrev)⟩

/-- C9, amended, at the input `"babad"`, where the result is `s[0 .. 3)`, the
first of the two palindromes of length `3`. -/
theorem manacher_leftmost_witness :
    '^' ∉ "babad".toList ∧ '#' ∉ "babad".toList ∧ '$' ∉ "babad".toList ∧
      "babad".toList.length < 536870912 ∧
      longestPalSubstring_Manacher "babad".toList = some ("babad".toList.drop 0 |>.take 3) ∧
      ∃ start L, longestPalSubstring_Manacher "babad".toList =
          some (("babad".toList.drop start).take L) ∧
        start + L ≤ "babad".toList.length ∧
        (("babad".toList.drop start).take L).reverse = ("babad".toList.drop start).take L ∧
        (∀ w, w <:+: "babad".toList → w.reverse = w → w.length ≤ L) ∧
        (∀ a, a + L ≤ "babad".toList.length →
          (("babad".toList.drop a).take L).reverse = ("babad".toList.drop a).take L →
          start ≤ a) :=
  ⟨by decide, by decide, by decide, by decide, by decide,
    manacher_leftmost "babad".toList (by decide) (by decide) (by decide) (by decide)⟩

/-- C17, counterexample. On `2^29 + 2` characters of `abcabc...` followed by
`"xx"`, a non-empty input without `'^'` and `'$'`, the index `mirror` of the
read `P[mirror]` lies beyond the end of `P`, and neither the first loop nor the
function has a result. -/
theorem manacher_mirror_out_of_range :
    abcCycle 536870914 ++ ['x', 'x'] ≠ [] ∧
    '^' ∉ abcCycle 536870914 ++ ['x', 'x'] ∧ '$' ∉ abcCycle 536870914 ++ ['x', 'x'] ∧
    longestPalSubstring_Manacher (abcCycle 536870914 ++ ['x', 'x']) = none := by
  obtain ⟨a1, a2, _, a4⟩ := abc_xx_admissible 536870914
  exact ⟨a1, a2, a4, manacher_abc_xx 536870914 (by decide) (by decide)⟩

/-- C17, amended. Index safety of Manacher: for every non-empty `s` shorter than
`2^29` characters that contains neither `'^'` nor `'$'`, the transformed string
`t` has length `2|s| + 3`; at every inner index `i` the expansion loop, started
from a palindrome radius `p0`, ends at a radius `p ≥ p0` whose test indices
`i - 1 - p` and `i + 1 + p` lie in `0..|t|-1` (and so do those of the earlier
tests, whose radius is smaller); the first loop returns an array whose entry `p`
at every inner index `j`, the radius of the last test there, satisfies
`0 ≤ j - 1 - p` and `j + 1 + p ≤ |t| - 1`; and the final
`start = (center - maxLen) / 2` and `maxLen` satisfy `start + maxLen ≤ |s|`. -/
theorem manacher_index_safe (s : List Char) (hs : s ≠ [])
    (h1 : '^' ∉ s) (h3 : '$' ∉ s) (hn : s.length < 536870912) :
    (manacherT s).length = 2 * s.length + 3 ∧
    (∀ i p0, 1 ≤ i → i + 1 < (manacherT s).length → PalAt (manacherT s) i p0 →
      ∃ p : Nat, mExpand (manacherT s) i (manacherT s).length (p0 : Int) = some (p : Int) ∧
        p0 ≤ p ∧ p + 1 ≤ i ∧ i + 1 + p < (manacherT s).length) ∧
    ∃ (P : List Nat) (maxLen center : Nat),
      mLoop (manacherT s) ((manacherT s).length - 2) 1
        (List.replicate (manacherT s).length 0) 0 0 = some (castL P) ∧
      (∀ j, 1 ≤ j → j + 1 < (manacherT s).length →
        ∃ p, P[j]? = some p ∧ p + 1 ≤ j ∧ j + 1 + p < (manacherT s).length) ∧
      mBest (castL P) ((castL P).length - 2) 1 0 0
        = some ((maxLen : Int), (center : Int)) ∧
      toSize (Int.tdiv (toInt ((center : Int) - (maxLen : Int))) 2)
        + toSize (maxLen : Int) ≤ s.length ∧
      longestPalSubstring_Manacher s =
        some ((s.drop (toSize (Int.tdiv (toInt ((center : Int) - (maxLen : Int))) 2))).take
          (toSize (maxLen : Int))) := by
  have hg := guarded_manacherT h1 h3
  have hlen := mT_length s
  refine ⟨hlen, fun i p0 hi1 hi2 hp0 => ?_, ?_⟩
  · obtain ⟨p, hp, _⟩ :=
      mExpandNat_spec hg hi1 hi2 (manacherT s).length p0 hp0 (by omega)
    obtain ⟨b0, b1, b2⟩ := mExpandNat_bound (manacherT s) i (manacherT s).length p0 p hp
    exact ⟨p, mExpand_sim (manacherT s) (by omega) i (manacherT s).length p0 p hp,
      b0, b1, b2⟩
  · obtain ⟨P, m, c, a, hP, hPN, hbest, _, _, hpal, e3, e4, hres, _⟩ :=
      manacher_run hs h1 h3 hn
    obtain ⟨P', hP', _, hrad⟩ := mLoopNat_spec hg ((manacherT s).length - 2) 1
      (List.replicate (manacherT s).length 0) 0 0 (le_refl 1) (by omega)
      (mInv_init (by omega))
    rw [hPN] at hP'
    have hPP : P = P' := Option.some.inj hP'
    have hin := hpal.1
    refine ⟨P, m, c, hP, fun j hj1 hj2 => ?_, hbest, by rw [e3, e4]; exact hin,
      by rw [e3, e4]; exact hres⟩
    obtain ⟨p, hp, hr⟩ := hrad j hj1 hj2
    obtain ⟨b1, b2⟩ := palAt_interior hg hj1 hj2 hr.1
    exact ⟨p, by rw [hPP]; exact hp, by omega, by omega⟩

/-- C17, amended, at the input `"a#b#a"`, which contains the filler
character. -/
theorem manacher_index_safe_witness :
    "a#b#a".toList ≠ [] ∧ '^' ∉ "a#b#a".toList ∧ '$' ∉ "a#b#a".toList ∧
      "a#b#a".toList.length < 536870912 ∧
      longestPalSubstring_Manacher "a#b#a".toList = some "a#b#a".toList ∧
      ((manacherT "a#b#a".toList).length = 2 * "a#b#a".toList.length + 3 ∧
      (∀ i p0, 1 ≤ i → i + 1 < (manacherT "a#b#a".toList).length →
        PalAt (manacherT "a#b#a".toList) i p0 →
        ∃ p : Nat, mExpand (manacherT "a#b#a".toList) i
            (manacherT "a#b#a".toList).length (p0 : Int) = some (p : Int) ∧
          p0 ≤ p ∧ p + 1 ≤ i ∧ i + 1 + p < (manacherT "a#b#a".toList).length) ∧
      ∃ (P : List Nat) (maxLen center : Nat),
        mLoop (manacherT "a#b#a".toList) ((manacherT "a#b#a".toList).length - 2) 1
          (List.replicate (manacherT "a#b#a".toList).length 0) 0 0 = some (castL P) ∧
        (∀ j, 1 ≤ j → j + 1 < (manacherT "a#b#a".toList).length →
          ∃ p, P[j]? = some p ∧ p + 1 ≤ j ∧
            j + 1 + p < (manacherT "a#b#a".toList).length) ∧
        mBest (castL P) ((castL P).length - 2) 1 0 0
          = some ((maxLen : Int), (center : Int)) ∧
        toSize (Int.tdiv (toInt ((center : Int) - (maxLen : Int))) 2)
          + toSize (maxLen : Int) ≤ "a#b#a".toList.length ∧
        longestPalSubstring_Manacher "a#b#a".toList =
          some (("a#b#a".toList.drop
            (toSize (Int.tdiv (toInt ((center : Int) - (maxLen : Int))) 2))).take
            (toSize (maxLen : Int)))) :=
  ⟨by decide, by decide, by decide, by decide, by decide,
    manacher_index_safe "a#b#a".toList (by decide) (by decide) (by decide) (by decide)⟩

/-- C20, counterexample. On `2^29 + 3` characters of `abcabc...` followed by
`"xx"`, a non-empty input without `'^'` and `'$'` (and without `'#'`), the `int`
product `2*C` wraps and `longestPalSubstring_Manacher` has no result, so that it
is not the leftmost palindromic substring of maximal length. -/
theorem manacher_no_result_without_filler :
    abcCycle 536870915 ++ ['x', 'x'] ≠ [] ∧
    '^' ∉ abcCycle 536870915 ++ ['x', 'x'] ∧ '$' ∉ abcCycle 536870915 ++ ['x', 'x'] ∧
    longestPalSubstring_Manacher (abcCycle 536870915 ++ ['x', 'x']) = none ∧
    ¬ ∃ start L, longestPalSubstring_Manacher (abcCycle 536870915 ++ ['x', 'x']) =
      some (((abcCycle 536870915 ++ ['x', 'x']).drop start).take L) := by
  have h := manacher_abc_xx 536870915 (by decide) (by decide)
  obtain ⟨a1, a2, _, a4⟩ := abc_xx_admissible 536870915
  refine ⟨a1, a2, a4, h, ?_⟩
  rintro ⟨start, L, hr⟩
  rw [h] at hr
  exact absurd hr (by simp)

/-- C20, amended. The filler character is harmless as content: for every
non-empty `s` shorter than `2^29` characters that contains neither `'^'` nor
`'$'`, with or without `'#'`, the result of `longestPalSubstring_Manacher` is
`s[start .. start+L)` where `L` is the largest length of a palindromic substring
of `s` and `start` the smallest index at which one of that length begins. In the
transformed string the odd positions hold the filler and the even inner
positions hold the characters of `s`, and the two positions `i + 1 + p` and
`i - 1 - p` that a test compares have the same parity. -/
theorem manacher_filler_harmless (s : List Char) (hs : s ≠ [])
    (h1 : '^' ∉ s) (h3 : '$' ∉ s) (hn : s.length < 536870912) :
    (∃ start L, longestPalSubstring_Manacher s = some ((s.drop start).take L) ∧
      start + L ≤ s.length ∧
      ((s.drop start).take L).reverse = (s.drop start).take L ∧
      (∀ w, w <:+: s → w.reverse = w → w.length ≤ L) ∧
      (∀ a, a + L ≤ s.length → ((s.drop a).take L).reverse = (s.drop a).take L →
        start ≤ a)) ∧
    (∀ k, k ≤ s.length → (manacherT s)[2 * k + 1]? = some '#') ∧
    (∀ k, k < s.length → (manacherT s)[2 * k + 2]? = s[k]?) ∧
    (∀ i p, p + 1 ≤ i → (i + 1 + p) % 2 = (i - 1 - p) % 2) := by
  refine ⟨?_, fun k hk => mT_odd s hk, fun k hk => mT_even s hk, fun i p h => by omega⟩
  obtain ⟨a, L, hr, _, hpal, hmax, hleft⟩ := manacher_spec hs h1 h3 hn
  exact ⟨a, L, hr, hpal.1, (palS_iff_reverse hpal.1).1 hpal,
    infix_palindrome_le hmax,
    fun a' ha' hrev => hleft a' ((palS_iff_reverse ha').2 hrev)⟩

/-- C20, amended, at the input `"a#a#"`, where the result is `"a#a"`, the first
of the two palindromes of length `3`. -/
theorem manacher_filler_harmless_witness :
    "a#a#".toList ≠ [] ∧ '^' ∉ "a#a#".toList ∧ '$' ∉ "a#a#".toList ∧
      "a#a#".toList.length < 536870912 ∧
      longestPalSubstring_Manacher "a#a#".toList = some "a#a".toList ∧
      ((∃ start L, longestPalSubstring_Manacher "a#a#".toList =
          some (("a#a#".toList.drop start).take L) ∧
        start + L ≤ "a#a#".toList.length ∧
        (("a#a#".toList.drop start).take L).reverse = ("a#a#".toList.drop start).take L ∧
        (∀ w, w <:+: "a#a#".toList → w.reverse = w → w.length ≤ L) ∧
        (∀ a, a + L ≤ "a#a#".toList.length →
          (("a#a#".toList.drop a).take L).reverse = ("a#a#".toList.drop a).take L →
          start ≤ a)) ∧
      (∀ k, k ≤ "a#a#".toList.length →
        (manacherT "a#a#".toList)[2 * k + 1]? = some '#') ∧
      (∀ k, k < "a#a#".toList.length →
        (manacherT "a#a#".toList)[2 * k + 2]? = "a#a#".toList[k]?) ∧
      (∀ i p, p + 1 ≤ i → (i + 1 + p) % 2 = (i - 1 - p) % 2)) :=
  ⟨by decide, by decide, by decide, by decide, by decide,
    manacher_filler_harmless "a#a#".toList (by decide) (by decide) (by decide)
      (by decide)⟩

/-! ## Order of the suffix array -/

/-- The comparison `strLt` is the strict lexicographic order on character codes,
in which a proper prefix is smaller. -/
theorem strLt_iff_lex :
    ∀ (a b : List Char), strLt a b = true ↔ List.Lex (· < ·) a b := by
  intro a
  induction a with
  | nil =>
    intro b
    cases b with
    | nil => simp [strLt]
    | cons y ys => simp [strLt, List.Lex.nil]
  | cons x xs ih =>
    intro b
    cases b with
    | nil => simp [strLt]
    | cons y ys =>
      rw [strLt]
      by_cases hxy : x < y
      · rw [if_pos hxy]
        exact ⟨fun _ => List.Lex.rel hxy, fun _ => rfl⟩
      · rw [if_neg hxy]
        by_cases hyx : y < x
        · rw [if_pos hyx]
          constructor
          · intro h; exact absurd h (by simp)
          · intro h
            cases h with
            | cons h' => exact absurd hyx (lt_irrefl _)
            | rel h' => exact absurd h' hxy
        · rw [if_neg hyx]
          have hE : x = y := le_antisymm (not_lt.1 hyx) (not_lt.1 hxy)
          subst hE
          rw [ih ys]
          constructor
          · exact List.Lex.cons
          · intro h
            cases h with
            | cons h' => exact h'
            | rel h' => exact absurd h' hxy

theorem strLt_false_iff {a b : List Char} :
    strLt a b = false ↔ ¬ List.Lex (· < ·) a b := by
  rw [← strLt_iff_lex, Bool.not_eq_true]

theorem strLt_total (a b : List Char) : strLt b a = false ∨ strLt a b = false := by
  rw [strLt_false_iff, strLt_false_iff]
  by_cases h : List.Lex (· < ·) b a
  · exact Or.inr (IsAsymm.asymm b a h)
  · exact Or.inl h

theorem strLt_le_trans {a b c : List Char} (h1 : strLt b a = false)
    (h2 : strLt c b = false) : strLt c a = false := by
  rw [strLt_false_iff] at h1 h2 ⊢
  intro h
  rcases IsOrderConnected.conn c b a h with hc | hc
  · exact h2 hc
  · exact h1 hc

theorem lex_or_eq_of_strLt {a b : List Char} (h : strLt b a = false) :
    List.Lex (· < ·) a b ∨ a = b := by
  rw [strLt_false_iff] at h
  have ht : List.Lex (· < ·) a b ∨ a = b ∨ List.Lex (· < ·) b a :=
    IsTrichotomous.trichotomous a b
  rcases ht with h' | h' | h'
  · exact Or.inl h'
  · exact Or.inr h'
  · exact absurd h' h

/-- The sort of `suffixArrayNaive` leaves no element before one that compares
smaller. -/
theorem stdSort_sorted (l : List (List Char × Nat)) :
    List.Sorted (fun x y => strLt y.1 x.1 = false)
      (stdSort (fun a b => strLt a.1 b.1) l) := by
  haveI : IsTotal (List Char × Nat) (fun x y => strLt y.1 x.1 = false) :=
    ⟨fun x y => strLt_total x.1 y.1⟩
  haveI : IsTrans (List Char × Nat) (fun x y => strLt y.1 x.1 = false) :=
    ⟨fun _ _ _ h1 h2 => strLt_le_trans h1 h2⟩
  exact List.sorted_insertionSort (fun x y => strLt y.1 x.1 = false) l

theorem stdSort_perm (l : List (List Char × Nat)) :
    (stdSort (fun a b => strLt a.1 b.1) l).Perm l :=
  List.perm_insertionSort _ l

/-- The order that the sort produces is the only one a sort can produce: every
arrangement of the suffixes of `s` in which no element stands before one that
compares smaller gives the array `suffixArrayNaive s`. -/
theorem suffixArrayNaive_unique (s : List Char) (l : List (List Char × Nat))
    (hp : l.Perm ((List.range s.length).map (fun i => (s.drop i, i))))
    (hs : l.Pairwise (fun x y => strLt y.1 x.1 = false)) :
    l.map Prod.snd = suffixArrayNaive s := by
  have hL := stdSort_sorted ((List.range s.length).map (fun i => (s.drop i, i)))
  have hP := stdSort_perm ((List.range s.length).map (fun i => (s.drop i, i)))
  have hmem : ∀ z, z ∈ (List.range s.length).map (fun i => (s.drop i, i)) →
      z.1 = s.drop z.2 ∧ z.2 < s.length := by
    intro z hz
    obtain ⟨k, hk, rfl⟩ := List.mem_map.1 hz
    exact ⟨rfl, List.mem_range.1 hk⟩
  have w : ∀ a b, a ∈ l →
      b ∈ stdSort (fun a b => strLt a.1 b.1)
        ((List.range s.length).map (fun i => (s.drop i, i))) →
      strLt b.1 a.1 = false → strLt a.1 b.1 = false → a = b := by
    intro a b ha hb h1 h2
    obtain ⟨a1, a2⟩ := hmem a (hp.mem_iff.1 ha)
    obtain ⟨b1, b2⟩ := hmem b (hP.mem_iff.1 hb)
    have hab : a.1 = b.1 := by
      rcases lex_or_eq_of_strLt h1 with h | h
      · exact absurd h (strLt_false_iff.1 h2)
      · exact h
    have hlen := congrArg List.length hab
    rw [a1, b1, List.length_drop, List.length_drop] at hlen
    exact Prod.ext hab (by omega)
  have := List.Perm.eq_of_sorted w hs hL (hp.trans hP.symm)
  rw [this]
  rfl

/-- C11. For every sequence `s` and every pair of positions `i < j` of
`SA = suffixArrayNaive s`, the suffix `s[SA[i]..]` is lexicographically less than
or equal to the suffix `s[SA[j]..]`, in the lexicographic order on character
codes in which a proper prefix is smaller; in terms of the comparator,
`s[SA[j]..] < s[SA[i]..]` is false. -/
theorem suffixArrayNaive_sorted (s : List Char) (i j a b : Nat) (hij : i < j)
    (ha : (suffixArrayNaive s)[i]? = some a) (hb : (suffixArrayNaive s)[j]? = some b) :
    (List.Lex (· < ·) (s.drop a) (s.drop b) ∨ s.drop a = s.drop b) ∧
      strLt (s.drop b) (s.drop a) = false := by
  have hs := stdSort_sorted ((List.range s.length).map (fun i => (s.drop i, i)))
  have hp := stdSort_perm ((List.range s.length).map (fun i => (s.drop i, i)))
  unfold suffixArrayNaive at ha hb
  rw [List.getElem?_map] at ha hb
  obtain ⟨x, hx, hxa⟩ := Option.map_eq_some'.1 ha
  obtain ⟨y, hy, hyb⟩ := Option.map_eq_some'.1 hb
  obtain ⟨hi, hxi⟩ := List.getElem?_eq_some.1 hx
  obtain ⟨hj, hyj⟩ := List.getElem?_eq_some.1 hy
  have hsuf : ∀ z, z ∈ stdSort (fun a b => strLt a.1 b.1)
      ((List.range s.length).map (fun i => (s.drop i, i))) → z.1 = s.drop z.2 := by
    intro z hz
    obtain ⟨k, _, rfl⟩ := List.mem_map.1 (hp.mem_iff.1 hz)
    rfl
  have hx1 : x.1 = s.drop a := by rw [← hxa]; exact hsuf x (hxi ▸ List.getElem_mem hi)
  have hy1 : y.1 = s.drop b := by rw [← hyb]; exact hsuf y (hyj ▸ List.getElem_mem hj)
  have hle : strLt y.1 x.1 = false := by
    have := List.pairwise_iff_getElem.1 hs i j hi hj hij
    rwa [hxi, hyj] at this
  rw [hx1, hy1] at hle
  exact ⟨lex_or_eq_of_strLt hle, hle⟩

/-- C11 at `"banana"`, whose suffix array is `[5, 3, 1, 0, 4, 2]`: the suffix
`"a"` at position `0` of the array and the suffix `"ana"` at position `1`. -/
theorem suffixArrayNaive_sorted_witness :
    (0 : Nat) < 1 ∧ (suffixArrayNaive "banana".toList)[0]? = some 5 ∧
      (suffixArrayNaive "banana".toList)[1]? = some 3 ∧
      suffixArrayNaive "banana".toList = [5, 3, 1, 0, 4, 2] ∧
      ((List.Lex (· < ·) ("banana".toList.drop 5) ("banana".toList.drop 3) ∨
          "banana".toList.drop 5 = "banana".toList.drop 3) ∧
        strLt ("banana".toList.drop 3) ("banana".toList.drop 5) = false) :=
  ⟨by decide, by decide, by decide, by decide,
    suffixArrayNaive_sorted "banana".toList 0 1 5 3 (by decide) (by decide) (by decide)⟩

/-! ## The concrete scenarios of the specification -/

theorem scenario_buildLPS_abcaby :
    buildLPS "abcaby".toList = some [0, 0, 0, 1, 2, 0] := by decide

theorem scenario_buildLPS_aabaaab :
    buildLPS "aabaaab".toList = some [0, 1, 0, 1, 2, 2, 3] := by decide

theorem scenario_kmpSearch :
    kmpSearch "abxabcabcaby".toList "abcaby".toList = some [6] := by decide

theorem scenario_zSearch :
    zSearch "abcabcabc".toList "abc".toList = some [0, 3, 6] := by decide

theorem scenario_manacher :
    longestPalSubstring_Manacher "babad".toList = some "bab".toList := by decide

theorem scenario_suffixArrayNaive :
    suffixArrayNaive "banana".toList = [5, 3, 1, 0, 4, 2] := by decide

end StringAlgos
